import Mathlib

/-!
Verification development for a command-line utility (prompt.py) that renders a
file-map section and a file-contents section for a list of input paths and
places the concatenation on the clipboard.

The program is shallowly embedded: paths are Lean strings with the separator
character between segments, a directory tree is the inductive type Entry, the
per-invocation gitignore decision cache is an association list, and the walk
functions of the renderer are executable recursive functions that mirror the
control flow of build_file_map and build_file_contents, including the order of
cache reads and writes.  External collaborators (the media-type table, the
JSON codec of the standard library) are modelled by executable fragments that
follow the documented behaviour of those libraries on the inputs the program
feeds them; the JSON model covers null, booleans, arbitrary-precision
integers, strings, arrays and objects, which is the integer fragment of the
library codec.
-/

set_option maxRecDepth 20000

/-! ## String primitives

Python string comparison is lexicographic on code points; str.split on a
separator keeps empty pieces; str.strip removes ASCII whitespace at both
ends.  These are modelled on the underlying character lists. -/

/-- Lexicographic code-point comparison of character lists, the order used by
the built-in string comparison that sorted() relies on. -/
def charsLe : List Char → List Char → Bool
  | [], _ => true
  | _ :: _, [] => false
  | a :: as, b :: bs =>
    if a.toNat < b.toNat then true
    else if b.toNat < a.toNat then false
    else charsLe as bs

/-- Python string less-or-equal. -/
def strLe (a b : String) : Bool := charsLe a.data b.data

/-- The sorting relation of sorted() on strings. -/
def strRel (a b : String) : Prop := strLe a b = true

instance : DecidableRel strRel := fun a b => instDecidableEqBool (strLe a b) true

instance : IsTotal String strRel := by
  constructor
  intro a b
  show strLe a b = true ∨ strLe b a = true
  unfold strLe
  generalize a.data = x
  generalize b.data = y
  induction x generalizing y with
  | nil => left; rfl
  | cons c cs ih =>
    cases y with
    | nil => right; rfl
    | cons d ds =>
      by_cases h1 : c.toNat < d.toNat
      · left; simp [charsLe, h1]
      · by_cases h2 : d.toNat < c.toNat
        · right; simp [charsLe, h1, h2]
        · have := ih ds
          cases this with
          | inl h => left; simpa [charsLe, h1, h2] using h
          | inr h => right; simpa [charsLe, h1, h2] using h

instance : IsTrans String strRel := by
  constructor
  intro a b c
  show strLe a b = true → strLe b c = true → strLe a c = true
  unfold strLe
  generalize a.data = x
  generalize b.data = y
  generalize c.data = z
  induction x generalizing y z with
  | nil => intro _ _; rfl
  | cons p ps ih =>
    cases y with
    | nil => intro h; simp [charsLe] at h
    | cons q qs =>
      cases z with
      | nil => intro _ h; simp [charsLe] at h
      | cons r rs =>
        intro hab hbc
        simp only [charsLe] at hab hbc ⊢
        rcases Nat.lt_trichotomy p.toNat q.toNat with h1 | h1 | h1 <;>
          rcases Nat.lt_trichotomy q.toNat r.toNat with h2 | h2 | h2
        · simp [show p.toNat < r.toNat by omega]
        · simp [show p.toNat < r.toNat by omega]
        · simp [show ¬ q.toNat < r.toNat by omega, h2] at hbc
        · simp [show p.toNat < r.toNat by omega]
        · simp [show ¬ p.toNat < q.toNat by omega,
                show ¬ q.toNat < p.toNat by omega] at hab
          simp [show ¬ q.toNat < r.toNat by omega,
                show ¬ r.toNat < q.toNat by omega] at hbc
          simp [show ¬ p.toNat < r.toNat by omega,
                show ¬ r.toNat < p.toNat by omega]
          exact ih qs rs hab hbc
        · simp [show ¬ q.toNat < r.toNat by omega, h2] at hbc
        · simp [show ¬ p.toNat < q.toNat by omega, h1] at hab
        · simp [show ¬ p.toNat < q.toNat by omega, h1] at hab
        · simp [show ¬ p.toNat < q.toNat by omega, h1] at hab

instance : IsAntisymm String strRel := by
  constructor
  intro a b
  show strLe a b = true → strLe b a = true → a = b
  intro hab hba
  have : a.data = b.data := by
    revert hab hba
    unfold strLe
    generalize a.data = x
    generalize b.data = y
    induction x generalizing y with
    | nil =>
      cases y with
      | nil => intro _ _; rfl
      | cons d ds => intro _ h; simp [charsLe] at h
    | cons c cs ih =>
      cases y with
      | nil => intro h _; simp [charsLe] at h
      | cons d ds =>
        intro hab hba
        simp only [charsLe] at hab hba
        rcases Nat.lt_trichotomy c.toNat d.toNat with h1 | h1 | h1
        · simp [show ¬ d.toNat < c.toNat by omega, h1] at hba
        · have hc : c = d := by
            have := congrArg Char.ofNat h1
            rwa [Char.ofNat_toNat, Char.ofNat_toNat] at this
          simp [show ¬ c.toNat < d.toNat by omega,
                show ¬ d.toNat < c.toNat by omega] at hab hba
          rw [hc, ih ds hab hba]
        · simp [show ¬ c.toNat < d.toNat by omega, h1] at hab
  cases a; cases b; exact congrArg String.mk this

/-- sorted() on a list of strings: any correct comparison sort (equal strings
are identical, so stability is invisible). -/
def sortedStr (l : List String) : List String := List.insertionSort strRel l

/-- str.split(sep) on character lists: splits at every separator occurrence
and keeps empty pieces, like the Python method. -/
def splitOnCh (sep : Char) : List Char → List (List Char)
  | [] => [[]]
  | c :: rest =>
    match splitOnCh sep rest with
    | [] => [[]]
    | s :: ss => if c = sep then [] :: s :: ss else (c :: s) :: ss

/-- path.split(os.sep): the filesystem segments of a path string. -/
def segsOf (p : String) : List String := (splitOnCh '/' p.data).map String.mk

/-- os.path.basename: the text after the last separator. -/
def basename (p : String) : String := (segsOf p).getLastD ""

/-- Joining a root path with the relative segments accumulated by os.walk:
each step appends a separator and the entry name, exactly how os.walk builds
the dirpath strings it yields. -/
def pathOf (top : String) (rel : List String) : String :=
  rel.foldl (fun acc s => acc ++ "/" ++ s) top

/-- str(PurePath) for a nonempty relative path: segments joined by the
separator. -/
def joinSegs : List String → String
  | [] => "."
  | [s] => s
  | s :: rest => s ++ "/" ++ joinSegs rest

/-- The 4-spaces-per-level indentation of the map section. -/
def indentStr : Nat → String
  | 0 => ""
  | n + 1 => "    " ++ indentStr n

/-- Python ASCII whitespace recognised by str.strip. -/
def isPyWs (c : Char) : Bool :=
  c = ' ' || c = '\t' || c = '\n' || c = '\r' || c = '\x0b' || c = '\x0c'

/-- str.strip(): drop whitespace from both ends. -/
def stripPy (cs : List Char) : List Char :=
  ((cs.dropWhile isPyWs).reverse.dropWhile isPyWs).reverse

/-- The substring test used on media-type strings (the in operator on str). -/
def isSubOf (needle hay : List Char) : Bool :=
  if needle.isPrefixOf hay then true
  else
    match hay with
    | [] => false
    | _ :: t => isSubOf needle t

/-- s1 in s2 for strings. -/
def containsSub (needle hay : String) : Bool := isSubOf needle.data hay.data

/-! ## fnmatch

Shell-glob matching as implemented by the fnmatch module on a POSIX system
(no case folding): the star matches any character sequence including the
separator, the question mark any single character, and a bracketed class a
single character from the class, with a leading exclamation mark negating the
class, a range between two characters, and an unclosed opening bracket taken
literally.  The matcher is written with a structural fuel argument so that it
evaluates inside the kernel; the fuel passed by fnmatch always suffices
because every recursive call shrinks the pattern or the string. -/

/-- Split a class body at its closing bracket; a closing bracket in first
position belongs to the class.  Returns none when the class is unclosed. -/
def classSplitAux : List Char → Option (List Char × List Char)
  | [] => none
  | ']' :: r => some ([], r)
  | c :: r =>
    match classSplitAux r with
    | some (b, rr) => some (c :: b, rr)
    | none => none

/-- Split off a bracketed class body, treating a leading closing bracket as a
literal member. -/
def classSplit : List Char → Option (List Char × List Char)
  | ']' :: rest =>
    match classSplitAux rest with
    | some (b, r) => some (']' :: b, r)
    | none => none
  | cs => classSplitAux cs

/-- Membership of a character in a class body, with ranges; a hyphen at
either end is literal, an empty range matches nothing. -/
def classMatch : List Char → Char → Bool
  | [], _ => false
  | [x], c => x = c
  | x :: '-' :: y :: rest, c =>
    (x.toNat ≤ c.toNat && c.toNat ≤ y.toNat) || classMatch rest c
  | x :: rest, c => x = c || classMatch rest c

/-- Fuel-indexed glob matcher over (pattern, string). -/
def globAux : Nat → List Char → List Char → Bool
  | 0, _, _ => false
  | _ + 1, [], s => s.isEmpty
  | fuel + 1, '*' :: p, s =>
    globAux fuel p s ||
      (match s with
       | [] => false
       | _ :: s2 => globAux fuel ('*' :: p) s2)
  | fuel + 1, '?' :: p, s =>
    match s with
    | [] => false
    | _ :: s2 => globAux fuel p s2
  | fuel + 1, '[' :: p, s =>
    let negBody := match p with
      | '!' :: t => (true, t)
      | _ => (false, p)
    match classSplit negBody.2 with
    | some (body, rest) =>
      (match s with
       | [] => false
       | c :: s2 => (negBody.1 != classMatch body c) && globAux fuel rest s2)
    | none =>
      (match s with
       | [] => false
       | c :: s2 => (c = '[') && globAux fuel p s2)
  | fuel + 1, ch :: p, s =>
    match s with
    | [] => false
    | c :: s2 => (c = ch) && globAux fuel p s2

/-- fnmatch.fnmatch(name, pattern) on a POSIX system. -/
def fnmatch (name pat : String) : Bool :=
  globAux (pat.data.length + name.data.length + 1) pat.data name.data

/-! ## The Ignore Filter (static deny-list, gitignore patterns, cache) -/

/-- The static deny-list of the program, verbatim. -/
def IGNORE_PATTERNS : List String :=
  [".DS_Store", ".Spotlight-V100", ".Trashes", ".fseventsd", ".AppleDouble",
   "node_modules", "vendor", ".git", ".svn", ".hg", "dist",
   "__pycache__", ".pyc", ".pyo", ".pyd", ".cache", ".idea", ".vscode", ".pytest_cache",
   ".o", ".obj", ".so", ".dylib", ".dll", ".exe", ".env"]

/-- The per-invocation decision cache: a dict from absolute path to a boolean
ignore decision.  Assignment conses and lookup takes the most recent binding,
which observes exactly like the Python dict. -/
abbrev Cache := List (String × Bool)

/-- dict lookup. -/
def cacheLookup : Cache → String → Option Bool
  | [], _ => none
  | (k, v) :: rest, key => if k = key then some v else cacheLookup rest key

/-- dict assignment. -/
def cacheInsert (c : Cache) (k : String) (v : Bool) : Cache := (k, v) :: c

/-- should_ignore(path, gitignore_cache): a static fragment occurring as a
path segment forces exclusion; otherwise the cached decision is consulted
when present, and the default is inclusion.  The empty cache behaves like the
None default of the Python parameter. -/
def should_ignore (path : String) (gitignore_cache : Cache) : Bool :=
  if IGNORE_PATTERNS.any (fun pattern => (segsOf path).contains pattern) then true
  else
    match cacheLookup gitignore_cache path with
    | some b => b
    | none => false

/-- GitIgnore.load: the non-empty, non-comment stripped lines of the rules
file, in order.  A file that cannot be read contributes nothing (the Python
code catches the exception), which callers model by not invoking this. -/
def GitIgnore.loadLines (content : String) : List String :=
  ((splitOnCh '\n' content.data).map stripPy).filterMap
    (fun l =>
      if l.isEmpty then none
      else if l.head? = some '#' then none
      else some (String.mk l))

/-- GitIgnore.matches(path, root): the path relative to the root, or the base
name alone, matches some loaded pattern after a single leading separator is
stripped from the pattern.  Path.relative_to is modelled by dropping the root
and the separator, which is what it returns on the walk-generated paths this
program feeds it. -/
def GitIgnore.matches (patterns : List String) (path : String) (root : String) : Bool :=
  let rel_path := String.mk (path.data.drop (root.data.length + 1))
  patterns.any (fun pattern =>
    let pattern := if pattern.data.head? = some '/' then String.mk (pattern.data.drop 1)
      else pattern
    fnmatch rel_path pattern || fnmatch (basename path) pattern)

/-! ## JSON (the fragment of the standard json module the program uses)

get_file_contents feeds the content of a .json file to json.loads and, on
success, re-serialises the parsed value with json.dumps(parsed, indent=4).
The value model covers null, booleans, arbitrary-precision integers, strings
of representable characters, arrays and objects — the integer fragment of
the library codec.  The decoder model is three-valued: a raised
JSONDecodeError is `none`; an input the library parses to a value the model
cannot represent — a numeral the scanner's number expression classifies as a
float, a NaN, Infinity or -Infinity constant, or a string escape the scanner
keeps as a lone surrogate — is `some none`, and from the first such token
the model stops tracking the library, so no theorem constrains that
outcome; a parse within the fragment is `some (some v)`.  Objects are built
by successive dict assignment, so a repeated key keeps its first position
and its last value, as the library's dict does.  Serialisation follows the
library with its defaults: indent=4 gives item separator a bare comma, key
separator a colon and a space, insertion order of keys, and ensure_ascii
escapes every character outside printable ASCII. -/

inductive JValue where
  | null
  | bool (b : Bool)
  | num (n : Int)
  | str (s : String)
  | arr (elems : List JValue)
  | obj (members : List (String × JValue))

/-- Decimal digit character. -/
def digitCh (n : Nat) : Char := Char.ofNat (48 + n)

/-- Decimal rendering of a natural number, most significant digit first,
with a structural fuel that always suffices at fuel = n + 1. -/
def natDigsAux : Nat → Nat → List Char
  | 0, _ => []
  | fuel + 1, n =>
    if n < 10 then [digitCh n] else natDigsAux fuel (n / 10) ++ [digitCh (n % 10)]

/-- Decimal rendering of a natural number. -/
def natDigs (n : Nat) : List Char := natDigsAux (n + 1) n

/-- int.__repr__, the integer serialisation used by json.dumps. -/
def intRepr : Int → String
  | .ofNat n => String.mk (natDigs n)
  | .negSucc n => "-" ++ String.mk (natDigs (n + 1))

/-- Lowercase hexadecimal digit character. -/
def hexDigitCh (n : Nat) : Char :=
  if n < 10 then Char.ofNat (48 + n) else Char.ofNat (87 + n)

/-- Four lowercase hex digits, as produced by the %04x escapes of the
serialiser. -/
def hex4 (n : Nat) : List Char :=
  [hexDigitCh (n / 4096 % 16), hexDigitCh (n / 256 % 16),
   hexDigitCh (n / 16 % 16), hexDigitCh (n % 16)]

/-- The escape of one character under ensure_ascii: the named escapes, a
literal for printable ASCII, a u-escape for other basic-plane characters and
a surrogate pair for the rest. -/
def escChar (c : Char) : List Char :=
  if c = '"' then ['\\', '"']
  else if c = '\\' then ['\\', '\\']
  else if c = '\n' then ['\\', 'n']
  else if c = '\t' then ['\\', 't']
  else if c = '\r' then ['\\', 'r']
  else if c = '\x08' then ['\\', 'b']
  else if c = '\x0c' then ['\\', 'f']
  else if 0x20 ≤ c.toNat ∧ c.toNat ≤ 0x7e then [c]
  else if c.toNat ≤ 0xffff then '\\' :: 'u' :: hex4 c.toNat
  else
    ('\\' :: 'u' :: hex4 (0xd800 + (c.toNat - 0x10000) / 0x400)) ++
      ('\\' :: 'u' :: hex4 (0xdc00 + (c.toNat - 0x10000) % 0x400))

/-- The escaped body of a string literal. -/
def escBody (cs : List Char) : List Char :=
  cs.foldr (fun c acc => escChar c ++ acc) []

/-- A double-quoted JSON string literal. -/
def jsonQuote (s : String) : String :=
  String.mk ('"' :: escBody s.data ++ ['"'])

mutual

/-- The size measure that bounds the parser fuel a value needs. -/
def jfuel : JValue → Nat
  | .null => 1
  | .bool _ => 1
  | .num _ => 1
  | .str _ => 1
  | .arr xs => 1 + jfuelElems xs
  | .obj ms => 1 + jfuelMembers ms

/-- Fuel measure of a list of array elements. -/
def jfuelElems : List JValue → Nat
  | [] => 0
  | x :: xs => 1 + jfuel x + jfuelElems xs

/-- Fuel measure of a list of object members. -/
def jfuelMembers : List (String × JValue) → Nat
  | [] => 0
  | (_, v) :: ms => 1 + jfuel v + jfuelMembers ms

end

/-- No key occurs twice in the member list. -/
def distinctKeys : List (String × JValue) → Bool
  | [] => true
  | m :: rest => !(rest.any (fun x => x.1 == m.1)) && distinctKeys rest

mutual

/-- The values the decoder can output: every object node carries distinct
keys, because it was built by dict assignment. -/
def jwf : JValue → Bool
  | .null => true
  | .bool _ => true
  | .num _ => true
  | .str _ => true
  | .arr xs => jwfElems xs
  | .obj ms => distinctKeys ms && jwfMembers ms

/-- Well-formedness of the elements of an array. -/
def jwfElems : List JValue → Bool
  | [] => true
  | x :: xs => jwf x && jwfElems xs

/-- Well-formedness of the values of an object's members. -/
def jwfMembers : List (String × JValue) → Bool
  | [] => true
  | (_, v) :: ms => jwf v && jwfMembers ms

end

mutual

/-- json.dumps(v, indent=4), recursively: the level argument is the nesting
depth, items are laid out one per line, indented four further spaces, the
item separator is a comma and the key separator a colon and a space; empty
containers stay on one line. -/
def json_dumps_val : JValue → Nat → String
  | .null, _ => "null"
  | .bool true, _ => "true"
  | .bool false, _ => "false"
  | .num n, _ => intRepr n
  | .str s, _ => jsonQuote s
  | .arr [], _ => "[]"
  | .arr (x :: xs), lvl =>
    "[\n" ++ json_dumps_items (x :: xs) (lvl + 1) ++ "\n" ++ indentStr lvl ++ "]"
  | .obj [], _ => "\x7b\x7d"
  | .obj (m :: ms), lvl =>
    "\x7b\n" ++ json_dumps_members (m :: ms) (lvl + 1) ++ "\n" ++ indentStr lvl ++ "\x7d"

/-- The comma-and-newline separated item lines of a non-empty array. -/
def json_dumps_items : List JValue → Nat → String
  | [], _ => ""
  | [x], lvl => indentStr lvl ++ json_dumps_val x lvl
  | x :: y :: ys, lvl =>
    indentStr lvl ++ json_dumps_val x lvl ++ ",\n" ++ json_dumps_items (y :: ys) lvl

/-- The comma-and-newline separated member lines of a non-empty object. -/
def json_dumps_members : List (String × JValue) → Nat → String
  | [], _ => ""
  | [(k, v)], lvl => indentStr lvl ++ jsonQuote k ++ ": " ++ json_dumps_val v lvl
  | (k, v) :: m :: ms, lvl =>
    indentStr lvl ++ jsonQuote k ++ ": " ++ json_dumps_val v lvl ++ ",\n" ++
      json_dumps_members (m :: ms) lvl

end

/-- json.dumps(v, indent=4). -/
def json_dumps (v : JValue) : String := json_dumps_val v 0

/-- The whitespace characters the json decoder skips. -/
def jWs (c : Char) : Bool := c = ' ' || c = '\t' || c = '\n' || c = '\r'

/-- Skip decoder whitespace. -/
def skipWs : List Char → List Char
  | [] => []
  | c :: rest => if jWs c then skipWs rest else c :: rest

/-- The numeric value of a decimal digit character. -/
def digitVal (c : Char) : Option Nat :=
  if 48 ≤ c.toNat ∧ c.toNat ≤ 57 then some (c.toNat - 48) else none

/-- Whether the input starts with a decimal digit. -/
def headDigit : List Char → Bool
  | [] => false
  | c :: _ => (digitVal c).isSome

/-- Accumulate consecutive digits into a value. -/
def munchDigits : List Char → Nat → Nat × List Char
  | [], acc => (acc, [])
  | c :: rest, acc =>
    match digitVal c with
    | some d => munchDigits rest (acc * 10 + d)
    | none => (acc, c :: rest)

/-- Parse an unsigned integer literal with the grammar of the decoder: a
single zero, or a nonzero leading digit followed by digits (a longer token
starting with zero stops after the zero, exactly where the scanner's regular
expression stops). -/
def parseNatNum : List Char → Option (Nat × List Char)
  | [] => none
  | c :: rest =>
    match digitVal c with
    | none => none
    | some d => if d = 0 then some (0, rest) else some (munchDigits rest d)

/-- The numeric value of a hexadecimal digit character, either case. -/
def parseHex (c : Char) : Option Nat :=
  if 48 ≤ c.toNat ∧ c.toNat ≤ 57 then some (c.toNat - 48)
  else if 97 ≤ c.toNat ∧ c.toNat ≤ 102 then some (c.toNat - 87)
  else if 65 ≤ c.toNat ∧ c.toNat ≤ 70 then some (c.toNat - 55)
  else none

/-- The named escapes accepted after a backslash. -/
def escDecode (e : Char) : Option Char :=
  if e = '"' then some '"'
  else if e = '\\' then some '\\'
  else if e = '/' then some '/'
  else if e = 'b' then some '\x08'
  else if e = 'f' then some '\x0c'
  else if e = 'n' then some '\n'
  else if e = 'r' then some '\r'
  else if e = 't' then some '\t'
  else none

/-- Map over the value of a successful three-valued decoder result, keeping
the raised (`none`) and outside-the-fragment (`some none`) outcomes. -/
def jmap {α β : Type} (g : α → β) :
    Option (Option (α × List Char)) → Option (Option (β × List Char))
  | some (some (a, r)) => some (some (g a, r))
  | some none => some none
  | none => none

/-- Whether the characters after an integer literal begin the fractional or
exponent group of the scanner's number expression
(-?(?:0|[1-9]\d*))(\.\d+)?([eE][-+]?\d+)?: then the numeral is a float,
outside the modelled fragment. -/
def floatCont : List Char → Bool
  | '.' :: c :: _ => (digitVal c).isSome
  | 'e' :: '+' :: c :: _ => (digitVal c).isSome
  | 'e' :: '-' :: c :: _ => (digitVal c).isSome
  | 'e' :: c :: _ => (digitVal c).isSome
  | 'E' :: '+' :: c :: _ => (digitVal c).isSome
  | 'E' :: '-' :: c :: _ => (digitVal c).isSome
  | 'E' :: c :: _ => (digitVal c).isSome
  | _ => false

/-- dict assignment d[k] = v on members in insertion order: an existing key
keeps its position and takes the new value, a new key is appended. -/
def dictInsert (ms : List (String × JValue)) (k : String) (v : JValue) :
    List (String × JValue) :=
  if ms.any (fun m => m.1 == k) then ms.map (fun m => if m.1 == k then (k, v) else m)
  else ms ++ [(k, v)]

/-- dict(pairs): successive assignment of the parsed members, as the object
hook of the decoder performs it. -/
def dictify (ms : List (String × JValue)) : List (String × JValue) :=
  ms.foldl (fun d m => dictInsert d m.1 m.2) []

/-- s[idx:idx+n] == lit, the scanner's constant test: the literal is a prefix
of the input, and what follows it is returned. -/
def literalAt : List Char → List Char → Option (List Char)
  | [], cs => some cs
  | l :: ls, c :: cs => if c = l then literalAt ls cs else none
  | _ :: _, [] => none

/-- The outcome of the scanner's number expression at the current position:
it does not match (the scanner then tries the constants), it matches with a
fractional or exponent group (a float, outside the fragment), or it matches
an integer. -/
inductive NumScan where
  | noMatch
  | float
  | int (n : Int) (rest : List Char)

/-- Match the number expression: an optional sign followed by an integer
literal, classified a float when a fractional or exponent group follows. -/
def numScan : List Char → NumScan
  | '-' :: rest =>
    (match parseNatNum rest with
     | none => .noMatch
     | some (n, r) => if floatCont r then .float else .int (-(n : Int)) r)
  | cs =>
    match parseNatNum cs with
    | none => .noMatch
    | some (n, r) => if floatCont r then .float else .int (n : Int) r

/-- Parse the body of a string literal up to its closing quote, decoding
escapes and recombining surrogate pairs, rejecting raw control characters
and invalid escapes as the strict decoder does.  An escape the scanner keeps
as a lone surrogate yields a character no Lean string holds: the outcome is
`some none`, outside the fragment.  Each step consumes input, so fuel equal
to the input length suffices. -/
def parseStrBody : Nat → List Char → Option (Option (List Char × List Char))
  | 0, _ => none
  | _ + 1, '"' :: rest => some (some ([], rest))
  | fuel + 1, '\\' :: 'u' :: h1 :: h2 :: h3 :: h4 :: rest =>
    match parseHex h1, parseHex h2, parseHex h3, parseHex h4 with
    | some a, some b, some c, some d =>
      let n := a * 4096 + b * 256 + c * 16 + d
      if 0xd800 ≤ n ∧ n ≤ 0xdbff then
        match rest with
        | '\\' :: 'u' :: g1 :: g2 :: g3 :: g4 :: rest2 =>
          (match parseHex g1, parseHex g2, parseHex g3, parseHex g4 with
           | some w, some x, some y, some z =>
             let m := w * 4096 + x * 256 + y * 16 + z
             if 0xdc00 ≤ m ∧ m ≤ 0xdfff then
               jmap (fun p => Char.ofNat (0x10000 + (n - 0xd800) * 0x400 + (m - 0xdc00)) :: p)
                 (parseStrBody fuel rest2)
             else some none
           | _, _, _, _ => none)
        | _ => some none
      else if 0xdc00 ≤ n ∧ n ≤ 0xdfff then some none
      else jmap (fun p => Char.ofNat n :: p) (parseStrBody fuel rest)
    | _, _, _, _ => none
  | fuel + 1, '\\' :: e :: rest =>
    match escDecode e with
    | some c => jmap (fun p => c :: p) (parseStrBody fuel rest)
    | none => none
  | fuel + 1, c :: rest =>
    if c.toNat < 0x20 then none
    else jmap (fun p => c :: p) (parseStrBody fuel rest)
  | _, [] => none

mutual

/-- Parse one JSON value at the current position (scan_once of the decoder):
string, array, object, the null/true/false constants, then the number
expression, then the NaN, Infinity and -Infinity constants — a numeral with a
fractional or exponent group and the three constants parse to floats,
outside the fragment.  The fuel decreases on every nested parse; every such
step has consumed at least one character, so fuel above twice the input
length suffices. -/
def parseVal : Nat → List Char → Option (Option (JValue × List Char))
  | 0, _ => none
  | fuel + 1, cs =>
    match cs with
    | '"' :: rest =>
      jmap (fun p => JValue.str (String.mk p)) (parseStrBody rest.length rest)
    | '[' :: rest =>
      let r := skipWs rest
      if r.head? = some ']' then some (some (.arr [], r.tail))
      else jmap (fun p => JValue.arr p) (parseElems fuel r)
    | '{' :: rest =>
      let r := skipWs rest
      if r.head? = some '}' then some (some (.obj [], r.tail))
      else jmap (fun p => JValue.obj (dictify p)) (parseMembers fuel r)
    | cs =>
      match literalAt ['n', 'u', 'l', 'l'] cs with
      | some rest => some (some (.null, rest))
      | none =>
      match literalAt ['t', 'r', 'u', 'e'] cs with
      | some rest => some (some (.bool true, rest))
      | none =>
      match literalAt ['f', 'a', 'l', 's', 'e'] cs with
      | some rest => some (some (.bool false, rest))
      | none =>
      match numScan cs with
      | .int n r => some (some (.num n, r))
      | .float => some none
      | .noMatch =>
        if (literalAt ['N', 'a', 'N'] cs).isSome then some none
        else if (literalAt ['I', 'n', 'f', 'i', 'n', 'i', 't', 'y'] cs).isSome then some none
        else if (literalAt ['-', 'I', 'n', 'f', 'i', 'n', 'i', 't', 'y'] cs).isSome then
          some none
        else none

/-- Parse the elements of a non-empty array after the opening bracket and
leading whitespace. -/
def parseElems : Nat → List Char → Option (Option (List JValue × List Char))
  | 0, _ => none
  | fuel + 1, cs =>
    match parseVal fuel cs with
    | none => none
    | some none => some none
    | some (some (v, r)) =>
      match skipWs r with
      | ',' :: r2 => jmap (fun p => v :: p) (parseElems fuel (skipWs r2))
      | ']' :: r2 => some (some ([v], r2))
      | _ => none

/-- Parse the members of a non-empty object after the opening brace and
leading whitespace. -/
def parseMembers : Nat → List Char → Option (Option (List (String × JValue) × List Char))
  | 0, _ => none
  | fuel + 1, cs =>
    match cs with
    | '"' :: rest =>
      (match parseStrBody rest.length rest with
       | none => none
       | some none => some none
       | some (some (k, r)) =>
         match skipWs r with
         | ':' :: r2 =>
           (match parseVal fuel (skipWs r2) with
            | none => none
            | some none => some none
            | some (some (v, r3)) =>
              match skipWs r3 with
              | ',' :: r4 =>
                jmap (fun p => (String.mk k, v) :: p) (parseMembers fuel (skipWs r4))
              | '}' :: r4 => some (some ([(String.mk k, v)], r4))
              | _ => none)
         | _ => none)
    | _ => none

end

/-- json.loads: skip leading whitespace, parse one value, and require that
only whitespace remains.  A unit of fuel is spent only by a recursive call
whose chain has consumed at least one character every two units, so twice
the length plus two can never run out: `none` is a raised error, never fuel
exhaustion. -/
def json_loads (s : String) : Option (Option JValue) :=
  let cs := skipWs s.data
  match parseVal (2 * cs.length + 2) cs with
  | some (some (v, r)) => if (skipWs r).isEmpty then some (some v) else none
  | some none => some none
  | none => none

/-! ## Filesystem model

A directory tree is a list of entries in enumeration (scandir) order; a file
carries the outcome of reading it as UTF-8 text, none standing for any
exception during open or read (decode error, permission error, I/O error).
An input path of the command line resolves to a node, which is either such a
tree or a plain file.  Path strings are taken in the normal form that
pathlib prints. -/

inductive Entry where
  | file (name : String) (read : Option String)
  | dir (name : String) (children : List Entry)

/-- The entry's own name. -/
def Entry.name : Entry → String
  | .file n _ => n
  | .dir n _ => n

/-- What a command-line path resolves to on the filesystem. -/
inductive Node where
  | fileNode (read : Option String)
  | dirNode (children : List Entry)

/-- The dirnames list of an os.walk iteration, in enumeration order. -/
def dirNames : List Entry → List String
  | [] => []
  | .dir n _ :: rest => n :: dirNames rest
  | .file _ _ :: rest => dirNames rest

/-- The filenames list of an os.walk iteration, in enumeration order. -/
def fileNames : List Entry → List String
  | [] => []
  | .file n _ :: rest => n :: fileNames rest
  | .dir _ _ :: rest => fileNames rest

/-- The files of a directory with their read outcomes, in enumeration
order. -/
def fileEntries : List Entry → List (String × Option String)
  | [] => []
  | .file n r :: rest => (n, r) :: fileEntries rest
  | .dir _ _ :: rest => fileEntries rest

/-! ## Media types and file suffixes -/

/-- Path.suffix of pathlib on the final name: the part from the last dot,
provided that dot is neither the first nor the last character. -/
def suffixOfName (cs : List Char) : List Char :=
  match cs.reverse.findIdx? (fun c => c == '.') with
  | some j => if 0 < j ∧ j < cs.length - 1 then '.' :: (cs.reverse.take j).reverse else []
  | none => []

/-- Path(p).suffix. -/
def pathSuffix (p : String) : String := String.mk (suffixOfName (basename p).data)

/-- The lowercased extension that mimetypes.guess_type keys on. -/
def extLower (p : String) : String := String.mk ((pathSuffix p).data.map Char.toLower)

/-- The fragment of the standard media-type table relevant here (queried
from the mimetypes module); extensions outside the fragment are treated as
unknown, which the program also treats as non-binary. -/
def mimeTypesMap : List (String × String) :=
  [(".json", "application/json"), (".txt", "text/plain"), (".md", "text/markdown"),
   (".py", "text/x-python"), (".html", "text/html"), (".csv", "text/csv"),
   (".xml", "application/xml"), (".js", "text/javascript"), (".css", "text/css"),
   (".c", "text/x-csrc"), (".h", "text/x-chdr"),
   (".png", "image/png"), (".jpg", "image/jpeg"), (".jpeg", "image/jpeg"),
   (".gif", "image/gif"), (".bmp", "image/bmp"), (".tiff", "image/tiff"),
   (".tif", "image/tiff"), (".svg", "image/svg+xml"), (".webp", "image/webp"),
   (".ico", "image/vnd.microsoft.icon"), (".heic", "image/heic"),
   (".pdf", "application/pdf"), (".bin", "application/octet-stream"),
   (".so", "application/octet-stream")]

/-- mimetypes.guess_type on the path string. -/
def guess_type (p : String) : Option String :=
  (mimeTypesMap.find? (fun kv => kv.1 == extLower p)).map (fun kv => kv.2)

/-- The binary classification of get_file_contents: a guessed type whose
text contains image, binary or pdf. -/
def isBinaryGuess (p : String) : Bool :=
  match guess_type p with
  | some t => containsSub "image" t || containsSub "binary" t || containsSub "pdf" t
  | none => false

/-! ## get_file_contents -/

/-- get_file_contents(file_path, gitignore_cache): none models the None
return for an ignored file; a binary-classified file yields the placeholder
without being read; a read failure yields the empty string; a .json file
whose content parses is re-serialised with indent 4, falling back to the raw
content on a raised decode error.  When the decode outcome is `some none`
the library parses to a value outside the modelled fragment and re-serialises
it; the model passes the raw content through as a stand-in there, and no
claim theorem constrains that branch. -/
def get_file_contents (file_path : String) (read : Option String)
    (gitignore_cache : Cache) : Option String :=
  if should_ignore file_path gitignore_cache then none
  else if isBinaryGuess file_path then some "[Binary file]"
  else
    match read with
    | none => some ""
    | some content =>
      if pathSuffix file_path = ".json" then
        match json_loads content with
        | some (some parsed) => some (json_dumps parsed)
        | some none => some content
        | none => some content
      else some content

/-! ## The renderer -/

/-- Load the patterns of the rules file of a root directory: present when an
entry named .gitignore exists, readable when it is a file whose read
succeeds; every failure silently contributes no patterns. -/
def loadGitignore (children : List Entry) : List String :=
  match children.find? (fun e => e.name == ".gitignore") with
  | some (.file _ (some content)) => GitIgnore.loadLines content
  | _ => []

/-- The value build_file_map and build_file_contents record in the cache for
an item of a visited directory: a gitignore match when patterns were loaded,
otherwise the static check with the default empty cache. -/
def cachedDecision (patterns : List String) (top full : String) : Bool :=
  if !patterns.isEmpty && GitIgnore.matches patterns full top then true
  else should_ignore full []

/-- One entry line of the map section. -/
def mapEntryLine (level : Nat) (name : String) : String :=
  indentStr level ++ "├── " ++ name ++ "\n"

/-- The lines build_file_map emits for one visited directory: the sorted
subdirectory names that survive the cache lookup, then the sorted file names
that survive it, each rendered at 4 spaces per level. -/
def mapNodeLines (level : Nat) (keep : String → Bool) (dirs files : List String) :
    List String :=
  (sortedStr dirs).filterMap
    (fun d => if keep d then some (mapEntryLine level d) else none) ++
  (sortedStr files).filterMap
    (fun f => if keep f then some (mapEntryLine level f) else none)

mutual

/-- One os.walk iteration of build_file_map at the directory top/rel with
the given children, threading the shared cache: an ignored root prunes the
walk; otherwise every item's decision is recorded in the cache, the
surviving items are listed, and the subdirectories are walked in enumeration
order. -/
def walkMap (top : String) (patterns : List String) (rel : List String)
    (children : List Entry) (cache : Cache) : Cache × List String :=
  let root := pathOf top rel
  if should_ignore root cache then (cache, [])
  else
    let dirs := dirNames children
    let files := fileNames children
    let cache2 := (dirs ++ files).foldl
      (fun c item => cacheInsert c (root ++ "/" ++ item)
        (cachedDecision patterns top (root ++ "/" ++ item))) cache
    let listed := mapNodeLines rel.length
      (fun item => !((cacheLookup cache2 (root ++ "/" ++ item)).getD false)) dirs files
    let sub := walkMapChildren top patterns rel children cache2
    (sub.1, listed ++ sub.2)

/-- Walk the subdirectories among the children, in order. -/
def walkMapChildren (top : String) (patterns : List String) (rel : List String) :
    List Entry → Cache → Cache × List String
  | [], cache => (cache, [])
  | .file _ _ :: rest, cache => walkMapChildren top patterns rel rest cache
  | .dir n cs :: rest, cache =>
    let r1 := walkMap top patterns (rel ++ [n]) cs cache
    let r2 := walkMapChildren top patterns rel rest r1.1
    (r2.1, r1.2 ++ r2.2)

end

/-- The two lines of one file block of the contents section. -/
def contentBlock (rel content : String) : List String :=
  ["File: " ++ rel ++ "\n", "```\n" ++ content ++ "\n```\n\n"]

/-- The sorting of the filename list of one directory, keeping each name
with its read outcome. -/
def sortedFileEntries (l : List (String × Option String)) : List (String × Option String) :=
  List.insertionSort (fun a b => strRel a.1 b.1) l

mutual

/-- One os.walk iteration of build_file_contents at the directory top/rel:
an ignored root skips its own files but the walk still descends (the
dirnames list is discarded, never pruned); otherwise the decision of every
file is recorded in the cache and the surviving files are emitted in sorted
order, each as a header line and a fenced block.  Directory paths are never
recorded in this cache. -/
def walkContents (top : String) (patterns : List String) (rel : List String)
    (children : List Entry) (cache : Cache) : Cache × List String :=
  let root := pathOf top rel
  if should_ignore root cache then
    walkContentsChildren top patterns rel children cache
  else
    let files := fileEntries children
    let cache2 := files.foldl
      (fun c f => cacheInsert c (root ++ "/" ++ f.1)
        (cachedDecision patterns top (root ++ "/" ++ f.1))) cache
    let blocks := (sortedFileEntries files).foldr
      (fun f acc =>
        (if (cacheLookup cache2 (root ++ "/" ++ f.1)).getD false then []
         else
           match get_file_contents (root ++ "/" ++ f.1) f.2 cache2 with
           | some content => contentBlock (joinSegs (rel ++ [f.1])) content
           | none => []) ++ acc) []
    let sub := walkContentsChildren top patterns rel children cache2
    (sub.1, blocks ++ sub.2)

/-- Walk the subdirectories among the children, in order. -/
def walkContentsChildren (top : String) (patterns : List String) (rel : List String) :
    List Entry → Cache → Cache × List String
  | [], cache => (cache, [])
  | .file _ _ :: rest, cache => walkContentsChildren top patterns rel rest cache
  | .dir n cs :: rest, cache =>
    let r1 := walkContents top patterns (rel ++ [n]) cs cache
    let r2 := walkContentsChildren top patterns rel rest r1.1
    (r2.1, r1.2 ++ r2.2)

end

/-- build_file_map(paths): the file-map section.  One cache is created per
invocation and shared across all input paths.  A directory input loads its
own rules file and is walked; a plain file input is rendered as a single
marker line with its base name, with no ignore check. -/
def build_file_map (inputs : List (String × Node)) : String :=
  let res := inputs.foldl
    (fun (st : Cache × List String) inp =>
      let lines := st.2 ++ [inp.1 ++ "\n"]
      match inp.2 with
      | .dirNode children =>
        let patterns := loadGitignore children
        let r := walkMap inp.1 patterns [] children st.1
        (r.1, lines ++ r.2)
      | .fileNode _ => (st.1, lines ++ ["├── " ++ basename inp.1 ++ "\n"]))
    ([], ["<file_map>\n"])
  String.join (res.2 ++ ["</file_map>\n"])

/-- build_file_contents(paths): the file-contents section, with its own
cache shared across all input paths.  A directory input is walked; a plain
file input is rendered through get_file_contents under the current cache,
headed by its base name. -/
def build_file_contents (inputs : List (String × Node)) : String :=
  let res := inputs.foldl
    (fun (st : Cache × List String) inp =>
      match inp.2 with
      | .dirNode children =>
        let patterns := loadGitignore children
        let r := walkContents inp.1 patterns [] children st.1
        (r.1, st.2 ++ r.2)
      | .fileNode rd =>
        match get_file_contents inp.1 rd st.1 with
        | some content => (st.1, st.2 ++ contentBlock (basename inp.1) content)
        | none => (st.1, st.2))
    ([], ["<file_contents>\n"])
  String.join (res.2 ++ ["</file_contents>"])

/-! ## Orchestration -/

/-- The observable outcome of one run of main: the process exit code, the
lines printed to standard output, and the text handed to the clipboard
collaborator, if any. -/
structure MainResult where
  exit_code : Nat
  stdout : List String
  clipboard : Option String

/-- Resolution of a path string against the modelled filesystem. -/
def lookupNode : List (String × Node) → String → Option Node
  | [], _ => none
  | (k, v) :: rest, key => if k = key then some v else lookupNode rest key

/-- main(): no arguments or no existing path prints a message and exits with
code 1 before any clipboard write; otherwise the map and contents sections
are built over the existing paths, joined by a newline, written to the
clipboard, and a confirmation is printed with exit code 0. -/
def main_run (argv : List String) (fs : List (String × Node)) : MainResult :=
  if argv.isEmpty then
    { exit_code := 1, stdout := ["Please provide at least one file or folder path"],
      clipboard := none }
  else
    let valid := argv.filter (fun p => (lookupNode fs p).isSome)
    if valid.isEmpty then
      { exit_code := 1, stdout := ["No valid paths provided"], clipboard := none }
    else
      let inputs := valid.filterMap (fun p => (lookupNode fs p).map (fun n => (p, n)))
      let prompt := build_file_map inputs ++ "\n" ++ build_file_contents inputs
      { exit_code := 0, stdout := ["Prompt copied to clipboard"], clipboard := some prompt }

/-! ## The recompute-per-lookup variant of the map renderer -/

/-- The ignore decision the recompute variant takes for a walk root: the
input path itself is checked without rules (only its own walk can reach it
with an empty cache), and every deeper directory gets the decision its cache
entry would hold. -/
def pureRootIgn (patterns : List String) (top : String) (rel : List String) : Bool :=
  if rel.isEmpty then should_ignore (pathOf top rel) []
  else cachedDecision patterns top (pathOf top rel)

mutual

/-- Modelled from the spec: the renderer variant that recomputes every
ignore decision per lookup with no shared mutable map ("a reimplementation
may recompute the ignore decision per lookup with identical observable
results").  The walk structure and listing are those of build_file_map; only
the cache is gone. -/
def pureMap (top : String) (patterns : List String) (rel : List String)
    (children : List Entry) : List String :=
  if pureRootIgn patterns top rel then []
  else
    mapNodeLines rel.length
      (fun item => !(cachedDecision patterns top (pathOf top rel ++ "/" ++ item)))
      (dirNames children) (fileNames children) ++
    pureMapChildren top patterns rel children

/-- Walk the subdirectories among the children, in order, recomputing
decisions. -/
def pureMapChildren (top : String) (patterns : List String) (rel : List String) :
    List Entry → List String
  | [] => []
  | .file _ _ :: rest => pureMapChildren top patterns rel rest
  | .dir n cs :: rest =>
    pureMap top patterns (rel ++ [n]) cs ++ pureMapChildren top patterns rel rest

end

/-- Modelled from the spec: build_file_map with every cache lookup replaced
by recomputation. -/
def build_file_map_pure (inputs : List (String × Node)) : String :=
  let lines := inputs.foldl
    (fun (ls : List String) inp =>
      let ls := ls ++ [inp.1 ++ "\n"]
      match inp.2 with
      | .dirNode children =>
        ls ++ pureMap inp.1 (loadGitignore children) [] children
      | .fileNode _ => ls ++ ["├── " ++ basename inp.1 ++ "\n"])
    ["<file_map>\n"]
  String.join (lines ++ ["</file_map>\n"])

/-! ## The recompute-per-lookup variant of the contents renderer -/

mutual

/-- Modelled from the spec: the contents renderer variant that recomputes
every ignore decision per lookup with no shared mutable map ("a
reimplementation may recompute the ignore decision per lookup with identical
observable results").  The walk structure and emission are those of
build_file_contents; only the cache is gone: the root check is the static
check alone and every file decision is recomputed. -/
def pureContents (top : String) (patterns : List String) (rel : List String)
    (children : List Entry) : List String :=
  (if should_ignore (pathOf top rel) [] then []
   else
     (sortedFileEntries (fileEntries children)).foldr
       (fun f acc =>
         (if cachedDecision patterns top (pathOf top rel ++ "/" ++ f.1) then []
          else
            match get_file_contents (pathOf top rel ++ "/" ++ f.1) f.2 [] with
            | some content => contentBlock (joinSegs (rel ++ [f.1])) content
            | none => []) ++ acc) []) ++
  pureContentsChildren top patterns rel children

/-- Walk the subdirectories among the children, in order, recomputing
decisions. -/
def pureContentsChildren (top : String) (patterns : List String) (rel : List String) :
    List Entry → List String
  | [] => []
  | .file _ _ :: rest => pureContentsChildren top patterns rel rest
  | .dir n cs :: rest =>
    pureContents top patterns (rel ++ [n]) cs ++ pureContentsChildren top patterns rel rest

end

/-- Modelled from the spec: build_file_contents with every cache lookup
replaced by recomputation. -/
def build_file_contents_pure (inputs : List (String × Node)) : String :=
  let lines := inputs.foldl
    (fun (ls : List String) inp =>
      match inp.2 with
      | .dirNode children =>
        ls ++ pureContents inp.1 (loadGitignore children) [] children
      | .fileNode rd =>
        match get_file_contents inp.1 rd [] with
        | some content => ls ++ contentBlock (basename inp.1) content
        | none => ls)
    ["<file_contents>\n"]
  String.join (lines ++ ["</file_contents>"])

mutual

/-- The path strings of all files of a subtree rooted at top/rel, the keys
the contents walk ever writes to its cache. -/
def filePathsEntry (top : String) (rel : List String) : Entry → List String
  | .file f _ => [pathOf top rel ++ "/" ++ f]
  | .dir n cs => filePathsE top (rel ++ [n]) cs

/-- The same over a children list. -/
def filePathsE (top : String) (rel : List String) : List Entry → List String
  | [] => []
  | e :: tl => filePathsEntry top rel e ++ filePathsE top rel tl

end

mutual

/-- The path strings of all subdirectories of a subtree rooted at top/rel,
the roots the contents walk visits below this one. -/
def dirPathsEntry (top : String) (rel : List String) : Entry → List String
  | .file _ _ => []
  | .dir n cs => pathOf top (rel ++ [n]) :: dirPathsE top (rel ++ [n]) cs

/-- The same over a children list. -/
def dirPathsE (top : String) (rel : List String) : List Entry → List String
  | [] => []
  | e :: tl => dirPathsEntry top rel e ++ dirPathsE top rel tl

end


/-! ## Auxiliary accessors and transforms used by the statements -/

/-- Follow a chain of directory names from a children list, resolving each
name to the first entry carrying it. -/
def dirAt : List Entry → List String → Option (List Entry)
  | es, [] => some es
  | es, n :: rest =>
    match es.find? (fun e => e.name == n) with
    | some (.dir _ cs) => dirAt cs rest
    | _ => none

mutual

/-- Replace every failing read by a successful read of the empty string. -/
def defErrEntry : Entry → Entry
  | .file n none => .file n (some "")
  | .file n (some c) => .file n (some c)
  | .dir n cs => .dir n (defErrEntries cs)

/-- The same transform over a children list. -/
def defErrEntries : List Entry → List Entry
  | [] => []
  | e :: rest => defErrEntry e :: defErrEntries rest

end

/-- The same transform over resolved input nodes. -/
def defErrNode : Node → Node
  | .fileNode none => .fileNode (some "")
  | .fileNode (some c) => .fileNode (some c)
  | .dirNode cs => .dirNode (defErrEntries cs)

/-- The same transform over an input list. -/
def defErrInputs (inputs : List (String × Node)) : List (String × Node) :=
  inputs.map (fun inp => (inp.1, defErrNode inp.2))

/-- A name free of the path separator, so that joining segments is
invertible. -/
def slashFree (n : String) : Bool := !(n.data.contains '/')

mutual

/-- Every name in the tree is separator-free (true of any real directory
tree). -/
def slashFreeEntry : Entry → Bool
  | .file n _ => slashFree n
  | .dir n cs => slashFree n && slashFreeEntries cs

/-- The same over a children list. -/
def slashFreeEntries : List Entry → Bool
  | [] => true
  | e :: rest => slashFreeEntry e && slashFreeEntries rest

end

/-- The value invariant of the decision cache during a one-root walk: every
binding holds exactly the decision build_file_map and build_file_contents
compute for its key. -/
def INVP (patterns : List String) (top : String) (cache : Cache) : Prop :=
  ∀ kv ∈ cache, kv.2 = cachedDecision patterns top kv.1

/-- The text that follows the first item of a serialised non-empty array:
each further item preceded by the comma, the newline and its indentation. -/
def itemsSep (lvl : Nat) : List JValue → List Char
  | [] => []
  | y :: ys =>
    ',' :: '\n' :: ((indentStr lvl).data ++ (json_dumps_val y lvl).data ++ itemsSep lvl ys)

/-- The text that follows the first member of a serialised non-empty object. -/
def membersSep (lvl : Nat) : List (String × JValue) → List Char
  | [] => []
  | (k, v) :: ms =>
    ',' :: '\n' :: ((indentStr lvl).data ++ (jsonQuote k).data ++ ':' :: ' ' ::
      ((json_dumps_val v lvl).data ++ membersSep lvl ms))

/-! # Theorems

## Toolkit: splitting, segments, joining -/

theorem splitOnCh_ne_nil (sep : Char) (cs : List Char) : splitOnCh sep cs ≠ [] := by
  cases cs with
  | nil => simp [splitOnCh]
  | cons c rest =>
    simp only [splitOnCh]
    cases h : splitOnCh sep rest with
    | nil => simp
    | cons s ss =>
      by_cases hc : c = sep <;> simp [hc]

theorem splitOnCh_append (sep : Char) (a b : List Char) :
    splitOnCh sep (a ++ sep :: b) = splitOnCh sep a ++ splitOnCh sep b := by
  induction a with
  | nil =>
    simp only [List.nil_append, splitOnCh]
    cases h : splitOnCh sep b with
    | nil => exact absurd h (splitOnCh_ne_nil sep b)
    | cons s ss => simp [splitOnCh, h]
  | cons c cs ih =>
    simp only [List.cons_append, splitOnCh, List.append_eq]
    rw [ih]
    cases h : splitOnCh sep cs with
    | nil => exact absurd h (splitOnCh_ne_nil sep cs)
    | cons s ss =>
      by_cases hc : c = sep <;> simp [hc]

theorem splitOnCh_no_sep (sep : Char) (cs : List Char)
    (h : cs.contains sep = false) : splitOnCh sep cs = [cs] := by
  induction cs with
  | nil => rfl
  | cons c rest ih =>
    simp only [List.contains_cons, Bool.or_eq_false_iff] at h
    simp only [splitOnCh, ih h.2]
    have : ¬ c = sep := by
      intro hc
      subst hc
      simp at h
    simp [this]

theorem data_of_sep : ("/" : String).data = ['/'] := rfl

theorem segsOf_join (p n : String) : segsOf (p ++ "/" ++ n) = segsOf p ++ segsOf n := by
  unfold segsOf
  have : (p ++ "/" ++ n).data = p.data ++ '/' :: n.data := by
    simp [String.data_append]
  rw [this, splitOnCh_append, List.map_append]

theorem segsOf_slashFree (n : String) (h : slashFree n = true) : segsOf n = [n] := by
  unfold slashFree at h
  unfold segsOf
  rw [splitOnCh_no_sep '/' n.data (by simpa using h)]
  simp

theorem pathOf_nil (top : String) : pathOf top [] = top := rfl

theorem pathOf_snoc (top : String) (rel : List String) (n : String) :
    pathOf top (rel ++ [n]) = pathOf top rel ++ "/" ++ n := by
  unfold pathOf
  rw [List.foldl_append]
  rfl

theorem pathOf_cons (top : String) (n : String) (rel : List String) :
    pathOf top (n :: rel) = pathOf (top ++ "/" ++ n) rel := rfl

theorem segsOf_pathOf (top : String) (rel : List String)
    (h : ∀ n ∈ rel, slashFree n = true) :
    segsOf (pathOf top rel) = segsOf top ++ rel := by
  induction rel using List.reverseRecOn with
  | nil => simp [pathOf]
  | append_singleton rel n ih =>
    rw [pathOf_snoc, segsOf_join, ih (fun m hm => h m (by simp [hm]))]
    rw [segsOf_slashFree n (h n (by simp))]
    simp

theorem joinSegs_cons (s : String) (rest : List String) (h : rest ≠ []) :
    joinSegs (s :: rest) = s ++ "/" ++ joinSegs rest := by
  cases rest with
  | nil => exact absurd rfl h
  | cons t ts => rfl

theorem segsOf_joinSegs (l : List String) (hne : l ≠ [])
    (h : ∀ n ∈ l, slashFree n = true) : segsOf (joinSegs l) = l := by
  induction l with
  | nil => exact absurd rfl hne
  | cons s rest ih =>
    cases rest with
    | nil => simpa using segsOf_slashFree s (h s (by simp))
    | cons t ts =>
      rw [joinSegs_cons s (t :: ts) (by simp), segsOf_join,
        segsOf_slashFree s (h s (by simp)),
        ih (by simp) (fun m hm => h m (by simp [hm]))]
      simp

theorem joinSegs_inj (a b : List String) (ha : a ≠ []) (hb : b ≠ [])
    (hsa : ∀ n ∈ a, slashFree n = true) (hsb : ∀ n ∈ b, slashFree n = true)
    (h : joinSegs a = joinSegs b) : a = b := by
  have := segsOf_joinSegs a ha hsa
  rw [h, segsOf_joinSegs b hb hsb] at this
  exact this.symm

/-! ## Toolkit: the ignore filter and the decision cache -/

theorem should_ignore_nil (p : String) :
    should_ignore p [] =
      IGNORE_PATTERNS.any (fun pattern => (segsOf p).contains pattern) := by
  unfold should_ignore
  cases h : IGNORE_PATTERNS.any (fun pattern => (segsOf p).contains pattern) <;>
    simp [h, cacheLookup]

theorem static_persist (p n : String) (h : should_ignore p [] = true) :
    should_ignore (p ++ "/" ++ n) [] = true := by
  rw [should_ignore_nil] at h ⊢
  simp only [List.any_eq_true] at h ⊢
  obtain ⟨pat, hmem, hc⟩ := h
  refine ⟨pat, hmem, ?_⟩
  rw [segsOf_join]
  have hc2 : pat ∈ segsOf p := by simpa using hc
  simpa using List.mem_append_left _ hc2

theorem cacheLookup_append_some (pre cache : Cache) (k : String) (v : Bool)
    (h : cacheLookup pre k = some v) : cacheLookup (pre ++ cache) k = some v := by
  induction pre with
  | nil => simp [cacheLookup] at h
  | cons kv rest ih =>
    simp only [cacheLookup, List.cons_append] at h ⊢
    by_cases hk : kv.1 = k
    · simpa [hk] using h
    · simp only [hk, if_false] at h ⊢
      exact ih h

theorem cacheLookup_append_none (pre cache : Cache) (k : String)
    (h : cacheLookup pre k = none) :
    cacheLookup (pre ++ cache) k = cacheLookup cache k := by
  induction pre with
  | nil => rfl
  | cons kv rest ih =>
    simp only [cacheLookup, List.cons_append] at h ⊢
    by_cases hk : kv.1 = k
    · simp [hk] at h
    · simp only [hk, if_false] at h ⊢
      exact ih h

theorem foldl_insert_shape {α : Type} (g : String → Bool) (key : α → String)
    (items : List α) (cache : Cache) :
    items.foldl (fun c it => cacheInsert c (key it) (g (key it))) cache =
      (items.map (fun it => (key it, g (key it)))).reverse ++ cache := by
  induction items generalizing cache with
  | nil => rfl
  | cons x xs ih =>
    simp only [List.foldl_cons, List.map_cons, List.reverse_cons]
    rw [ih]
    simp [cacheInsert]

theorem INVP_nil (P : List String) (top : String) : INVP P top [] := by
  intro kv hkv
  simp at hkv

theorem INVP_append {P : List String} {top : String} {pre cache : Cache}
    (hpre : ∀ kv ∈ pre, kv.2 = cachedDecision P top kv.1)
    (hc : INVP P top cache) : INVP P top (pre ++ cache) := by
  intro kv hkv
  rcases List.mem_append.mp hkv with h | h
  · exact hpre kv h
  · exact hc kv h

theorem cacheLookup_INVP {P : List String} {top : String} {cache : Cache}
    {k : String} {b : Bool} (h : INVP P top cache)
    (hl : cacheLookup cache k = some b) : b = cachedDecision P top k := by
  induction cache with
  | nil => simp [cacheLookup] at hl
  | cons kv rest ih =>
    simp only [cacheLookup] at hl
    by_cases hk : kv.1 = k
    · simp only [hk, if_true] at hl
      have := h kv (by simp)
      rw [← hk]
      cases hl
      exact this
    · simp only [hk, if_false] at hl
      exact ih (fun x hx => h x (by simp [hx])) hl

theorem lookup_written {pre cache : Cache} {g : String → Bool} {k : String}
    (h : ∀ kv ∈ pre, kv.2 = g kv.1) (hk : k ∈ pre.map Prod.fst) :
    cacheLookup (pre ++ cache) k = some (g k) := by
  induction pre with
  | nil => simp at hk
  | cons kv rest ih =>
    simp only [List.map_cons, List.mem_cons] at hk
    simp only [cacheLookup, List.cons_append]
    by_cases hkk : kv.1 = k
    · rw [if_pos hkk]
      have := h kv (by simp)
      rw [this, hkk]
    · rw [if_neg hkk]
      rcases hk with hk | hk
      · exact absurd hk.symm hkk
      · exact ih (fun x hx => h x (by simp [hx])) hk

theorem static_le_cachedDecision (P : List String) (top p : String)
    (h : should_ignore p [] = true) : cachedDecision P top p = true := by
  unfold cachedDecision
  by_cases hg : (!P.isEmpty && GitIgnore.matches P p top) = true <;> simp [hg, h]

theorem should_ignore_true_of_INVP {P : List String} {top : String} {cache : Cache}
    {p : String} (h : INVP P top cache) (hs : should_ignore p cache = true) :
    cachedDecision P top p = true := by
  unfold should_ignore at hs
  by_cases hst : (IGNORE_PATTERNS.any fun pattern => (segsOf p).contains pattern) = true
  · exact static_le_cachedDecision P top p (by rw [should_ignore_nil]; exact hst)
  · rw [if_neg hst] at hs
    cases hl : cacheLookup cache p with
    | none => rw [hl] at hs; simp at hs
    | some b =>
      rw [hl] at hs
      simp only at hs
      have hb := cacheLookup_INVP h hl
      rw [← hb]
      exact hs

theorem should_ignore_false_of_INVP {P : List String} {top : String} {cache : Cache}
    {p : String} (h : INVP P top cache) (hd : cachedDecision P top p = false) :
    should_ignore p cache = false := by
  cases hs : should_ignore p cache
  · rfl
  · rw [should_ignore_true_of_INVP h hs] at hd
    exact absurd hd (by simp)

theorem should_ignore_lookup_none {cache : Cache} {p : String}
    (hl : cacheLookup cache p = none) :
    should_ignore p cache = should_ignore p [] := by
  unfold should_ignore
  rw [hl]
  rfl

theorem should_ignore_lookup_dec {P : List String} {top : String} {cache : Cache}
    {p : String} (hl : cacheLookup cache p = some (cachedDecision P top p)) :
    should_ignore p cache = cachedDecision P top p := by
  unfold should_ignore
  rw [hl]
  by_cases hst : (IGNORE_PATTERNS.any fun pattern => (segsOf p).contains pattern) = true
  · rw [if_pos hst]
    exact (static_le_cachedDecision P top p (by rw [should_ignore_nil]; exact hst)).symm
  · rw [if_neg hst]

/-! ## Toolkit: the shape of the caching loops and cache extension -/

theorem mapFold_shape (P : List String) (top root : String) (items : List String)
    (cache : Cache) :
    items.foldl (fun c item => cacheInsert c (root ++ "/" ++ item)
      (cachedDecision P top (root ++ "/" ++ item))) cache =
    (items.map (fun item =>
      (root ++ "/" ++ item, cachedDecision P top (root ++ "/" ++ item)))).reverse ++ cache := by
  induction items generalizing cache with
  | nil => rfl
  | cons x xs ih =>
    simp only [List.foldl_cons, List.map_cons, List.reverse_cons]
    rw [ih]
    simp [cacheInsert]

theorem contentsFold_shape (P : List String) (top root : String)
    (items : List (String × Option String)) (cache : Cache) :
    items.foldl (fun c f => cacheInsert c (root ++ "/" ++ f.1)
      (cachedDecision P top (root ++ "/" ++ f.1))) cache =
    (items.map (fun f =>
      (root ++ "/" ++ f.1, cachedDecision P top (root ++ "/" ++ f.1)))).reverse ++ cache := by
  induction items generalizing cache with
  | nil => rfl
  | cons x xs ih =>
    simp only [List.foldl_cons, List.map_cons, List.reverse_cons]
    rw [ih]
    simp [cacheInsert]

theorem writes_vals {α : Type} (P : List String) (top : String) (key : α → String)
    (items : List α) :
    ∀ kv ∈ (items.map (fun it => (key it, cachedDecision P top (key it)))).reverse,
      kv.2 = cachedDecision P top kv.1 := by
  intro kv hkv
  rw [List.mem_reverse] at hkv
  obtain ⟨x, _, rfl⟩ := List.mem_map.mp hkv
  rfl

theorem lookup_pres {P : List String} {top : String} {pre cache : Cache} {k : String}
    (hpre : ∀ kv ∈ pre, kv.2 = cachedDecision P top kv.1)
    (h : cacheLookup cache k = some (cachedDecision P top k)) :
    cacheLookup (pre ++ cache) k = some (cachedDecision P top k) := by
  cases hp : cacheLookup pre k with
  | none => rw [cacheLookup_append_none pre cache k hp]; exact h
  | some v =>
    have hv : v = cachedDecision P top k := cacheLookup_INVP hpre hp
    rw [cacheLookup_append_some pre cache k v hp, hv]

theorem filterMap_congr_mem {α β : Type} {l : List α} {f g : α → Option β}
    (h : ∀ x ∈ l, f x = g x) : l.filterMap f = l.filterMap g := by
  induction l with
  | nil => rfl
  | cons x xs ih =>
    simp only [List.filterMap_cons]
    rw [h x (by simp), ih (fun y hy => h y (by simp [hy]))]

theorem mapNodeLines_congr {level : Nat} {keep1 keep2 : String → Bool}
    {dirs files : List String}
    (hd : ∀ n ∈ dirs, keep1 n = keep2 n) (hf : ∀ n ∈ files, keep1 n = keep2 n) :
    mapNodeLines level keep1 dirs files = mapNodeLines level keep2 dirs files := by
  unfold mapNodeLines sortedStr
  have pd := List.perm_insertionSort strRel dirs
  have pf := List.perm_insertionSort strRel files
  congr 1
  · exact filterMap_congr_mem (fun x hx => by rw [hd x (pd.mem_iff.mp hx)])
  · exact filterMap_congr_mem (fun x hx => by rw [hf x (pf.mem_iff.mp hx)])

theorem walkMap_cache_ext (top : String) (P : List String) :
    ∀ (rel : List String) (children : List Entry) (cache : Cache),
      ∃ pre, (walkMap top P rel children cache).1 = pre ++ cache ∧
        ∀ kv ∈ pre, kv.2 = cachedDecision P top kv.1 := by
  apply walkMap.induct top P
    (fun rel children cache =>
      ∃ pre, (walkMap top P rel children cache).1 = pre ++ cache ∧
        ∀ kv ∈ pre, kv.2 = cachedDecision P top kv.1)
    (fun rel entries cache =>
      ∃ pre, (walkMapChildren top P rel entries cache).1 = pre ++ cache ∧
        ∀ kv ∈ pre, kv.2 = cachedDecision P top kv.1)
  · intro rel children cache root hign
    have hroot : root = pathOf top rel := rfl
    rw [hroot] at hign
    refine ⟨[], ?_, by simp⟩
    simp [walkMap, hign]
  · intro rel children cache root hign dirs files cache2 ih
    have hroot : root = pathOf top rel := rfl
    have hdirs : dirs = dirNames children := rfl
    have hfiles : files = fileNames children := rfl
    have hc2 : cache2 = List.foldl
        (fun c item => cacheInsert c (pathOf top rel ++ "/" ++ item)
          (cachedDecision P top (pathOf top rel ++ "/" ++ item)))
        cache (dirNames children ++ fileNames children) := by
      rw [← hroot, ← hdirs, ← hfiles]
    rw [hroot] at hign
    obtain ⟨pre2, hpre2, hv2⟩ := ih
    rw [hc2, mapFold_shape] at hpre2
    simp only [walkMap, if_neg hign]
    rw [mapFold_shape]
    refine ⟨pre2 ++ (List.map (fun item => (pathOf top rel ++ "/" ++ item,
      cachedDecision P top (pathOf top rel ++ "/" ++ item)))
        (dirNames children ++ fileNames children)).reverse, ?_, ?_⟩
    · simp only [hpre2, List.append_assoc]
    · intro kv hkv
      rcases List.mem_append.mp hkv with h | h
      · exact hv2 kv h
      · exact writes_vals P top _ _ kv h
  · intro rel cache
    exact ⟨[], by simp [walkMapChildren], by simp⟩
  · intro rel name rd rest cache ih
    simpa [walkMapChildren] using ih
  · intro rel n cs rest cache r1 ih1 ih2
    have hr1 : r1 = walkMap top P (rel ++ [n]) cs cache := rfl
    obtain ⟨pre1, hpre1, hv1⟩ := ih1
    obtain ⟨pre2, hpre2, hv2⟩ := ih2
    refine ⟨pre2 ++ pre1, ?_, ?_⟩
    · simp only [walkMapChildren]
      rw [hr1] at hpre2
      rw [hpre2, hpre1, List.append_assoc]
    · intro kv hkv
      rcases List.mem_append.mp hkv with h | h
      · exact hv2 kv h
      · exact hv1 kv h

theorem walkContents_cache_ext (top : String) (P : List String) :
    ∀ (rel : List String) (children : List Entry) (cache : Cache),
      ∃ pre, (walkContents top P rel children cache).1 = pre ++ cache ∧
        ∀ kv ∈ pre, kv.2 = cachedDecision P top kv.1 := by
  apply walkContents.induct top P
    (fun rel children cache =>
      ∃ pre, (walkContents top P rel children cache).1 = pre ++ cache ∧
        ∀ kv ∈ pre, kv.2 = cachedDecision P top kv.1)
    (fun rel entries cache =>
      ∃ pre, (walkContentsChildren top P rel entries cache).1 = pre ++ cache ∧
        ∀ kv ∈ pre, kv.2 = cachedDecision P top kv.1)
  · intro rel children cache root hign ih
    have hroot : root = pathOf top rel := rfl
    rw [hroot] at hign
    obtain ⟨pre, hpre, hv⟩ := ih
    refine ⟨pre, ?_, hv⟩
    simp only [walkContents, hign, if_true]
    exact hpre
  · intro rel children cache root hign files cache2 ih
    have hroot : root = pathOf top rel := rfl
    have hfiles : files = fileEntries children := rfl
    have hc2 : cache2 = List.foldl
        (fun c f => cacheInsert c (pathOf top rel ++ "/" ++ f.1)
          (cachedDecision P top (pathOf top rel ++ "/" ++ f.1)))
        cache (fileEntries children) := by
      rw [← hroot, ← hfiles]
    rw [hroot] at hign
    obtain ⟨pre2, hpre2, hv2⟩ := ih
    rw [hc2, contentsFold_shape] at hpre2
    simp only [walkContents, if_neg hign]
    rw [contentsFold_shape]
    refine ⟨pre2 ++ (List.map (fun f => (pathOf top rel ++ "/" ++ f.1,
      cachedDecision P top (pathOf top rel ++ "/" ++ f.1)))
        (fileEntries children)).reverse, ?_, ?_⟩
    · simp only [hpre2, List.append_assoc]
    · intro kv hkv
      rcases List.mem_append.mp hkv with h | h
      · exact hv2 kv h
      · exact writes_vals P top _ _ kv h
  · intro rel cache
    exact ⟨[], by simp [walkContentsChildren], by simp⟩
  · intro rel name rd rest cache ih
    simpa [walkContentsChildren] using ih
  · intro rel n cs rest cache r1 ih1 ih2
    have hr1 : r1 = walkContents top P (rel ++ [n]) cs cache := rfl
    obtain ⟨pre1, hpre1, hv1⟩ := ih1
    obtain ⟨pre2, hpre2, hv2⟩ := ih2
    refine ⟨pre2 ++ pre1, ?_, ?_⟩
    · simp only [walkContentsChildren]
      rw [hr1] at hpre2
      rw [hpre2, hpre1, List.append_assoc]
    · intro kv hkv
      rcases List.mem_append.mp hkv with h | h
      · exact hv2 kv h
      · exact hv1 kv h

/-! ## The map walk against the recompute variant -/

theorem walkMap_eq_pure (top : String) (P : List String) :
    ∀ (rel : List String) (children : List Entry) (cache : Cache),
      (INVP P top cache ∧
        (rel = [] → cacheLookup cache (pathOf top rel) = none) ∧
        (rel ≠ [] → cacheLookup cache (pathOf top rel) =
           some (cachedDecision P top (pathOf top rel)))) →
      (walkMap top P rel children cache).2 = pureMap top P rel children := by
  apply walkMap.induct top P
    (fun rel children cache =>
      (INVP P top cache ∧
        (rel = [] → cacheLookup cache (pathOf top rel) = none) ∧
        (rel ≠ [] → cacheLookup cache (pathOf top rel) =
           some (cachedDecision P top (pathOf top rel)))) →
      (walkMap top P rel children cache).2 = pureMap top P rel children)
    (fun rel entries cache =>
      (INVP P top cache ∧
        ∀ n ∈ dirNames entries, cacheLookup cache (pathOf top (rel ++ [n])) =
          some (cachedDecision P top (pathOf top (rel ++ [n])))) →
      (walkMapChildren top P rel entries cache).2 = pureMapChildren top P rel entries)
  · intro rel children cache root hign hyp
    have hroot : root = pathOf top rel := rfl
    rw [hroot] at hign
    have hpure : pureRootIgn P top rel = true := by
      unfold pureRootIgn
      by_cases hrel : rel = []
      · subst hrel
        rw [if_pos (by simp)]
        rw [← should_ignore_lookup_none (hyp.2.1 rfl)]
        exact hign
      · rw [if_neg (by simpa using hrel)]
        rw [← should_ignore_lookup_dec (hyp.2.2 hrel)]
        exact hign
    simp [walkMap, hign, pureMap, hpure]
  · intro rel children cache root hign dirs files cache2 ih hyp
    have hroot : root = pathOf top rel := rfl
    have hdirs : dirs = dirNames children := rfl
    have hfiles : files = fileNames children := rfl
    have hign2 : should_ignore (pathOf top rel) cache = false := by
      rw [hroot] at hign
      simpa using hign
    have hpure : pureRootIgn P top rel = false := by
      unfold pureRootIgn
      by_cases hrel : rel = []
      · subst hrel
        rw [if_pos (by simp)]
        rw [← should_ignore_lookup_none (hyp.2.1 rfl)]
        exact hign2
      · rw [if_neg (by simpa using hrel)]
        rw [← should_ignore_lookup_dec (hyp.2.2 hrel)]
        exact hign2
    have hc2 : cache2 = (List.map (fun item => (pathOf top rel ++ "/" ++ item,
        cachedDecision P top (pathOf top rel ++ "/" ++ item)))
          (dirNames children ++ fileNames children)).reverse ++ cache := by
      show (List.foldl _ cache (dirs ++ files)) = _
      rw [hroot] at *
      rw [hdirs, hfiles]
      exact mapFold_shape P top (pathOf top rel) _ cache
    have hinv2 : INVP P top ((List.map (fun item => (pathOf top rel ++ "/" ++ item,
        cachedDecision P top (pathOf top rel ++ "/" ++ item)))
          (dirNames children ++ fileNames children)).reverse ++ cache) :=
      INVP_append (writes_vals P top _ _) hyp.1
    have hlookups : ∀ item ∈ dirNames children ++ fileNames children,
        cacheLookup ((List.map (fun item => (pathOf top rel ++ "/" ++ item,
          cachedDecision P top (pathOf top rel ++ "/" ++ item)))
            (dirNames children ++ fileNames children)).reverse ++ cache)
          (pathOf top rel ++ "/" ++ item) =
          some (cachedDecision P top (pathOf top rel ++ "/" ++ item)) := by
      intro item hitem
      apply lookup_written (writes_vals P top _ _)
      simp only [List.map_map, List.map_reverse, List.mem_reverse, List.mem_map]
      exact ⟨item, hitem, rfl⟩
    rw [hc2] at ih
    have hih := ih ⟨hinv2, by
      intro n hn
      rw [pathOf_snoc]
      exact hlookups n (List.mem_append_left _ hn)⟩
    simp only [walkMap]
    rw [mapFold_shape, hih, hign2]
    simp only [Bool.false_eq_true, if_false]
    simp only [pureMap, hpure, Bool.false_eq_true, if_false]
    congr 1
    apply mapNodeLines_congr <;> intro n hn
    · rw [hlookups n (List.mem_append_left _ hn)]
      rfl
    · rw [hlookups n (List.mem_append_right _ hn)]
      rfl
  · intro rel cache _
    simp [walkMapChildren, pureMapChildren]
  · intro rel name rd rest cache ih hyp
    simp only [walkMapChildren, pureMapChildren]
    exact ih ⟨hyp.1, fun n hn => hyp.2 n (by simpa [dirNames] using hn)⟩
  · intro rel n cs rest cache r1 ih1 ih2 hyp
    have hr1 : r1 = walkMap top P (rel ++ [n]) cs cache := rfl
    have h1 := ih1 ⟨hyp.1, by simp, fun _ =>
      hyp.2 n (by simp [dirNames])⟩
    obtain ⟨pre, hpre, hvals⟩ := walkMap_cache_ext top P (rel ++ [n]) cs cache
    rw [hr1] at ih2
    have h2 := ih2 ⟨by
        rw [hpre]
        exact INVP_append hvals hyp.1, by
      intro m hm
      rw [hpre]
      exact lookup_pres hvals (hyp.2 m (by simp [dirNames, hm]))⟩
    simp only [walkMapChildren, pureMapChildren]
    rw [h1, h2]

theorem build_map_single_eq_pure (p : String) (children : List Entry) :
    build_file_map [(p, .dirNode children)] = build_file_map_pure [(p, .dirNode children)] := by
  unfold build_file_map build_file_map_pure
  simp only [List.foldl_cons, List.foldl_nil]
  rw [walkMap_eq_pure p (loadGitignore children) [] children []
    ⟨INVP_nil _ _, fun _ => rfl, fun h => absurd rfl h⟩]

/-! ## Static exclusion prunes a whole subtree of the contents walk -/

theorem should_ignore_static_any_cache {p : String} (cache : Cache)
    (h : should_ignore p [] = true) : should_ignore p cache = true := by
  rw [should_ignore_nil] at h
  unfold should_ignore
  rw [if_pos h]

theorem walkContents_static (top : String) (P : List String) :
    ∀ (rel : List String) (children : List Entry) (cache : Cache),
      should_ignore (pathOf top rel) [] = true →
      walkContents top P rel children cache = (cache, []) := by
  apply walkContents.induct top P
    (fun rel children cache =>
      should_ignore (pathOf top rel) [] = true →
      walkContents top P rel children cache = (cache, []))
    (fun rel entries cache =>
      should_ignore (pathOf top rel) [] = true →
      walkContentsChildren top P rel entries cache = (cache, []))
  · intro rel children cache root hign ih hstat
    have hroot : root = pathOf top rel := rfl
    rw [hroot] at hign
    simp only [walkContents, hign, if_true]
    exact ih hstat
  · intro rel children cache root hign files cache2 ih hstat
    have hroot : root = pathOf top rel := rfl
    rw [hroot] at hign
    exact absurd (should_ignore_static_any_cache cache hstat) hign
  · intro rel cache _
    simp [walkContentsChildren]
  · intro rel name rd rest cache ih hstat
    simp only [walkContentsChildren]
    exact ih hstat
  · intro rel n cs rest cache r1 ih1 ih2 hstat
    have hstat2 : should_ignore (pathOf top (rel ++ [n])) [] = true := by
      rw [pathOf_snoc]
      exact static_persist _ _ hstat
    have h1 := ih1 hstat2
    have hr1 : r1.1 = cache := by
      rw [show r1 = walkContents top P (rel ++ [n]) cs cache from rfl, h1]
    have h2 : walkContentsChildren top P rel rest cache = (cache, []) := by
      have h := ih2 hstat
      rw [hr1] at h
      exact h
    simp only [walkContentsChildren]
    rw [h1, h2]
    simp

/-! ## Deleting an excluded entry does not change the recompute map walk -/

theorem filterMap_if_eq {α β : Type} (keep : α → Bool) (f : α → β) (l : List α) :
    l.filterMap (fun d => if keep d then some (f d) else none) =
      (l.filter keep).map f := by
  induction l with
  | nil => rfl
  | cons x xs ih =>
    by_cases hx : keep x <;> simp [List.filterMap_cons, List.filter_cons, hx, ih]

theorem dirNames_append (a b : List Entry) :
    dirNames (a ++ b) = dirNames a ++ dirNames b := by
  induction a with
  | nil => rfl
  | cons e rest ih => cases e <;> simp [dirNames, ih]

theorem fileNames_append (a b : List Entry) :
    fileNames (a ++ b) = fileNames a ++ fileNames b := by
  induction a with
  | nil => rfl
  | cons e rest ih => cases e <;> simp [fileNames, ih]

theorem fileEntries_append (a b : List Entry) :
    fileEntries (a ++ b) = fileEntries a ++ fileEntries b := by
  induction a with
  | nil => rfl
  | cons e rest ih => cases e <;> simp [fileEntries, ih]

theorem pureMapChildren_append (top : String) (P : List String) (rel : List String)
    (a b : List Entry) :
    pureMapChildren top P rel (a ++ b) =
      pureMapChildren top P rel a ++ pureMapChildren top P rel b := by
  induction a with
  | nil => simp [pureMapChildren]
  | cons e rest ih => cases e <;> simp [pureMapChildren, ih]

theorem sortedStr_sorted (l : List String) : List.Sorted strRel (sortedStr l) :=
  List.sorted_insertionSort strRel l

theorem sortedStr_perm (l : List String) : (sortedStr l).Perm l :=
  List.perm_insertionSort strRel l

theorem filter_sortedStr_drop (keep : String → Bool) (a b : List String) (n : String)
    (hn : keep n = false) :
    (sortedStr (a ++ n :: b)).filter keep = (sortedStr (a ++ b)).filter keep := by
  apply List.eq_of_perm_of_sorted (r := strRel)
  · have p1 : ((sortedStr (a ++ n :: b)).filter keep).Perm ((a ++ n :: b).filter keep) :=
      (sortedStr_perm _).filter keep
    have p2 : ((sortedStr (a ++ b)).filter keep).Perm ((a ++ b).filter keep) :=
      (sortedStr_perm _).filter keep
    have he : (a ++ n :: b).filter keep = (a ++ b).filter keep := by
      simp [List.filter_append, List.filter_cons, hn]
    rw [← he] at p2
    exact p1.trans p2.symm
  · exact (sortedStr_sorted _).filter keep
  · exact (sortedStr_sorted _).filter keep

theorem pureMap_excluded_nil (top : String) (P : List String) (rel : List String)
    (n : String) (cs : List Entry)
    (hd : cachedDecision P top (pathOf top rel ++ "/" ++ n) = true) :
    pureMap top P (rel ++ [n]) cs = [] := by
  simp only [pureMap]
  rw [if_pos ?_]
  unfold pureRootIgn
  rw [if_neg (by simp), pathOf_snoc]
  exact hd

theorem pureMap_delete (top : String) (P : List String) (rel : List String)
    (pre post : List Entry) (e : Entry)
    (hd : cachedDecision P top (pathOf top rel ++ "/" ++ e.name) = true) :
    pureMap top P rel (pre ++ e :: post) = pureMap top P rel (pre ++ post) := by
  simp only [pureMap]
  by_cases hign : pureRootIgn P top rel = true
  · simp [hign]
  · simp only [Bool.not_eq_true] at hign
    rw [hign]
    simp only [Bool.false_eq_true, if_false]
    have hkeep : (fun item =>
        !(cachedDecision P top (pathOf top rel ++ "/" ++ item))) e.name = false := by
      simp [hd]
    congr 1
    · cases e with
      | file n rd =>
        rw [dirNames_append, dirNames_append, fileNames_append, fileNames_append]
        simp only [dirNames, fileNames]
        unfold mapNodeLines
        congr 1
        rw [filterMap_if_eq, filterMap_if_eq,
          filter_sortedStr_drop _ _ _ _ (by simpa [Entry.name] using hkeep)]
      | dir n cs =>
        rw [dirNames_append, dirNames_append, fileNames_append, fileNames_append]
        simp only [dirNames, fileNames]
        unfold mapNodeLines
        congr 1
        rw [filterMap_if_eq, filterMap_if_eq,
          filter_sortedStr_drop _ _ _ _ (by simpa [Entry.name] using hkeep)]
    · cases e with
      | file n rd =>
        rw [pureMapChildren_append, pureMapChildren_append]
        simp [pureMapChildren]
      | dir n cs =>
        rw [pureMapChildren_append, pureMapChildren_append]
        simp only [pureMapChildren]
        rw [pureMap_excluded_nil top P rel n cs (by simpa [Entry.name] using hd)]
        simp

/-! ## Inclusion: a surviving entry appears in the rendered output -/

theorem mem_filterMap_if {α β : Type} {keep : α → Bool} {f : α → β} {l : List α}
    {a : α} (ha : a ∈ l) (hk : keep a = true) :
    f a ∈ l.filterMap (fun d => if keep d then some (f d) else none) :=
  List.mem_filterMap.mpr ⟨a, ha, by rw [hk]; rfl⟩

theorem mem_foldr_append {α β : Type} {e : α → List β} {l : List α} {x : α} {y : β}
    (hx : x ∈ l) (hy : y ∈ e x) :
    y ∈ l.foldr (fun f acc => e f ++ acc) [] := by
  induction l with
  | nil => simp at hx
  | cons z zs ih =>
    rcases List.mem_cons.mp hx with h | h
    · subst h
      exact List.mem_append_left _ hy
    · exact List.mem_append_right _ (ih h)

theorem walkMapChildren_sub (top : String) (P : List String) (rel : List String) :
    ∀ (entries : List Entry) (cache : Cache) (n : String) (cs : List Entry),
      Entry.dir n cs ∈ entries → INVP P top cache →
      ∃ cacheX, INVP P top cacheX ∧
        (∀ k b, cacheLookup cache k = some b → cacheLookup cacheX k = some b) ∧
        ∀ x ∈ (walkMap top P (rel ++ [n]) cs cacheX).2,
          x ∈ (walkMapChildren top P rel entries cache).2 := by
  intro entries
  induction entries with
  | nil => intro cache n cs h; simp at h
  | cons e rest ih =>
    intro cache n cs hmem hinv
    rcases List.mem_cons.mp hmem with h | h
    · subst h
      refine ⟨cache, hinv, fun k b hb => hb, ?_⟩
      intro x hx
      simp only [walkMapChildren]
      exact List.mem_append_left _ hx
    · cases e with
      | file m rd =>
        obtain ⟨cx, h1, h2, h3⟩ := ih cache n cs h hinv
        exact ⟨cx, h1, h2, fun x hx => by
          simp only [walkMapChildren]
          exact h3 x hx⟩
      | dir m ms =>
        obtain ⟨pre, hpre, hvals⟩ := walkMap_cache_ext top P (rel ++ [m]) ms cache
        have hinv2 : INVP P top (walkMap top P (rel ++ [m]) ms cache).1 := by
          rw [hpre]
          exact INVP_append hvals hinv
        obtain ⟨cx, h1, h2, h3⟩ := ih (walkMap top P (rel ++ [m]) ms cache).1 n cs h hinv2
        refine ⟨cx, h1, ?_, ?_⟩
        · intro k b hb
          apply h2
          rw [hpre]
          cases hp : cacheLookup pre k with
          | none => rw [cacheLookup_append_none pre cache k hp]; exact hb
          | some v =>
            have hv : v = cachedDecision P top k := cacheLookup_INVP hvals hp
            have hbv : b = cachedDecision P top k := cacheLookup_INVP hinv hb
            rw [cacheLookup_append_some pre cache k v hp, hv, hbv]
        · intro x hx
          simp only [walkMapChildren]
          exact List.mem_append_right _ (h3 x hx)

theorem walkContentsChildren_sub (top : String) (P : List String) (rel : List String) :
    ∀ (entries : List Entry) (cache : Cache) (n : String) (cs : List Entry),
      Entry.dir n cs ∈ entries → INVP P top cache →
      ∃ cacheX, INVP P top cacheX ∧
        (∀ k b, cacheLookup cache k = some b → cacheLookup cacheX k = some b) ∧
        ∀ x ∈ (walkContents top P (rel ++ [n]) cs cacheX).2,
          x ∈ (walkContentsChildren top P rel entries cache).2 := by
  intro entries
  induction entries with
  | nil => intro cache n cs h; simp at h
  | cons e rest ih =>
    intro cache n cs hmem hinv
    rcases List.mem_cons.mp hmem with h | h
    · subst h
      refine ⟨cache, hinv, fun k b hb => hb, ?_⟩
      intro x hx
      simp only [walkContentsChildren]
      exact List.mem_append_left _ hx
    · cases e with
      | file m rd =>
        obtain ⟨cx, h1, h2, h3⟩ := ih cache n cs h hinv
        exact ⟨cx, h1, h2, fun x hx => by
          simp only [walkContentsChildren]
          exact h3 x hx⟩
      | dir m ms =>
        obtain ⟨pre, hpre, hvals⟩ := walkContents_cache_ext top P (rel ++ [m]) ms cache
        have hinv2 : INVP P top (walkContents top P (rel ++ [m]) ms cache).1 := by
          rw [hpre]
          exact INVP_append hvals hinv
        obtain ⟨cx, h1, h2, h3⟩ := ih (walkContents top P (rel ++ [m]) ms cache).1 n cs h hinv2
        refine ⟨cx, h1, ?_, ?_⟩
        · intro k b hb
          apply h2
          rw [hpre]
          cases hp : cacheLookup pre k with
          | none => rw [cacheLookup_append_none pre cache k hp]; exact hb
          | some v =>
            have hv : v = cachedDecision P top k := cacheLookup_INVP hvals hp
            have hbv : b = cachedDecision P top k := cacheLookup_INVP hinv hb
            rw [cacheLookup_append_some pre cache k v hp, hv, hbv]
        · intro x hx
          simp only [walkContentsChildren]
          exact List.mem_append_right _ (h3 x hx)

theorem get_file_contents_some (p : String) (rd : Option String) (cache : Cache)
    (h : should_ignore p cache = false) :
    ∃ s, get_file_contents p rd cache = some s := by
  unfold get_file_contents
  rw [h]
  simp only [Bool.false_eq_true, if_false]
  by_cases hb : isBinaryGuess p = true
  · rw [if_pos hb]
    exact ⟨_, rfl⟩
  · rw [if_neg hb]
    cases rd with
    | none => exact ⟨"", rfl⟩
    | some content =>
      dsimp only
      by_cases hj : pathSuffix p = ".json"
      · rw [if_pos hj]
        cases hjl : json_loads content with
        | none => exact ⟨content, rfl⟩
        | some parsed =>
          cases parsed with
          | none => exact ⟨content, rfl⟩
          | some v => exact ⟨json_dumps v, rfl⟩
      · rw [if_neg hj]
        exact ⟨content, rfl⟩

theorem walkMap_incl (top : String) (P : List String) :
    ∀ (segsD rel : List String) (children : List Entry) (cache : Cache)
      (csD : List Entry) (n : String),
      INVP P top cache →
      should_ignore (pathOf top rel) cache = false →
      (∀ k, 1 ≤ k → k ≤ segsD.length →
        cachedDecision P top (pathOf top (rel ++ segsD.take k)) = false) →
      dirAt children segsD = some csD →
      (n ∈ dirNames csD ∨ n ∈ fileNames csD) →
      cachedDecision P top (pathOf top (rel ++ segsD) ++ "/" ++ n) = false →
      mapEntryLine (rel ++ segsD).length n ∈ (walkMap top P rel children cache).2 := by
  intro segsD
  induction segsD with
  | nil =>
    intro rel children cache csD n hinv hroot hanc hat hmem hdec
    have hcs : children = csD := by
      simpa [dirAt] using hat
    subst hcs
    simp only [List.append_nil] at hdec ⊢
    simp only [walkMap, hroot, Bool.false_eq_true, if_false]
    rw [mapFold_shape]
    have hkeep : ∀ item ∈ dirNames children ++ fileNames children,
        (!(cacheLookup ((List.map (fun item => (pathOf top rel ++ "/" ++ item,
          cachedDecision P top (pathOf top rel ++ "/" ++ item)))
            (dirNames children ++ fileNames children)).reverse ++ cache)
          (pathOf top rel ++ "/" ++ item)).getD false) =
          !(cachedDecision P top (pathOf top rel ++ "/" ++ item)) := by
      intro item hitem
      rw [lookup_written (writes_vals P top _ _) (by
        simp only [List.map_map, List.map_reverse, List.mem_reverse, List.mem_map]
        exact ⟨item, hitem, rfl⟩)]
      rfl
    apply List.mem_append_left
    unfold mapNodeLines
    rcases hmem with hm | hm
    · apply List.mem_append_left
      apply mem_filterMap_if ((sortedStr_perm _).mem_iff.mpr hm)
      rw [hkeep n (List.mem_append_left _ hm), hdec]
      rfl
    · apply List.mem_append_right
      apply mem_filterMap_if ((sortedStr_perm _).mem_iff.mpr hm)
      rw [hkeep n (List.mem_append_right _ hm), hdec]
      rfl
  | cons n0 segsT ih =>
    intro rel children cache csD n hinv hroot hanc hat hmem hdec
    have hfind : ∃ cs0, children.find? (fun e => e.name == n0) = some (.dir n0 cs0) ∧
        dirAt cs0 segsT = some csD := by
      simp only [dirAt] at hat
      cases hf : children.find? (fun e => e.name == n0) with
      | none => rw [hf] at hat; simp at hat
      | some e =>
        rw [hf] at hat
        cases e with
        | file m rd => simp at hat
        | dir m cs0 =>
          dsimp only at hat
          have hname : m = n0 := by
            have hp := List.find?_some hf
            simpa [Entry.name] using hp
          exact ⟨cs0, by rw [hname], hat⟩
    obtain ⟨cs0, hf, hatT⟩ := hfind
    have hmemd : Entry.dir n0 cs0 ∈ children := List.mem_of_find?_eq_some hf
    simp only [walkMap, hroot, Bool.false_eq_true, if_false]
    rw [mapFold_shape]
    apply List.mem_append_right
    have hinv2 : INVP P top ((List.map (fun item => (pathOf top rel ++ "/" ++ item,
        cachedDecision P top (pathOf top rel ++ "/" ++ item)))
          (dirNames children ++ fileNames children)).reverse ++ cache) :=
      INVP_append (writes_vals P top _ _) hinv
    obtain ⟨cacheX, hxinv, _, hxmem⟩ :=
      walkMapChildren_sub top P rel children _ n0 cs0 hmemd hinv2
    have hd1 : cachedDecision P top (pathOf top (rel ++ [n0])) = false := by
      have := hanc 1 (by omega) (by simp)
      simpa using this
    have hrootX : should_ignore (pathOf top (rel ++ [n0])) cacheX = false :=
      should_ignore_false_of_INVP hxinv hd1
    have hancX : ∀ k, 1 ≤ k → k ≤ segsT.length →
        cachedDecision P top (pathOf top ((rel ++ [n0]) ++ segsT.take k)) = false := by
      intro k h1 h2
      have := hanc (k + 1) (by omega) (by simp; omega)
      simpa [List.take_succ_cons, List.append_assoc] using this
    have hdecX : cachedDecision P top
        (pathOf top ((rel ++ [n0]) ++ segsT) ++ "/" ++ n) = false := by
      simpa [List.append_assoc] using hdec
    have hline := ih (rel ++ [n0]) cs0 cacheX csD n hxinv hrootX hancX hatT hmem hdecX
    have hlen : ((rel ++ [n0]) ++ segsT).length = (rel ++ n0 :: segsT).length := by
      simp
    rw [show (rel ++ [n0]) ++ segsT = rel ++ n0 :: segsT by simp] at hline
    exact hxmem _ hline

theorem walkContents_incl (top : String) (P : List String) :
    ∀ (segsD rel : List String) (children : List Entry) (cache : Cache)
      (csD : List Entry) (n : String) (rd : Option String),
      INVP P top cache →
      should_ignore (pathOf top rel) cache = false →
      (∀ k, 1 ≤ k → k ≤ segsD.length →
        cachedDecision P top (pathOf top (rel ++ segsD.take k)) = false) →
      dirAt children segsD = some csD →
      (n, rd) ∈ fileEntries csD →
      cachedDecision P top (pathOf top (rel ++ segsD) ++ "/" ++ n) = false →
      ("File: " ++ joinSegs (rel ++ segsD ++ [n]) ++ "\n") ∈
        (walkContents top P rel children cache).2 := by
  intro segsD
  induction segsD with
  | nil =>
    intro rel children cache csD n rd hinv hroot hanc hat hmem hdec
    have hcs : children = csD := by
      simpa [dirAt] using hat
    subst hcs
    simp only [List.append_nil] at hdec ⊢
    simp only [walkContents, hroot, Bool.false_eq_true, if_false]
    rw [contentsFold_shape]
    apply List.mem_append_left
    have hsmem : (n, rd) ∈ sortedFileEntries (fileEntries children) :=
      (List.perm_insertionSort _ _).mem_iff.mpr hmem
    apply mem_foldr_append hsmem
    have hl : cacheLookup ((List.map (fun f => (pathOf top rel ++ "/" ++ f.1,
        cachedDecision P top (pathOf top rel ++ "/" ++ f.1)))
          (fileEntries children)).reverse ++ cache)
        (pathOf top rel ++ "/" ++ n) =
        some (cachedDecision P top (pathOf top rel ++ "/" ++ n)) := by
      apply lookup_written (writes_vals P top _ _)
      simp only [List.map_map, List.map_reverse, List.mem_reverse, List.mem_map]
      exact ⟨(n, rd), hmem, rfl⟩
    rw [hl, hdec]
    simp only [Option.getD_some, Bool.false_eq_true, if_false]
    have hinv2 : INVP P top ((List.map (fun f => (pathOf top rel ++ "/" ++ f.1,
        cachedDecision P top (pathOf top rel ++ "/" ++ f.1)))
          (fileEntries children)).reverse ++ cache) :=
      INVP_append (writes_vals P top _ _) hinv
    obtain ⟨s, hs⟩ := get_file_contents_some (pathOf top rel ++ "/" ++ n) rd _
      (should_ignore_false_of_INVP hinv2 hdec)
    rw [hs]
    simp [contentBlock]
  | cons n0 segsT ih =>
    intro rel children cache csD n rd hinv hroot hanc hat hmem hdec
    have hfind : ∃ cs0, children.find? (fun e => e.name == n0) = some (.dir n0 cs0) ∧
        dirAt cs0 segsT = some csD := by
      simp only [dirAt] at hat
      cases hf : children.find? (fun e => e.name == n0) with
      | none =>
        rw [hf] at hat
        simp at hat
      | some e =>
        rw [hf] at hat
        cases e with
        | file m rd2 => simp at hat
        | dir m cs0 =>
          dsimp only at hat
          have hname : m = n0 := by
            have hp := List.find?_some hf
            simpa [Entry.name] using hp
          exact ⟨cs0, by rw [hname], hat⟩
    obtain ⟨cs0, hf, hatT⟩ := hfind
    have hmemd : Entry.dir n0 cs0 ∈ children := List.mem_of_find?_eq_some hf
    simp only [walkContents, hroot, Bool.false_eq_true, if_false]
    rw [contentsFold_shape]
    apply List.mem_append_right
    have hinv2 : INVP P top ((List.map (fun f => (pathOf top rel ++ "/" ++ f.1,
        cachedDecision P top (pathOf top rel ++ "/" ++ f.1)))
          (fileEntries children)).reverse ++ cache) :=
      INVP_append (writes_vals P top _ _) hinv
    obtain ⟨cacheX, hxinv, _, hxmem⟩ :=
      walkContentsChildren_sub top P rel children _ n0 cs0 hmemd hinv2
    have hd1 : cachedDecision P top (pathOf top (rel ++ [n0])) = false := by
      have := hanc 1 (by omega) (by simp)
      simpa using this
    have hrootX : should_ignore (pathOf top (rel ++ [n0])) cacheX = false :=
      should_ignore_false_of_INVP hxinv hd1
    have hancX : ∀ k, 1 ≤ k → k ≤ segsT.length →
        cachedDecision P top (pathOf top ((rel ++ [n0]) ++ segsT.take k)) = false := by
      intro k h1 h2
      have := hanc (k + 1) (by omega) (by simp; omega)
      simpa [List.take_succ_cons, List.append_assoc] using this
    have hdecX : cachedDecision P top
        (pathOf top ((rel ++ [n0]) ++ segsT) ++ "/" ++ n) = false := by
      simpa [List.append_assoc] using hdec
    have hline := ih (rel ++ [n0]) cs0 cacheX csD n rd hxinv hrootX hancX hatT hmem hdecX
    rw [show (rel ++ [n0]) ++ segsT ++ [n] = rel ++ (n0 :: segsT) ++ [n] by simp] at hline
    exact hxmem _ hline

/-! ## Exclusion: a glob-matched file never gets a contents block -/

theorem mem_foldr_append_ex {α β : Type} {e : α → List β} {l : List α} {y : β}
    (hy : y ∈ l.foldr (fun f acc => e f ++ acc) []) : ∃ x ∈ l, y ∈ e x := by
  induction l with
  | nil => simp at hy
  | cons z zs ih =>
    rcases List.mem_append.mp hy with h | h
    · exact ⟨z, by simp, h⟩
    · obtain ⟨x, hx, hxy⟩ := ih h
      exact ⟨x, by simp [hx], hxy⟩

theorem fileEntries_mem {children : List Entry} {n : String} {rd : Option String} :
    (n, rd) ∈ fileEntries children ↔ Entry.file n rd ∈ children := by
  induction children with
  | nil => simp [fileEntries]
  | cons e rest ih =>
    cases e with
    | file m rd2 =>
      simp only [fileEntries, List.mem_cons, ih, Prod.mk.injEq, Entry.file.injEq]
    | dir m cs =>
      simp only [fileEntries, List.mem_cons, ih]
      constructor
      · intro h; exact Or.inr h
      · rintro (h | h)
        · exact absurd h (by simp)
        · exact h

theorem slashFree_of_mem {children : List Entry} (h : slashFreeEntries children = true) :
    ∀ e ∈ children, slashFreeEntry e = true := by
  induction children with
  | nil => intro e he; simp at he
  | cons z zs ih =>
    simp only [slashFreeEntries, Bool.and_eq_true] at h
    intro e he
    rcases List.mem_cons.mp he with hh | hh
    · subst hh; exact h.1
    · exact ih h.2 e hh

theorem header_ne_body (a c : String) :
    ("File: " ++ a ++ "\n") ≠ ("```\n" ++ c ++ "\n```\n\n") := by
  intro h
  have hd := congrArg (fun s => s.data.head?) h
  simp only [String.data_append] at hd
  exact absurd hd (by simp [show ("File: " : String).data = ['F','i','l','e',':',' '] from rfl,
    show ("```\n" : String).data = ['`','`','`','\n'] from rfl])

theorem header_inj {a b : String} (h : "File: " ++ a ++ "\n" = "File: " ++ b ++ "\n") :
    a = b := by
  have hd := congrArg String.data h
  simp only [String.data_append] at hd
  have h1 := List.append_cancel_right hd
  have h2 := List.append_cancel_left h1
  cases a; cases b
  exact congrArg String.mk h2

theorem walkContents_excl (top : String) (P : List String) (target : List String)
    (htne : target ≠ []) (htsf : ∀ m ∈ target, slashFree m = true)
    (hdec : cachedDecision P top (pathOf top target) = true) :
    ∀ (rel : List String) (children : List Entry) (cache : Cache),
      INVP P top cache →
      (∀ m ∈ rel, slashFree m = true) →
      slashFreeEntries children = true →
      ("File: " ++ joinSegs target ++ "\n") ∉ (walkContents top P rel children cache).2 := by
  apply walkContents.induct top P
    (fun rel children cache =>
      INVP P top cache →
      (∀ m ∈ rel, slashFree m = true) →
      slashFreeEntries children = true →
      ("File: " ++ joinSegs target ++ "\n") ∉ (walkContents top P rel children cache).2)
    (fun rel entries cache =>
      INVP P top cache →
      (∀ m ∈ rel, slashFree m = true) →
      slashFreeEntries entries = true →
      ("File: " ++ joinSegs target ++ "\n") ∉
        (walkContentsChildren top P rel entries cache).2)
  · intro rel children cache root hign ih hinv hrel hsf
    have hroot : root = pathOf top rel := rfl
    rw [hroot] at hign
    simp only [walkContents, hign, if_true]
    exact ih hinv hrel hsf
  · intro rel children cache root hign files cache2 ih hinv hrel hsf
    have hroot : root = pathOf top rel := rfl
    rw [hroot] at hign
    have hign2 : should_ignore (pathOf top rel) cache = false := by simpa using hign
    simp only [walkContents, hign2, Bool.false_eq_true, if_false]
    rw [contentsFold_shape]
    intro hmem
    have hinv2 : INVP P top ((List.map (fun f => (pathOf top rel ++ "/" ++ f.1,
        cachedDecision P top (pathOf top rel ++ "/" ++ f.1)))
          (fileEntries children)).reverse ++ cache) :=
      INVP_append (writes_vals P top _ _) hinv
    rcases List.mem_append.mp hmem with hb | hs
    · obtain ⟨f, hfmem, hfy⟩ := mem_foldr_append_ex hb
      obtain ⟨fn, frd⟩ := f
      have hfe : (fn, frd) ∈ fileEntries children :=
        (List.perm_insertionSort _ _).mem_iff.mp hfmem
      by_cases hlk : (cacheLookup ((List.map (fun f => (pathOf top rel ++ "/" ++ f.1,
          cachedDecision P top (pathOf top rel ++ "/" ++ f.1)))
            (fileEntries children)).reverse ++ cache)
          (pathOf top rel ++ "/" ++ (fn, frd).1)).getD false = true
      · rw [if_pos hlk] at hfy
        simp at hfy
      · rw [if_neg hlk] at hfy
        have hfree : slashFree fn = true := by
          have := slashFree_of_mem hsf _ (fileEntries_mem.mp hfe)
          simpa [slashFreeEntry] using this
        cases hgc : get_file_contents (pathOf top rel ++ "/" ++ (fn, frd).1) (fn, frd).2
            ((List.map (fun f => (pathOf top rel ++ "/" ++ f.1,
              cachedDecision P top (pathOf top rel ++ "/" ++ f.1)))
                (fileEntries children)).reverse ++ cache) with
        | none => rw [hgc] at hfy; simp at hfy
        | some content =>
          rw [hgc] at hfy
          simp only [contentBlock, List.mem_cons, List.mem_singleton] at hfy
          rcases hfy with hfy | hfy | hfy
          · have hjj : joinSegs target = joinSegs (rel ++ [fn]) := header_inj hfy
            have hseq : target = rel ++ [fn] := by
              apply joinSegs_inj target (rel ++ [fn]) htne (by simp) htsf
              · intro m hm
                rcases List.mem_append.mp hm with h | h
                · exact hrel m h
                · rw [List.mem_singleton.mp h]
                  exact hfree
              · exact hjj
            have hkey : pathOf top target = pathOf top rel ++ "/" ++ fn := by
              rw [hseq, pathOf_snoc]
            have hlkv : cacheLookup ((List.map (fun f => (pathOf top rel ++ "/" ++ f.1,
                cachedDecision P top (pathOf top rel ++ "/" ++ f.1)))
                  (fileEntries children)).reverse ++ cache)
                (pathOf top rel ++ "/" ++ fn) =
                some (cachedDecision P top (pathOf top rel ++ "/" ++ fn)) := by
              apply lookup_written (writes_vals P top _ _)
              simp only [List.map_map, List.map_reverse, List.mem_reverse, List.mem_map]
              exact ⟨(fn, frd), hfe, rfl⟩
            simp only at hlk
            rw [hlkv] at hlk
            rw [← hkey] at hlk
            simp only [Option.getD_some] at hlk
            exact hlk hdec
          · exact header_ne_body _ _ hfy
          · simp at hfy
    · have hc2eq : cache2 = (List.map (fun f => (pathOf top rel ++ "/" ++ f.1,
          cachedDecision P top (pathOf top rel ++ "/" ++ f.1)))
            (fileEntries children)).reverse ++ cache := by
        show List.foldl _ cache files = _
        have hfe2 : files = fileEntries children := rfl
        rw [hfe2, show root = pathOf top rel from rfl] at *
        exact contentsFold_shape P top (pathOf top rel) _ cache
      rw [hc2eq] at ih
      exact ih hinv2 hrel hsf hs
  · intro rel cache _ _ _
    simp [walkContentsChildren]
  · intro rel name rd rest cache ih hinv hrel hsf
    simp only [slashFreeEntries, Bool.and_eq_true] at hsf
    simp only [walkContentsChildren]
    exact ih hinv hrel hsf.2
  · intro rel n cs rest cache r1 ih1 ih2 hinv hrel hsf
    simp only [slashFreeEntries, Bool.and_eq_true, slashFreeEntry] at hsf
    have hn : slashFree n = true := hsf.1.1
    have hcs : slashFreeEntries cs = true := hsf.1.2
    simp only [walkContentsChildren]
    intro hmem
    rcases List.mem_append.mp hmem with h | h
    · exact ih1 hinv (by
        intro m hm
        rcases List.mem_append.mp hm with hh | hh
        · exact hrel m hh
        · rw [List.mem_singleton.mp hh]; exact hn) hcs h
    · obtain ⟨pre, hpre, hvals⟩ := walkContents_cache_ext top P (rel ++ [n]) cs cache
      have hinvX : INVP P top (walkContents top P (rel ++ [n]) cs cache).1 := by
        rw [hpre]
        exact INVP_append hvals hinv
      exact ih2 hinvX hrel hsf.2 h

/-! ## A failing read renders exactly like a successful read of nothing -/

theorem get_file_contents_defErr (p : String) (rd : Option String) (cache : Cache) :
    get_file_contents p (some (rd.getD "")) cache = get_file_contents p rd cache := by
  cases rd with
  | some c => rfl
  | none =>
    unfold get_file_contents
    by_cases hi : should_ignore p cache = true
    · rw [if_pos hi, if_pos hi]
    · rw [if_neg hi, if_neg hi]
      by_cases hb : isBinaryGuess p = true
      · rw [if_pos hb, if_pos hb]
      · rw [if_neg hb, if_neg hb]
        dsimp only [Option.getD_none]
        by_cases hj : pathSuffix p = ".json"
        · rw [if_pos hj]
          have : json_loads "" = none := rfl
          rw [this]
        · rw [if_neg hj]

theorem fileEntries_defErr (children : List Entry) :
    fileEntries (defErrEntries children) =
      (fileEntries children).map (fun f => (f.1, some (f.2.getD ""))) := by
  induction children with
  | nil => rfl
  | cons e rest ih =>
    cases e with
    | file n rd =>
      cases rd <;> simp [defErrEntries, defErrEntry, fileEntries, ih]
    | dir n cs => simp [defErrEntries, defErrEntry, fileEntries, ih]

theorem orderedInsert_map_name (g : Option String → Option String)
    (x : String × Option String) (l : List (String × Option String)) :
    List.orderedInsert (fun a b => strRel a.1 b.1) (x.1, g x.2)
      (l.map (fun f => (f.1, g f.2))) =
    (List.orderedInsert (fun a b => strRel a.1 b.1) x l).map (fun f => (f.1, g f.2)) := by
  induction l with
  | nil => rfl
  | cons y ys ih =>
    simp only [List.map_cons, List.orderedInsert]
    by_cases hr : strRel x.1 y.1
    · rw [if_pos hr, if_pos hr]
      simp
    · rw [if_neg hr, if_neg hr]
      simp only [List.map_cons]
      rw [ih]

theorem sortedFileEntries_map_name_preserving (g : Option String → Option String)
    (l : List (String × Option String)) :
    sortedFileEntries (l.map (fun f => (f.1, g f.2))) =
      (sortedFileEntries l).map (fun f => (f.1, g f.2)) := by
  unfold sortedFileEntries
  induction l with
  | nil => rfl
  | cons x xs ih =>
    simp only [List.map_cons, List.insertionSort, ih]
    exact orderedInsert_map_name g x _

theorem loadGitignore_defErr (children : List Entry) :
    loadGitignore (defErrEntries children) = loadGitignore children := by
  unfold loadGitignore
  have hfind : ∀ (l : List Entry),
      (defErrEntries l).find? (fun e => e.name == ".gitignore") =
        (l.find? (fun e => e.name == ".gitignore")).map defErrEntry := by
    intro l
    induction l with
    | nil => rfl
    | cons e rest ih =>
      have hname : (defErrEntry e).name = e.name := by
        cases e with
        | file n rd => cases rd <;> rfl
        | dir n cs => rfl
      show List.find? _ (defErrEntry e :: defErrEntries rest) = _
      rw [List.find?_cons, List.find?_cons, hname]
      cases hp : (e.name == ".gitignore") with
      | true => rfl
      | false => exact ih
  rw [hfind children]
  cases hf : children.find? (fun e => e.name == ".gitignore") with
  | none => rfl
  | some e =>
    cases e with
    | file n rd =>
      cases rd with
      | none =>
        show GitIgnore.loadLines "" = []
        rfl
      | some c => rfl
    | dir n cs => rfl

theorem walkContents_defErr (top : String) (P : List String) :
    ∀ (rel : List String) (children : List Entry) (cache : Cache),
      walkContents top P rel (defErrEntries children) cache =
        walkContents top P rel children cache := by
  apply walkContents.induct top P
    (fun rel children cache =>
      walkContents top P rel (defErrEntries children) cache =
        walkContents top P rel children cache)
    (fun rel entries cache =>
      walkContentsChildren top P rel (defErrEntries entries) cache =
        walkContentsChildren top P rel entries cache)
  · intro rel children cache root hign ih
    have hroot : root = pathOf top rel := rfl
    rw [hroot] at hign
    simp only [walkContents, hign, if_true]
    exact ih
  · intro rel children cache root hign files cache2 ih
    have hroot : root = pathOf top rel := rfl
    rw [hroot] at hign
    have hign2 : should_ignore (pathOf top rel) cache = false := by simpa using hign
    simp only [walkContents, hign2, Bool.false_eq_true, if_false]
    rw [fileEntries_defErr]
    have hfold : (List.foldl (fun c f => cacheInsert c (pathOf top rel ++ "/" ++ f.1)
        (cachedDecision P top (pathOf top rel ++ "/" ++ f.1))) cache
          ((fileEntries children).map (fun f => (f.1, some (f.2.getD ""))))) =
        (List.foldl (fun c f => cacheInsert c (pathOf top rel ++ "/" ++ f.1)
          (cachedDecision P top (pathOf top rel ++ "/" ++ f.1))) cache
            (fileEntries children)) := by
      rw [contentsFold_shape, contentsFold_shape]
      congr 1
      rw [List.map_map]
      congr 1
    rw [hfold]
    have hblocks : ((sortedFileEntries ((fileEntries children).map
        (fun f => (f.1, some (f.2.getD ""))))).foldr
        (fun f acc =>
          (if (cacheLookup (List.foldl (fun c f => cacheInsert c (pathOf top rel ++ "/" ++ f.1)
              (cachedDecision P top (pathOf top rel ++ "/" ++ f.1))) cache
                (fileEntries children)) (pathOf top rel ++ "/" ++ f.1)).getD false then []
           else
             match get_file_contents (pathOf top rel ++ "/" ++ f.1) f.2
                 (List.foldl (fun c f => cacheInsert c (pathOf top rel ++ "/" ++ f.1)
                   (cachedDecision P top (pathOf top rel ++ "/" ++ f.1))) cache
                     (fileEntries children)) with
             | some content => contentBlock (joinSegs (rel ++ [f.1])) content
             | none => []) ++ acc) []) =
        ((sortedFileEntries (fileEntries children)).foldr
        (fun f acc =>
          (if (cacheLookup (List.foldl (fun c f => cacheInsert c (pathOf top rel ++ "/" ++ f.1)
              (cachedDecision P top (pathOf top rel ++ "/" ++ f.1))) cache
                (fileEntries children)) (pathOf top rel ++ "/" ++ f.1)).getD false then []
           else
             match get_file_contents (pathOf top rel ++ "/" ++ f.1) f.2
                 (List.foldl (fun c f => cacheInsert c (pathOf top rel ++ "/" ++ f.1)
                   (cachedDecision P top (pathOf top rel ++ "/" ++ f.1))) cache
                     (fileEntries children)) with
             | some content => contentBlock (joinSegs (rel ++ [f.1])) content
             | none => []) ++ acc) []) := by
      rw [sortedFileEntries_map_name_preserving (fun rd => some (rd.getD ""))]
      generalize sortedFileEntries (fileEntries children) = s
      induction s with
      | nil => rfl
      | cons y ys ih2 =>
        simp only [List.map_cons, List.foldr_cons, ih2]
        congr 1
        rw [get_file_contents_defErr]
    rw [hblocks, ih]
  · intro rel cache
    rfl
  · intro rel name rd rest cache ih
    cases rd <;> simp only [defErrEntries, defErrEntry, walkContentsChildren] <;> exact ih
  · intro rel n cs rest cache r1 ih1 ih2
    simp only [defErrEntries, defErrEntry, walkContentsChildren]
    rw [ih1]
    rw [show r1 = walkContents top P (rel ++ [n]) cs cache from rfl] at ih2
    rw [ih2]

theorem foldl_map_congr {α β : Type} (f : β → α → β) (g : α → α) :
    ∀ (l : List α) (st : β), (∀ a ∈ l, ∀ b, f b (g a) = f b a) →
      (l.map g).foldl f st = l.foldl f st := by
  intro l
  induction l with
  | nil => intro st _; rfl
  | cons x xs ih =>
    intro st h
    simp only [List.map_cons, List.foldl_cons]
    rw [h x (by simp) st]
    exact ih _ (fun a ha b => h a (by simp [ha]) b)

theorem build_file_contents_defErr (inputs : List (String × Node)) :
    build_file_contents (defErrInputs inputs) = build_file_contents inputs := by
  unfold build_file_contents defErrInputs
  apply congrArg
  apply congrArg (fun l => l ++ ["</file_contents>"])
  apply congrArg Prod.snd
  apply foldl_map_congr
  intro a _ b
  obtain ⟨p, n⟩ := a
  cases n with
  | dirNode children =>
    simp only [defErrNode]
    rw [loadGitignore_defErr, walkContents_defErr]
  | fileNode rd =>
    cases rd with
    | some c => rfl
    | none =>
      simp only [defErrNode]
      have h := get_file_contents_defErr p none b.1
      simp only [Option.getD_none] at h
      rw [h]

/-! ## The contents walk equals the recompute variant on a fresh cache

The contents cache only ever holds file paths, so as long as no visited
directory path collides with a file path (true of any real tree), the root
check of every visit reads nothing from the cache, and every file lookup
reads the decision written in the same iteration. -/

theorem lookup_append_mem {a b : Cache} {k : String} {v : Bool}
    (h : cacheLookup (a ++ b) k = some v) :
    k ∈ a.map Prod.fst ∨ cacheLookup b k = some v := by
  induction a with
  | nil => exact Or.inr h
  | cons kv tl ih =>
    simp only [List.cons_append, cacheLookup] at h
    by_cases hk : kv.1 = k
    · exact Or.inl (by simp [hk])
    · rw [if_neg hk] at h
      rcases ih h with h2 | h2
      · exact Or.inl (by simp [h2])
      · exact Or.inr h2

theorem filePathsE_mem (top : String) :
    ∀ (children : List Entry) (rel : List String) (f : String × Option String),
      f ∈ fileEntries children →
      (pathOf top rel ++ "/" ++ f.1) ∈ filePathsE top rel children := by
  intro children
  induction children with
  | nil => intro rel f hf; simp [fileEntries] at hf
  | cons e tl ih =>
    intro rel f hf
    cases e with
    | file m rd =>
      simp only [fileEntries, List.mem_cons] at hf
      simp only [filePathsE, filePathsEntry]
      rcases hf with hf | hf
      · subst hf
        simp
      · exact List.mem_append_right _ (ih rel f hf)
    | dir m cs =>
      simp only [fileEntries] at hf
      simp only [filePathsE, filePathsEntry]
      exact List.mem_append_right _ (ih rel f hf)

theorem foldr_blocks_congr {α : Type} (e1 e2 : α → List String) :
    ∀ (l : List α), (∀ x ∈ l, e1 x = e2 x) →
      l.foldr (fun x acc => e1 x ++ acc) [] = l.foldr (fun x acc => e2 x ++ acc) [] := by
  intro l
  induction l with
  | nil => intro _; rfl
  | cons x xs ih =>
    intro h
    simp only [List.foldr_cons]
    rw [h x (by simp), ih (fun y hy => h y (by simp [hy]))]

theorem get_file_contents_cache_congr {p : String} {c1 c2 : Cache} (rd : Option String)
    (h : should_ignore p c1 = should_ignore p c2) :
    get_file_contents p rd c1 = get_file_contents p rd c2 := by
  unfold get_file_contents
  rw [h]

theorem static_false_of_cachedDecision {P : List String} {top p : String}
    (hd : cachedDecision P top p = false) : should_ignore p [] = false := by
  cases h : should_ignore p []
  · rfl
  · rw [static_le_cachedDecision P top p h] at hd
    exact absurd hd (by simp)

theorem walkContents_eq_pure (top : String) (P : List String) (F : List String) :
    ∀ (rel : List String) (children : List Entry) (cache : Cache),
      (∀ k v, cacheLookup cache k = some v → k ∈ F) →
      (∀ q ∈ filePathsE top rel children, q ∈ F) →
      pathOf top rel ∉ F →
      (∀ d ∈ dirPathsE top rel children, d ∉ F) →
      (walkContents top P rel children cache).2 = pureContents top P rel children ∧
      (∀ k v, cacheLookup (walkContents top P rel children cache).1 k = some v → k ∈ F) := by
  apply walkContents.induct top P
    (fun rel children cache =>
      (∀ k v, cacheLookup cache k = some v → k ∈ F) →
      (∀ q ∈ filePathsE top rel children, q ∈ F) →
      pathOf top rel ∉ F →
      (∀ d ∈ dirPathsE top rel children, d ∉ F) →
      (walkContents top P rel children cache).2 = pureContents top P rel children ∧
      (∀ k v, cacheLookup (walkContents top P rel children cache).1 k = some v → k ∈ F))
    (fun rel entries cache =>
      (∀ k v, cacheLookup cache k = some v → k ∈ F) →
      (∀ q ∈ filePathsE top rel entries, q ∈ F) →
      (∀ d ∈ dirPathsE top rel entries, d ∉ F) →
      (walkContentsChildren top P rel entries cache).2 = pureContentsChildren top P rel entries ∧
      (∀ k v, cacheLookup (walkContentsChildren top P rel entries cache).1 k = some v → k ∈ F))
  · intro rel children cache root hign ih hK hFP hroot hDP
    have hroot_eq : root = pathOf top rel := rfl
    rw [hroot_eq] at hign
    have hlk : cacheLookup cache (pathOf top rel) = none := by
      cases h : cacheLookup cache (pathOf top rel) with
      | none => rfl
      | some v => exact absurd (hK _ v h) hroot
    have hstat : should_ignore (pathOf top rel) [] = true := by
      rw [← should_ignore_lookup_none hlk]
      exact hign
    obtain ⟨he, hk⟩ := ih hK hFP hDP
    constructor
    · simp only [walkContents, hign, if_true, pureContents, hstat, List.nil_append]
      exact he
    · intro k v h
      apply hk k v
      simpa only [walkContents, hign, if_true] using h
  · intro rel children cache root hign files cache2 ih hK hFP hroot hDP
    have hroot_eq : root = pathOf top rel := rfl
    rw [hroot_eq] at hign
    have hign2 : should_ignore (pathOf top rel) cache = false := by simpa using hign
    have hlk : cacheLookup cache (pathOf top rel) = none := by
      cases h : cacheLookup cache (pathOf top rel) with
      | none => rfl
      | some v => exact absurd (hK _ v h) hroot
    have hstat : should_ignore (pathOf top rel) [] = false := by
      rw [← should_ignore_lookup_none hlk]
      exact hign2
    have hc2 : cache2 = ((fileEntries children).map (fun f =>
        (pathOf top rel ++ "/" ++ f.1,
          cachedDecision P top (pathOf top rel ++ "/" ++ f.1)))).reverse ++ cache :=
      contentsFold_shape P top (pathOf top rel) (fileEntries children) cache
    rw [hc2] at ih
    have hW := writes_vals P top (fun f : String × Option String =>
      pathOf top rel ++ "/" ++ f.1) (fileEntries children)
    have hK2 : ∀ k v, cacheLookup (((fileEntries children).map (fun f =>
        (pathOf top rel ++ "/" ++ f.1,
          cachedDecision P top (pathOf top rel ++ "/" ++ f.1)))).reverse ++ cache) k =
        some v → k ∈ F := by
      intro k v h
      rcases lookup_append_mem h with h2 | h2
      · simp only [List.map_reverse, List.mem_reverse, List.map_map, List.mem_map] at h2
        obtain ⟨f, hf, hfe⟩ := h2
        have hmem := filePathsE_mem top children rel f hf
        rw [show ((fun p => p.1) ∘ fun f : String × Option String =>
            (pathOf top rel ++ "/" ++ f.1,
              cachedDecision P top (pathOf top rel ++ "/" ++ f.1))) f =
            pathOf top rel ++ "/" ++ f.1 from rfl] at hfe
        rw [← hfe]
        exact hFP _ hmem
      · exact hK k v h2
    have hitem : ∀ f ∈ sortedFileEntries (fileEntries children),
        (if (cacheLookup (((fileEntries children).map (fun f =>
            (pathOf top rel ++ "/" ++ f.1,
              cachedDecision P top (pathOf top rel ++ "/" ++ f.1)))).reverse ++ cache)
            (pathOf top rel ++ "/" ++ f.1)).getD false then []
         else
           match get_file_contents (pathOf top rel ++ "/" ++ f.1) f.2
               (((fileEntries children).map (fun f =>
                 (pathOf top rel ++ "/" ++ f.1,
                   cachedDecision P top (pathOf top rel ++ "/" ++ f.1)))).reverse ++ cache) with
           | some content => contentBlock (joinSegs (rel ++ [f.1])) content
           | none => []) =
        (if cachedDecision P top (pathOf top rel ++ "/" ++ f.1) then []
         else
           match get_file_contents (pathOf top rel ++ "/" ++ f.1) f.2 [] with
           | some content => contentBlock (joinSegs (rel ++ [f.1])) content
           | none => []) := by
      intro f hf
      have hfi : f ∈ fileEntries children := by
        have hperm := List.perm_insertionSort (fun a b : String × Option String =>
          strRel a.1 b.1) (fileEntries children)
        exact hperm.mem_iff.mp hf
      have hkm : (pathOf top rel ++ "/" ++ f.1) ∈
          (((fileEntries children).map (fun f =>
            (pathOf top rel ++ "/" ++ f.1,
              cachedDecision P top (pathOf top rel ++ "/" ++ f.1)))).reverse).map
            Prod.fst := by
        simp only [List.map_reverse, List.mem_reverse, List.map_map, List.mem_map]
        exact ⟨f, hfi, rfl⟩
      have hlkf : cacheLookup (((fileEntries children).map (fun f =>
          (pathOf top rel ++ "/" ++ f.1,
            cachedDecision P top (pathOf top rel ++ "/" ++ f.1)))).reverse ++ cache)
          (pathOf top rel ++ "/" ++ f.1) =
          some (cachedDecision P top (pathOf top rel ++ "/" ++ f.1)) :=
        lookup_written hW hkm
      rw [hlkf]
      simp only [Option.getD_some]
      cases hd : cachedDecision P top (pathOf top rel ++ "/" ++ f.1) with
      | true => rfl
      | false =>
        have hsi2 : should_ignore (pathOf top rel ++ "/" ++ f.1)
            (((fileEntries children).map (fun f =>
              (pathOf top rel ++ "/" ++ f.1,
                cachedDecision P top (pathOf top rel ++ "/" ++ f.1)))).reverse ++ cache) =
            false := by
          rw [should_ignore_lookup_dec hlkf]
          exact hd
        have hsi0 : should_ignore (pathOf top rel ++ "/" ++ f.1) [] = false :=
          static_false_of_cachedDecision hd
        rw [get_file_contents_cache_congr f.2 (hsi2.trans hsi0.symm)]
    obtain ⟨he, hk⟩ := ih hK2 hFP hDP
    constructor
    · simp only [walkContents, hign2, Bool.false_eq_true, if_false, pureContents, hstat,
        List.nil_append]
      rw [contentsFold_shape]
      congr 1
      exact foldr_blocks_congr _ _ _ hitem
    · intro k v h
      simp only [walkContents, hign2, Bool.false_eq_true, if_false] at h
      rw [contentsFold_shape] at h
      exact hk k v h
  · intro rel cache hK _ _
    refine ⟨by simp only [walkContentsChildren, pureContentsChildren], ?_⟩
    intro k v h
    apply hK k v
    simpa only [walkContentsChildren] using h
  · intro rel name rd rest cache ih hK hFP hDP
    have hFP2 : ∀ q ∈ filePathsE top rel rest, q ∈ F := by
      intro q hq
      exact hFP q (by
        simp only [filePathsE, filePathsEntry]
        exact List.mem_append_right _ hq)
    have hDP2 : ∀ d ∈ dirPathsE top rel rest, d ∉ F := by
      intro d hd
      exact hDP d (by
        simp only [dirPathsE, dirPathsEntry]
        simpa using hd)
    obtain ⟨he, hk⟩ := ih hK hFP2 hDP2
    refine ⟨?_, ?_⟩
    · simp only [walkContentsChildren, pureContentsChildren]
      exact he
    · intro k v h
      apply hk k v
      simpa only [walkContentsChildren] using h
  · intro rel n cs rest cache r1 ih1 ih2 hK hFP hDP
    have hr1 : r1 = walkContents top P (rel ++ [n]) cs cache := rfl
    have hFP1 : ∀ q ∈ filePathsE top (rel ++ [n]) cs, q ∈ F := by
      intro q hq
      exact hFP q (by
        simp only [filePathsE, filePathsEntry]
        exact List.mem_append_left _ hq)
    have hroot1 : pathOf top (rel ++ [n]) ∉ F := by
      apply hDP
      simp only [dirPathsE, dirPathsEntry]
      simp
    have hDP1 : ∀ d ∈ dirPathsE top (rel ++ [n]) cs, d ∉ F := by
      intro d hd
      apply hDP
      simp only [dirPathsE, dirPathsEntry, List.cons_append, List.mem_cons, List.mem_append]
      exact Or.inr (Or.inl hd)
    obtain ⟨he1, hk1⟩ := ih1 hK hFP1 hroot1 hDP1
    have hFP2 : ∀ q ∈ filePathsE top rel rest, q ∈ F := by
      intro q hq
      exact hFP q (by
        simp only [filePathsE, filePathsEntry]
        exact List.mem_append_right _ hq)
    have hDP2 : ∀ d ∈ dirPathsE top rel rest, d ∉ F := by
      intro d hd
      apply hDP
      simp only [dirPathsE, dirPathsEntry, List.cons_append, List.mem_cons, List.mem_append]
      exact Or.inr (Or.inr hd)
    obtain ⟨he2, hk2⟩ := ih2 hk1 hFP2 hDP2
    rw [hr1] at he2 hk2
    refine ⟨?_, ?_⟩
    · simp only [walkContentsChildren, pureContentsChildren]
      rw [he1, he2]
    · intro k v h
      apply hk2 k v
      simpa only [walkContentsChildren] using h


theorem build_contents_single_eq_pure (p : String) (children : List Entry)
    (hsep1 : p ∉ filePathsE p [] children)
    (hsep2 : ∀ d ∈ dirPathsE p [] children, d ∉ filePathsE p [] children) :
    build_file_contents [(p, .dirNode children)] =
      build_file_contents_pure [(p, .dirNode children)] := by
  unfold build_file_contents build_file_contents_pure
  simp only [List.foldl_cons, List.foldl_nil]
  rw [(walkContents_eq_pure p (loadGitignore children) (filePathsE p [] children) [] children []
    (by intro k v h; simp [cacheLookup] at h) (fun q hq => hq)
    (by rw [pathOf_nil]; exact hsep1) hsep2).1]


/-! ## Round trip of the JSON codec: digits and characters -/

theorem jfuel_pos (v : JValue) : 1 ≤ jfuel v := by
  cases v <;> simp [jfuel]

theorem char_valid_nat (c : Char) :
    c.toNat < 0xd800 ∨ (0xe000 ≤ c.toNat ∧ c.toNat < 0x110000) := by
  have h := c.valid
  unfold UInt32.isValidChar Nat.isValidChar at h
  exact h

theorem digitCh_toNat {d : Nat} (hd : d < 10) : (digitCh d).toNat = 48 + d := by
  interval_cases d <;> decide

theorem digitVal_digitCh {d : Nat} (hd : d < 10) : digitVal (digitCh d) = some d := by
  interval_cases d <;> decide

theorem parseHex_hexDigitCh {m : Nat} (hm : m < 16) : parseHex (hexDigitCh m) = some m := by
  interval_cases m <;> decide

theorem munch_stop {rest : List Char} (h : headDigit rest = false) (acc : Nat) :
    munchDigits rest acc = (acc, rest) := by
  cases rest with
  | nil => rfl
  | cons c t =>
    simp only [headDigit, Option.isSome] at h
    unfold munchDigits
    cases hd : digitVal c with
    | none => rfl
    | some d => rw [hd] at h; simp at h

theorem skipWs_not_ws {c : Char} {x : List Char} (h : jWs c = false) :
    skipWs (c :: x) = c :: x := by
  show (if jWs c = true then skipWs x else c :: x) = c :: x
  rw [h]
  simp

theorem skipWs_ws {c : Char} {x : List Char} (h : jWs c = true) :
    skipWs (c :: x) = skipWs x := by
  show (if jWs c = true then skipWs x else c :: x) = skipWs x
  rw [h]
  simp

theorem skipWs_indent (l : Nat) (x : List Char) :
    skipWs ((indentStr l).data ++ x) = skipWs x := by
  induction l with
  | zero => rfl
  | succ k ih =>
    show skipWs (("    " ++ indentStr k).data ++ x) = skipWs x
    rw [String.data_append]
    show skipWs (' ' :: ' ' :: ' ' :: ' ' :: ((indentStr k).data ++ x)) = skipWs x
    rw [skipWs_ws (by decide), skipWs_ws (by decide), skipWs_ws (by decide),
      skipWs_ws (by decide)]
    exact ih

/-! ## Round trip of the JSON codec: integers -/

theorem natDigsAux_succ_lt (f n : Nat) (h10 : ¬ n < 10) :
    natDigsAux (f + 1) n = natDigsAux f (n / 10) ++ [digitCh (n % 10)] := by
  show (if n < 10 then [digitCh n] else natDigsAux f (n / 10) ++ [digitCh (n % 10)]) = _
  rw [if_neg h10]

theorem natDigsAux_shape :
    ∀ (n f : Nat), n < f →
      ∃ d ds, natDigsAux f n = digitCh d :: ds ∧ d < 10 ∧ (d = 0 → n = 0) := by
  intro n
  induction n using Nat.strong_induction_on with
  | _ n ih =>
    intro f hf
    cases f with
    | zero => omega
    | succ f2 =>
      by_cases h10 : n < 10
      · refine ⟨n, [], ?_, h10, fun h => h⟩
        unfold natDigsAux
        rw [if_pos h10]
      · rw [natDigsAux_succ_lt f2 n h10]
        have hlt : n / 10 < n := by omega
        obtain ⟨d, ds, hshape, hd10, hd0⟩ := ih (n / 10) hlt f2 (by omega)
        refine ⟨d, ds ++ [digitCh (n % 10)], ?_, hd10, ?_⟩
        · rw [hshape]
          simp
        · intro h0
          have := hd0 h0
          omega

theorem munch_natDigsAux :
    ∀ (n f acc : Nat) (rest : List Char), n < f →
      ∃ k, munchDigits (natDigsAux f n ++ rest) acc =
        munchDigits rest (acc * 10 ^ k + n) ∧ n < 10 ^ k := by
  intro n
  induction n using Nat.strong_induction_on with
  | _ n ih =>
    intro f acc rest hf
    cases f with
    | zero => omega
    | succ f2 =>
      by_cases h10 : n < 10
      · refine ⟨1, ?_, by omega⟩
        show munchDigits ((if n < 10 then [digitCh n] else _) ++ rest) acc = _
        rw [if_pos h10]
        show munchDigits (digitCh n :: rest) acc = _
        have hstep : munchDigits (digitCh n :: rest) acc =
            munchDigits rest (acc * 10 + n) := by
          show (match digitVal (digitCh n) with
            | some d => munchDigits rest (acc * 10 + d)
            | none => (acc, digitCh n :: rest)) = _
          rw [digitVal_digitCh h10]
        rw [hstep, pow_one]
      · rw [natDigsAux_succ_lt f2 n h10]
        have hlt : n / 10 < n := by omega
        obtain ⟨k, hmu, hpow⟩ := ih (n / 10) hlt f2 acc (digitCh (n % 10) :: rest) (by omega)
        refine ⟨k + 1, ?_, ?_⟩
        · rw [List.append_assoc, List.singleton_append, hmu]
          have hstep : munchDigits (digitCh (n % 10) :: rest) (acc * 10 ^ k + n / 10) =
              munchDigits rest ((acc * 10 ^ k + n / 10) * 10 + n % 10) := by
            show (match digitVal (digitCh (n % 10)) with
              | some d => munchDigits rest ((acc * 10 ^ k + n / 10) * 10 + d)
              | none => _) = _
            rw [digitVal_digitCh (by omega)]
          rw [hstep]
          congr 1
          have hnm : n / 10 * 10 + n % 10 = n := by omega
          calc (acc * 10 ^ k + n / 10) * 10 + n % 10
              = acc * (10 ^ k * 10) + (n / 10 * 10 + n % 10) := by ring
            _ = acc * 10 ^ (k + 1) + n := by rw [hnm, ← pow_succ]
        · have hp : 10 ^ (k + 1) = 10 ^ k * 10 := by ring
          rw [hp]
          omega

theorem parseNatNum_natDigs (n : Nat) (rest : List Char) (h : headDigit rest = false) :
    parseNatNum (natDigs n ++ rest) = some (n, rest) := by
  obtain ⟨d, ds, hshape, hd10, hd0⟩ := natDigsAux_shape n (n + 1) (by omega)
  unfold natDigs
  rw [hshape]
  show (match digitVal (digitCh d) with
    | none => none
    | some d0 => if d0 = 0 then some (0, ds ++ rest)
        else some (munchDigits (ds ++ rest) d0)) = some (n, rest)
  rw [digitVal_digitCh hd10]
  show (if d = 0 then some (0, ds ++ rest)
      else some (munchDigits (ds ++ rest) d)) = some (n, rest)
  by_cases hd : d = 0
  · rw [if_pos hd]
    have hn0 : n = 0 := hd0 hd
    subst hn0
    have : natDigsAux 1 0 = [digitCh 0] := rfl
    rw [this] at hshape
    have hds : ds = [] := by
      injection hshape with h1 h2
      exact h2.symm
    subst hds
    simp
  · rw [if_neg hd]
    obtain ⟨k, hmu, hpow⟩ := munch_natDigsAux n (n + 1) 0 rest (by omega)
    rw [hshape] at hmu
    have hmu2 : munchDigits (digitCh d :: (ds ++ rest)) 0 = (n, rest) := by
      show munchDigits (digitCh d :: (ds ++ rest)) 0 = _
      rw [show (digitCh d :: (ds ++ rest)) = (digitCh d :: ds) ++ rest by simp] at *
      rw [hmu, munch_stop h]
      simp
    have hstep : munchDigits (digitCh d :: (ds ++ rest)) 0 =
        munchDigits (ds ++ rest) d := by
      show (match digitVal (digitCh d) with
        | some d0 => munchDigits (ds ++ rest) (0 * 10 + d0)
        | none => (0, digitCh d :: (ds ++ rest))) = _
      rw [digitVal_digitCh hd10]
      simp
    rw [hstep] at hmu2
    rw [hmu2]

/-! ## Round trip of the JSON codec: string literals -/

theorem psb_close (f : Nat) (tail : List Char) :
    parseStrBody (f + 1) ('"' :: tail) = some (some ([], tail)) := rfl

theorem psb_named_quote (f : Nat) (r : List Char) :
    parseStrBody (f + 1) ('\\' :: '"' :: r) =
      jmap (fun p => '"' :: p) (parseStrBody f r) := rfl

theorem psb_named_bs (f : Nat) (r : List Char) :
    parseStrBody (f + 1) ('\\' :: '\\' :: r) =
      jmap (fun p => '\\' :: p) (parseStrBody f r) := rfl

theorem psb_named_n (f : Nat) (r : List Char) :
    parseStrBody (f + 1) ('\\' :: 'n' :: r) =
      jmap (fun p => '\n' :: p) (parseStrBody f r) := rfl

theorem psb_plain (f : Nat) (c : Char) (r : List Char) (hq : c ≠ '"')
    (hb : c ≠ '\\') (hctl : ¬ c.toNat < 0x20) :
    parseStrBody (f + 1) (c :: r) =
      jmap (fun p => c :: p) (parseStrBody f r) := by
  conv_lhs => rw [parseStrBody.eq_def]
  split
  · omega
  · rename_i hlist
    injection hlist with h1 _
    exact absurd h1 hq
  · rename_i hlist
    injection hlist with h1 _
    exact absurd h1 hb
  · rename_i hlist
    injection hlist with h1 _
    exact absurd h1 hb
  · rename_i hfu hlist
    injection hlist with h1 h2
    subst h1
    subst h2
    rw [if_neg hctl, ← Nat.succ.inj hfu]
  · rename_i hlist htriv
    simp at hlist

theorem psb_u_step (f : Nat) (a b c d : Char) (r : List Char) :
    parseStrBody (f + 1) ('\\' :: 'u' :: a :: b :: c :: d :: r) =
      (match parseHex a, parseHex b, parseHex c, parseHex d with
        | some a, some b, some c, some d =>
          let n := a * 4096 + b * 256 + c * 16 + d
          if 0xd800 ≤ n ∧ n ≤ 0xdbff then
            match r with
            | '\\' :: 'u' :: g1 :: g2 :: g3 :: g4 :: rest2 =>
              (match parseHex g1, parseHex g2, parseHex g3, parseHex g4 with
               | some w, some x, some y, some z =>
                 let m := w * 4096 + x * 256 + y * 16 + z
                 if 0xdc00 ≤ m ∧ m ≤ 0xdfff then
                   jmap (fun p => Char.ofNat (0x10000 + (n - 0xd800) * 0x400 + (m - 0xdc00)) :: p)
                     (parseStrBody f rest2)
                 else some none
               | _, _, _, _ => none)
            | _ => some none
          else if 0xdc00 ≤ n ∧ n ≤ 0xdfff then some none
          else jmap (fun p => Char.ofNat n :: p) (parseStrBody f r)
        | _, _, _, _ => none) := rfl

theorem psb_named_t (f : Nat) (r : List Char) :
    parseStrBody (f + 1) ('\\' :: 't' :: r) =
      jmap (fun p => '\t' :: p) (parseStrBody f r) := rfl

theorem psb_named_r (f : Nat) (r : List Char) :
    parseStrBody (f + 1) ('\\' :: 'r' :: r) =
      jmap (fun p => '\r' :: p) (parseStrBody f r) := rfl

theorem psb_named_b (f : Nat) (r : List Char) :
    parseStrBody (f + 1) ('\\' :: 'b' :: r) =
      jmap (fun p => '\x08' :: p) (parseStrBody f r) := rfl

theorem psb_named_f (f : Nat) (r : List Char) :
    parseStrBody (f + 1) ('\\' :: 'f' :: r) =
      jmap (fun p => '\x0c' :: p) (parseStrBody f r) := rfl

theorem psb_uesc (f n : Nat) (r : List Char) (hn : n ≤ 0xffff)
    (hs : ¬ (0xd800 ≤ n ∧ n ≤ 0xdfff)) :
    parseStrBody (f + 1) (('\\' :: 'u' :: hex4 n) ++ r) =
      jmap (fun p => Char.ofNat n :: p) (parseStrBody f r) := by
  have hsh : ('\\' :: 'u' :: hex4 n) ++ r =
      '\\' :: 'u' :: hexDigitCh (n / 4096 % 16) :: hexDigitCh (n / 256 % 16) ::
        hexDigitCh (n / 16 % 16) :: hexDigitCh (n % 16) :: r := rfl
  rw [hsh, psb_u_step]
  rw [parseHex_hexDigitCh (by omega), parseHex_hexDigitCh (by omega),
    parseHex_hexDigitCh (by omega), parseHex_hexDigitCh (by omega)]
  dsimp only
  rw [show n / 4096 % 16 * 4096 + n / 256 % 16 * 256 + n / 16 % 16 * 16 + n % 16 = n
    from by omega]
  rw [if_neg (show ¬ (0xd800 ≤ n ∧ n ≤ 0xdbff) from by omega),
    if_neg (show ¬ (0xdc00 ≤ n ∧ n ≤ 0xdfff) from by omega)]

theorem psb_surr_aux (f q m : Nat) (r : List Char) (hq : q < 1024) (hm : m < 1024) :
    parseStrBody (f + 1)
      (('\\' :: 'u' :: hex4 (0xd800 + q)) ++ (('\\' :: 'u' :: hex4 (0xdc00 + m)) ++ r)) =
      jmap (fun p => Char.ofNat (0x10000 + q * 0x400 + m) :: p) (parseStrBody f r) := by
  have hsh : ('\\' :: 'u' :: hex4 (0xd800 + q)) ++ (('\\' :: 'u' :: hex4 (0xdc00 + m)) ++ r) =
      '\\' :: 'u' :: hexDigitCh ((0xd800 + q) / 4096 % 16) ::
        hexDigitCh ((0xd800 + q) / 256 % 16) :: hexDigitCh ((0xd800 + q) / 16 % 16) ::
        hexDigitCh ((0xd800 + q) % 16) ::
      '\\' :: 'u' :: hexDigitCh ((0xdc00 + m) / 4096 % 16) ::
        hexDigitCh ((0xdc00 + m) / 256 % 16) :: hexDigitCh ((0xdc00 + m) / 16 % 16) ::
        hexDigitCh ((0xdc00 + m) % 16) :: r := rfl
  rw [hsh, psb_u_step]
  rw [parseHex_hexDigitCh (by omega), parseHex_hexDigitCh (by omega),
    parseHex_hexDigitCh (by omega), parseHex_hexDigitCh (by omega)]
  dsimp only
  rw [show (0xd800 + q) / 4096 % 16 * 4096 + (0xd800 + q) / 256 % 16 * 256 +
      (0xd800 + q) / 16 % 16 * 16 + (0xd800 + q) % 16 = 0xd800 + q from by omega]
  rw [if_pos (show 0xd800 ≤ 0xd800 + q ∧ 0xd800 + q ≤ 0xdbff from by omega)]
  split
  · rename_i g1 g2 g3 g4 rest2 hlist
    injection hlist with e1 hlist
    injection hlist with e2 hlist
    injection hlist with e3 hlist
    injection hlist with e4 hlist
    injection hlist with e5 hlist
    injection hlist with e6 hlist
    subst e3
    subst e4
    subst e5
    subst e6
    subst hlist
    rw [parseHex_hexDigitCh (by omega), parseHex_hexDigitCh (by omega),
      parseHex_hexDigitCh (by omega), parseHex_hexDigitCh (by omega)]
    dsimp only
    rw [show (0xdc00 + m) / 4096 % 16 * 4096 + (0xdc00 + m) / 256 % 16 * 256 +
        (0xdc00 + m) / 16 % 16 * 16 + (0xdc00 + m) % 16 = 0xdc00 + m from by omega]
    rw [if_pos (show 0xdc00 ≤ 0xdc00 + m ∧ 0xdc00 + m ≤ 0xdfff from by omega)]
    rw [show 0xd800 + q - 0xd800 = q from by omega,
      show 0xdc00 + m - 0xdc00 = m from by omega]
  · rename_i hcon
    exact ((hcon (hexDigitCh ((0xdc00 + m) / 4096 % 16)) (hexDigitCh ((0xdc00 + m) / 256 % 16))
      (hexDigitCh ((0xdc00 + m) / 16 % 16)) (hexDigitCh ((0xdc00 + m) % 16)) r rfl)).elim

theorem escChar_len_pos (c : Char) : 1 ≤ (escChar c).length := by
  unfold escChar
  split_ifs <;> simp [hex4]

theorem psb_escChar (f : Nat) (c : Char) (r : List Char) :
    parseStrBody (f + 1) (escChar c ++ r) =
      jmap (fun p => c :: p) (parseStrBody f r) := by
  by_cases h1 : c = '"'
  · subst h1; exact psb_named_quote f r
  by_cases h2 : c = '\\'
  · subst h2; exact psb_named_bs f r
  by_cases h3 : c = '\n'
  · subst h3; exact psb_named_n f r
  by_cases h4 : c = '\t'
  · subst h4; exact psb_named_t f r
  by_cases h5 : c = '\r'
  · subst h5; exact psb_named_r f r
  by_cases h6 : c = '\x08'
  · subst h6; exact psb_named_b f r
  by_cases h7 : c = '\x0c'
  · subst h7; exact psb_named_f f r
  have hesc : escChar c = (if 0x20 ≤ c.toNat ∧ c.toNat ≤ 0x7e then [c]
      else if c.toNat ≤ 0xffff then '\\' :: 'u' :: hex4 c.toNat
      else ('\\' :: 'u' :: hex4 (0xd800 + (c.toNat - 0x10000) / 0x400)) ++
        ('\\' :: 'u' :: hex4 (0xdc00 + (c.toNat - 0x10000) % 0x400))) := by
    unfold escChar
    rw [if_neg h1, if_neg h2, if_neg h3, if_neg h4, if_neg h5, if_neg h6, if_neg h7]
  rw [hesc]
  have hval := char_valid_nat c
  by_cases h8 : 0x20 ≤ c.toNat ∧ c.toNat ≤ 0x7e
  · rw [if_pos h8]
    show parseStrBody (f + 1) (c :: r) = _
    exact psb_plain f c r h1 h2 (by omega)
  · rw [if_neg h8]
    by_cases h9 : c.toNat ≤ 0xffff
    · rw [if_pos h9]
      have hns : ¬ (0xd800 ≤ c.toNat ∧ c.toNat ≤ 0xdfff) := by
        rcases hval with h | h <;> omega
      rw [psb_uesc f c.toNat r h9 hns, Char.ofNat_toNat]
    · rw [if_neg h9]
      rcases hval with h | h
      · omega
      rw [List.append_assoc]
      rw [psb_surr_aux f ((c.toNat - 0x10000) / 0x400) ((c.toNat - 0x10000) % 0x400) r
        (by omega) (by omega)]
      rw [show 0x10000 + (c.toNat - 0x10000) / 0x400 * 0x400 + (c.toNat - 0x10000) % 0x400
          = c.toNat from by omega, Char.ofNat_toNat]

theorem parseStrBody_escBody :
    ∀ (cs : List Char) (f : Nat) (tail : List Char),
      (escBody cs).length < f →
      parseStrBody f (escBody cs ++ '"' :: tail) = some (some (cs, tail)) := by
  intro cs
  induction cs with
  | nil =>
    intro f tail hf
    cases f with
    | zero => omega
    | succ f2 => exact psb_close f2 tail
  | cons c cs ih =>
    intro f tail hf
    cases f with
    | zero => omega
    | succ f2 =>
      have hesc : escBody (c :: cs) = escChar c ++ escBody cs := rfl
      rw [hesc] at hf ⊢
      rw [List.append_assoc, psb_escChar]
      have hfu : (escBody cs).length < f2 := by
        have := escChar_len_pos c
        simp only [List.length_append] at hf
        omega
      rw [ih f2 tail hfu]
      rfl

theorem parseVal_jsonQuote (f : Nat) (s : String) (tail : List Char) :
    parseVal (f + 1) ((jsonQuote s).data ++ tail) = some (some (.str s, tail)) := by
  have hdata : (jsonQuote s).data ++ tail = '"' :: (escBody s.data ++ '"' :: tail) := by
    show ('"' :: escBody s.data ++ ['"']) ++ tail = _
    simp
  rw [hdata]
  show jmap (fun p => JValue.str (String.mk p))
      (parseStrBody (escBody s.data ++ '"' :: tail).length (escBody s.data ++ '"' :: tail)) =
    some (some (JValue.str s, tail))
  rw [parseStrBody_escBody s.data _ tail (by simp)]
  rfl

/-! ## Round trip of the JSON codec: values -/

theorem items_decomp :
    ∀ (xs : List JValue) (x : JValue) (lvl : Nat),
      (json_dumps_items (x :: xs) lvl).data =
        (indentStr lvl).data ++ (json_dumps_val x lvl).data ++ itemsSep lvl xs := by
  intro xs
  induction xs with
  | nil =>
    intro x lvl
    show (indentStr lvl ++ json_dumps_val x lvl).data = _
    simp [itemsSep]
  | cons y ys ih =>
    intro x lvl
    show (indentStr lvl ++ json_dumps_val x lvl ++ ",\n" ++ json_dumps_items (y :: ys) lvl).data = _
    rw [String.data_append, String.data_append, String.data_append, ih y lvl]
    show _ = (indentStr lvl).data ++ (json_dumps_val x lvl).data ++
      (',' :: '\n' :: ((indentStr lvl).data ++ (json_dumps_val y lvl).data ++ itemsSep lvl ys))
    simp

theorem members_decomp :
    ∀ (ms : List (String × JValue)) (k : String) (v : JValue) (lvl : Nat),
      (json_dumps_members ((k, v) :: ms) lvl).data =
        (indentStr lvl).data ++ ((jsonQuote k).data ++ ':' :: ' ' ::
          ((json_dumps_val v lvl).data ++ membersSep lvl ms)) := by
  intro ms
  induction ms with
  | nil =>
    intro k v lvl
    show (indentStr lvl ++ jsonQuote k ++ ": " ++ json_dumps_val v lvl).data = _
    simp [membersSep]
  | cons m ms ih =>
    intro k v lvl
    obtain ⟨k2, v2⟩ := m
    show (indentStr lvl ++ jsonQuote k ++ ": " ++ json_dumps_val v lvl ++ ",\n" ++
      json_dumps_members ((k2, v2) :: ms) lvl).data = _
    have h1 : (": " : String).data = [':', ' '] := rfl
    have h2 : (",\n" : String).data = [',', '\n'] := rfl
    simp only [String.data_append, ih k2 v2 lvl, h1, h2, membersSep, List.append_assoc,
      List.cons_append, List.nil_append]

theorem digitCh_head {d : Nat} (hd : d < 10) :
    jWs (digitCh d) = false ∧ digitCh d ≠ ']' ∧ digitCh d ≠ '}' := by
  interval_cases d <;> exact ⟨by decide, by decide, by decide⟩

theorem digitCh_ne {d : Nat} (hd : d < 10) (c : Char) (hc : c.toNat < 48 ∨ 57 < c.toNat) :
    digitCh d ≠ c := by
  intro he
  have ht := digitCh_toNat hd
  rw [he] at ht
  omega

theorem dumps_head (v : JValue) (lvl : Nat) :
    ∃ c t, (json_dumps_val v lvl).data = c :: t ∧ jWs c = false ∧ c ≠ ']' ∧ c ≠ '}' := by
  cases v with
  | null => exact ⟨'n', ['u', 'l', 'l'], rfl, by decide, by decide, by decide⟩
  | bool b =>
    cases b with
    | true => exact ⟨'t', ['r', 'u', 'e'], rfl, by decide, by decide, by decide⟩
    | false => exact ⟨'f', ['a', 'l', 's', 'e'], rfl, by decide, by decide, by decide⟩
  | num n =>
    cases n with
    | ofNat m =>
      obtain ⟨d, ds, hshape, hd10, _⟩ := natDigsAux_shape m (m + 1) (by omega)
      obtain ⟨hws, hbr, hbc⟩ := digitCh_head hd10
      exact ⟨digitCh d, ds, hshape, hws, hbr, hbc⟩
    | negSucc m =>
      refine ⟨'-', natDigs (m + 1), ?_, by decide, by decide, by decide⟩
      show ("-" ++ String.mk (natDigs (m + 1))).data = _
      rw [String.data_append]
      rfl
  | str s => exact ⟨'"', escBody s.data ++ ['"'], rfl, by decide, by decide, by decide⟩
  | arr xs =>
    cases xs with
    | nil => exact ⟨'[', [']'], rfl, by decide, by decide, by decide⟩
    | cons x xs =>
      refine ⟨'[', '\n' :: ((json_dumps_items (x :: xs) (lvl + 1)).data ++
        '\n' :: ((indentStr lvl).data ++ [']'])), ?_, by decide, by decide, by decide⟩
      show ("[\n" ++ json_dumps_items (x :: xs) (lvl + 1) ++ "\n" ++ indentStr lvl ++ "]").data = _
      simp [String.data_append]
  | obj ms =>
    cases ms with
    | nil => exact ⟨'{', ['}'], rfl, by decide, by decide, by decide⟩
    | cons m ms =>
      refine ⟨'{', '\n' :: ((json_dumps_members (m :: ms) (lvl + 1)).data ++
        '\n' :: ((indentStr lvl).data ++ ['}'])), ?_, by decide, by decide, by decide⟩
      show ("\x7b\n" ++ json_dumps_members (m :: ms) (lvl + 1) ++ "\n" ++ indentStr lvl ++ "\x7d").data = _
      simp [String.data_append]

theorem skipWs_dumps (v : JValue) (lvl : Nat) (z : List Char) :
    skipWs ((json_dumps_val v lvl).data ++ z) = (json_dumps_val v lvl).data ++ z := by
  obtain ⟨c, t, hct, hws, _, _⟩ := dumps_head v lvl
  rw [hct]
  exact skipWs_not_ws hws

theorem items_skip (x : JValue) (xs : List JValue) (lvl : Nat) (z : List Char) :
    skipWs ((json_dumps_items (x :: xs) lvl).data ++ z) =
      (json_dumps_val x lvl).data ++ (itemsSep lvl xs ++ z) := by
  rw [items_decomp, List.append_assoc, List.append_assoc, skipWs_indent, skipWs_dumps]

theorem members_skip (k : String) (v : JValue) (ms : List (String × JValue)) (lvl : Nat)
    (z : List Char) :
    skipWs ((json_dumps_members ((k, v) :: ms) lvl).data ++ z) =
      (jsonQuote k).data ++ ':' :: ' ' :: ((json_dumps_val v lvl).data ++
        (membersSep lvl ms ++ z)) := by
  rw [members_decomp, List.append_assoc, skipWs_indent]
  have hq : (jsonQuote k).data = '"' :: (escBody k.data ++ ['"']) := rfl
  rw [hq]
  simp only [List.cons_append]
  rw [skipWs_not_ws (by decide)]
  simp

theorem itemsSep_headDigit (lvl : Nat) (xs : List JValue) (z : List Char)
    (hz : headDigit z = false) : headDigit (itemsSep lvl xs ++ z) = false := by
  cases xs with
  | nil => simpa [itemsSep] using hz
  | cons y ys => rfl

theorem membersSep_headDigit (lvl : Nat) (ms : List (String × JValue)) (z : List Char)
    (hz : headDigit z = false) : headDigit (membersSep lvl ms ++ z) = false := by
  cases ms with
  | nil => simpa [membersSep] using hz
  | cons m ms => obtain ⟨k, v⟩ := m; rfl

theorem itemsSep_floatCont (lvl : Nat) (xs : List JValue) (z : List Char)
    (hz : floatCont z = false) : floatCont (itemsSep lvl xs ++ z) = false := by
  cases xs with
  | nil => simpa [itemsSep] using hz
  | cons y ys => rfl

theorem membersSep_floatCont (lvl : Nat) (ms : List (String × JValue)) (z : List Char)
    (hz : floatCont z = false) : floatCont (membersSep lvl ms ++ z) = false := by
  cases ms with
  | nil => simpa [membersSep] using hz
  | cons m ms => obtain ⟨k, v⟩ := m; rfl

theorem parseVal_bracket (f : Nat) (rest : List Char) :
    parseVal (f + 1) ('[' :: rest) =
      (if (skipWs rest).head? = some ']' then some (some (JValue.arr [], (skipWs rest).tail))
       else jmap (fun p => JValue.arr p) (parseElems f (skipWs rest))) := rfl

theorem parseVal_brace (f : Nat) (rest : List Char) :
    parseVal (f + 1) ('{' :: rest) =
      (if (skipWs rest).head? = some '}' then some (some (JValue.obj [], (skipWs rest).tail))
       else jmap (fun p => JValue.obj (dictify p)) (parseMembers f (skipWs rest))) := rfl

theorem parseElems_step (f : Nat) (cs : List Char) :
    parseElems (f + 1) cs =
      (match parseVal f cs with
       | none => none
       | some none => some none
       | some (some (v, r)) =>
         match skipWs r with
         | ',' :: r2 => jmap (fun p => v :: p) (parseElems f (skipWs r2))
         | ']' :: r2 => some (some ([v], r2))
         | _ => none) := rfl

theorem parseMembers_quote (f : Nat) (rest : List Char) :
    parseMembers (f + 1) ('"' :: rest) =
      (match parseStrBody rest.length rest with
       | none => none
       | some none => some none
       | some (some (k, r)) =>
         match skipWs r with
         | ':' :: r2 =>
           (match parseVal f (skipWs r2) with
            | none => none
            | some none => some none
            | some (some (v, r3)) =>
              match skipWs r3 with
              | ',' :: r4 =>
                jmap (fun p => (String.mk k, v) :: p) (parseMembers f (skipWs r4))
              | '}' :: r4 => some (some ([(String.mk k, v)], r4))
              | _ => none)
         | _ => none) := rfl

theorem parseVal_zero (cs : List Char) : parseVal 0 cs = none := rfl

theorem parseElems_zero (cs : List Char) : parseElems 0 cs = none := rfl

theorem parseMembers_zero (cs : List Char) : parseMembers 0 cs = none := rfl

theorem parseVal_succ (f : Nat) (cs : List Char) :
    parseVal (f + 1) cs =
      (match cs with
       | '"' :: rest =>
         jmap (fun p => JValue.str (String.mk p)) (parseStrBody rest.length rest)
       | '[' :: rest =>
         if (skipWs rest).head? = some ']' then some (some (JValue.arr [], (skipWs rest).tail))
         else jmap (fun p => JValue.arr p) (parseElems f (skipWs rest))
       | '{' :: rest =>
         if (skipWs rest).head? = some '}' then some (some (JValue.obj [], (skipWs rest).tail))
         else jmap (fun p => JValue.obj (dictify p)) (parseMembers f (skipWs rest))
       | cs =>
         match literalAt ['n', 'u', 'l', 'l'] cs with
         | some rest => some (some (JValue.null, rest))
         | none =>
         match literalAt ['t', 'r', 'u', 'e'] cs with
         | some rest => some (some (JValue.bool true, rest))
         | none =>
         match literalAt ['f', 'a', 'l', 's', 'e'] cs with
         | some rest => some (some (JValue.bool false, rest))
         | none =>
         match numScan cs with
         | .int n r => some (some (JValue.num n, r))
         | .float => some none
         | .noMatch =>
           if (literalAt ['N', 'a', 'N'] cs).isSome then some none
           else if (literalAt ['I', 'n', 'f', 'i', 'n', 'i', 't', 'y'] cs).isSome then some none
           else if (literalAt ['-', 'I', 'n', 'f', 'i', 'n', 'i', 't', 'y'] cs).isSome then
             some none
           else none) := rfl

theorem parseMembers_succ (f : Nat) (cs : List Char) :
    parseMembers (f + 1) cs =
      (match cs with
       | '"' :: rest =>
         (match parseStrBody rest.length rest with
          | none => none
          | some none => some none
          | some (some (k, r)) =>
            match skipWs r with
            | ':' :: r2 =>
              (match parseVal f (skipWs r2) with
               | none => none
               | some none => some none
               | some (some (v, r3)) =>
                 match skipWs r3 with
                 | ',' :: r4 =>
                   jmap (fun p => (String.mk k, v) :: p) (parseMembers f (skipWs r4))
                 | '}' :: r4 => some (some ([(String.mk k, v)], r4))
                 | _ => none)
            | _ => none)
       | _ => none) := rfl

theorem indentStr_len (l : Nat) : (indentStr l).data.length = 4 * l := by
  induction l with
  | zero => rfl
  | succ k ih =>
    show (("    " : String) ++ indentStr k).data.length = _
    rw [String.data_append]
    simp [ih]
    omega

theorem jfuelElems_cons (x : JValue) (xs : List JValue) :
    jfuelElems (x :: xs) = 1 + jfuel x + jfuelElems xs := rfl

theorem jfuelMembers_cons (k : String) (v : JValue) (ms : List (String × JValue)) :
    jfuelMembers ((k, v) :: ms) = 1 + jfuel v + jfuelMembers ms := rfl

theorem itemsSep_len (lvl : Nat) (y : JValue) (ys : List JValue) :
    (itemsSep lvl (y :: ys)).length = (json_dumps_items (y :: ys) lvl).data.length + 2 := by
  show (',' :: '\n' :: ((indentStr lvl).data ++ (json_dumps_val y lvl).data ++
    itemsSep lvl ys)).length = _
  rw [items_decomp]
  simp

theorem membersSep_len (lvl : Nat) (k : String) (v : JValue) (ms : List (String × JValue)) :
    (membersSep lvl ((k, v) :: ms)).length =
      (json_dumps_members ((k, v) :: ms) lvl).data.length + 2 := by
  show (',' :: '\n' :: ((indentStr lvl).data ++ (jsonQuote k).data ++ ':' :: ' ' ::
    ((json_dumps_val v lvl).data ++ membersSep lvl ms))).length = _
  rw [members_decomp]
  simp

theorem jfuel_le_len :
    ∀ n : Nat,
      (∀ v lvl, jfuel v ≤ n → jfuel v ≤ (json_dumps_val v lvl).data.length + 1) ∧
      (∀ xs lvl, jfuelElems xs ≤ n → 1 ≤ lvl →
        jfuelElems xs ≤ (json_dumps_items xs lvl).data.length + 1) ∧
      (∀ ms lvl, jfuelMembers ms ≤ n → 1 ≤ lvl →
        jfuelMembers ms ≤ (json_dumps_members ms lvl).data.length + 1) := by
  intro n
  induction n with
  | zero => exact ⟨fun v lvl h => by omega, fun xs lvl h _ => by omega, fun ms lvl h _ => by omega⟩
  | succ n ih =>
    obtain ⟨ihv, ihe, ihm⟩ := ih
    refine ⟨?_, ?_, ?_⟩
    · intro v lvl h
      cases v with
      | null => have h1 : jfuel .null = 1 := rfl; omega
      | bool b => have h1 : jfuel (.bool b) = 1 := rfl; omega
      | num i => have h1 : jfuel (.num i) = 1 := rfl; omega
      | str s => have h1 : jfuel (.str s) = 1 := rfl; omega
      | arr xs =>
        cases xs with
        | nil => have h1 : jfuel (.arr []) = 1 := rfl; omega
        | cons x xs =>
          have hj : jfuel (.arr (x :: xs)) = 1 + jfuelElems (x :: xs) := rfl
          have hdl : (json_dumps_val (.arr (x :: xs)) lvl).data.length =
              (json_dumps_items (x :: xs) (lvl + 1)).data.length + 4 * lvl + 4 := by
            show ("[\n" ++ json_dumps_items (x :: xs) (lvl + 1) ++ "\n" ++ indentStr lvl ++
              "]").data.length = _
            simp only [String.data_append, List.length_append, List.length_cons,
              List.length_nil, indentStr_len]
            omega
          have hb := ihe (x :: xs) (lvl + 1) (by omega) (by omega)
          omega
      | obj ms =>
        cases ms with
        | nil => have h1 : jfuel (.obj []) = 1 := rfl; omega
        | cons m ms =>
          obtain ⟨k, v⟩ := m
          have hj : jfuel (.obj ((k, v) :: ms)) = 1 + jfuelMembers ((k, v) :: ms) := rfl
          have hdl : (json_dumps_val (.obj ((k, v) :: ms)) lvl).data.length =
              (json_dumps_members ((k, v) :: ms) (lvl + 1)).data.length + 4 * lvl + 4 := by
            show ("\x7b\n" ++ json_dumps_members ((k, v) :: ms) (lvl + 1) ++ "\n" ++ indentStr lvl ++
              "\x7d").data.length = _
            simp only [String.data_append, List.length_append, List.length_cons,
              List.length_nil, indentStr_len]
            omega
          have hb := ihm ((k, v) :: ms) (lvl + 1) (by omega) (by omega)
          omega
    · intro xs lvl h hlvl
      cases xs with
      | nil => have h1 : jfuelElems [] = 0 := rfl; omega
      | cons x xs =>
        have hdl : (json_dumps_items (x :: xs) lvl).data.length =
            4 * lvl + (json_dumps_val x lvl).data.length + (itemsSep lvl xs).length := by
          rw [items_decomp]
          simp only [List.length_append, indentStr_len]
        have hbx := ihv x lvl (by rw [jfuelElems_cons] at h; omega)
        cases xs with
        | nil =>
          have h2 : (itemsSep lvl ([] : List JValue)).length = 0 := rfl
          rw [jfuelElems_cons] at h ⊢
          have h3 : jfuelElems ([] : List JValue) = 0 := rfl
          omega
        | cons y ys =>
          have hsep := itemsSep_len lvl y ys
          have hby := ihe (y :: ys) lvl (by rw [jfuelElems_cons] at h; omega) hlvl
          rw [jfuelElems_cons] at h ⊢
          omega
    · intro ms lvl h hlvl
      cases ms with
      | nil => have h1 : jfuelMembers [] = 0 := rfl; omega
      | cons m ms =>
        obtain ⟨k, v⟩ := m
        have hdl : (json_dumps_members ((k, v) :: ms) lvl).data.length =
            4 * lvl + ((jsonQuote k).data.length + (2 +
              ((json_dumps_val v lvl).data.length + (membersSep lvl ms).length))) := by
          rw [members_decomp]
          simp only [List.length_append, List.length_cons, indentStr_len]
          omega
        have hbv := ihv v lvl (by rw [jfuelMembers_cons] at h; omega)
        cases ms with
        | nil =>
          have h2 : (membersSep lvl ([] : List (String × JValue))).length = 0 := rfl
          rw [jfuelMembers_cons] at h ⊢
          have h3 : jfuelMembers ([] : List (String × JValue)) = 0 := rfl
          omega
        | cons m2 ms2 =>
          obtain ⟨k2, v2⟩ := m2
          have hsep := membersSep_len lvl k2 v2 ms2
          have hby := ihm ((k2, v2) :: ms2) lvl (by rw [jfuelMembers_cons] at h; omega) hlvl
          rw [jfuelMembers_cons] at h ⊢
          omega

theorem numScan_digit {d : Nat} (hd : d < 10) (r : List Char) :
    numScan (digitCh d :: r) =
      (match parseNatNum (digitCh d :: r) with
       | none => NumScan.noMatch
       | some (n, rr) =>
         if floatCont rr then NumScan.float else NumScan.int (n : Int) rr) := by
  interval_cases d <;> rfl

theorem parseVal_num (f : Nat) {d : Nat} (hd : d < 10) (r : List Char) {n : Nat}
    {rr : List Char} (hp : parseNatNum (digitCh d :: r) = some (n, rr))
    (hfc : floatCont rr = false) :
    parseVal (f + 1) (digitCh d :: r) = some (some (JValue.num (n : Int), rr)) := by
  have h1 : parseVal (f + 1) (digitCh d :: r) =
      (match numScan (digitCh d :: r) with
       | NumScan.int k kr => some (some (JValue.num k, kr))
       | NumScan.float => some none
       | NumScan.noMatch => none) := by
    interval_cases d <;> rfl
  have h2 : numScan (digitCh d :: r) = NumScan.int (n : Int) rr := by
    rw [numScan_digit hd, hp]
    show (if floatCont rr = true then NumScan.float else NumScan.int (n : Int) rr) = _
    rw [if_neg (by rw [hfc]; exact Bool.false_ne_true)]
  rw [h1, h2]

theorem parseVal_negNum (f : Nat) {d : Nat} (hd : d < 10) (r : List Char) {n : Nat}
    {rr : List Char} (hp : parseNatNum (digitCh d :: r) = some (n, rr))
    (hfc : floatCont rr = false) :
    parseVal (f + 1) ('-' :: digitCh d :: r) = some (some (JValue.num (-(n : Int)), rr)) := by
  have h1 : parseVal (f + 1) ('-' :: digitCh d :: r) =
      (match numScan ('-' :: digitCh d :: r) with
       | NumScan.int k kr => some (some (JValue.num k, kr))
       | NumScan.float => some none
       | NumScan.noMatch => none) := by
    interval_cases d <;> rfl
  have h2 : numScan ('-' :: digitCh d :: r) = NumScan.int (-(n : Int)) rr := by
    rw [show numScan ('-' :: digitCh d :: r) =
        (match parseNatNum (digitCh d :: r) with
         | none => NumScan.noMatch
         | some (k, kr) =>
           if floatCont kr then NumScan.float else NumScan.int (-(k : Int)) kr) from rfl, hp]
    show (if floatCont rr = true then NumScan.float else NumScan.int (-(n : Int)) rr) = _
    rw [if_neg (by rw [hfc]; exact Bool.false_ne_true)]
  rw [h1, h2]

theorem itemsSep_cons_eq (lvl : Nat) (y : JValue) (zs : List JValue) :
    itemsSep lvl (y :: zs) = ',' :: '\n' :: (json_dumps_items (y :: zs) lvl).data := by
  rw [items_decomp]
  rfl

theorem membersSep_cons_eq (lvl : Nat) (k : String) (v : JValue)
    (ms : List (String × JValue)) :
    membersSep lvl ((k, v) :: ms) = ',' :: '\n' :: (json_dumps_members ((k, v) :: ms) lvl).data := by
  rw [members_decomp]
  show ',' :: '\n' :: ((indentStr lvl).data ++ (jsonQuote k).data ++ ':' :: ' ' ::
    ((json_dumps_val v lvl).data ++ membersSep lvl ms)) = _
  simp [List.append_assoc]

/-! ## dict assignment: distinct keys, membership and identity on them -/

theorem jwf_arr (xs : List JValue) : jwf (.arr xs) = jwfElems xs := rfl

theorem jwf_obj (ms : List (String × JValue)) :
    jwf (.obj ms) = (distinctKeys ms && jwfMembers ms) := rfl

theorem jwfElems_cons (x : JValue) (xs : List JValue) :
    jwfElems (x :: xs) = (jwf x && jwfElems xs) := rfl

theorem jwfMembers_cons (k : String) (v : JValue) (ms : List (String × JValue)) :
    jwfMembers ((k, v) :: ms) = (jwf v && jwfMembers ms) := rfl

theorem jmap_eq_some {α β : Type} (g : α → β) (o : Option (Option (α × List Char)))
    {b : β} {r : List Char} (h : jmap g o = some (some (b, r))) :
    ∃ a, o = some (some (a, r)) ∧ b = g a := by
  cases o with
  | none => exact absurd h (by simp [jmap])
  | some o2 =>
    cases o2 with
    | none => exact absurd h (by simp [jmap])
    | some q =>
      obtain ⟨a, r2⟩ := q
      simp only [jmap, Option.some.injEq, Prod.mk.injEq] at h
      exact ⟨a, by rw [h.2], h.1.symm⟩

theorem dictInsert_fresh (ms : List (String × JValue)) (k : String) (v : JValue)
    (h : ms.any (fun m => m.1 == k) = false) : dictInsert ms k v = ms ++ [(k, v)] := by
  unfold dictInsert
  rw [if_neg (by simp [h])]

theorem distinctKeys_snoc (k : String) (v : JValue) :
    ∀ acc : List (String × JValue), acc.any (fun x => x.1 == k) = false →
      distinctKeys acc = true → distinctKeys (acc ++ [(k, v)]) = true := by
  intro acc
  induction acc with
  | nil => intro _ _; rfl
  | cons m rest ih =>
    intro hf hd
    simp only [List.any_cons, Bool.or_eq_false_iff] at hf
    simp only [distinctKeys, Bool.and_eq_true, Bool.not_eq_true'] at hd
    simp only [List.cons_append, distinctKeys, Bool.and_eq_true, Bool.not_eq_true']
    constructor
    · have h2 : ((k : String) == m.1) = false := by
        have hne : m.1 ≠ k := beq_eq_false_iff_ne.mp hf.1
        exact beq_eq_false_iff_ne.mpr (Ne.symm hne)
      show ((rest ++ [(k, v)]).any fun x => x.1 == m.1) = false
      simp [List.any_append, hd.1, h2]
    · exact ih hf.2 hd.2

theorem any_map_keyfix (g : String × JValue → String × JValue)
    (hg : ∀ m, (g m).1 = m.1) (k : String) :
    ∀ ms : List (String × JValue),
      (ms.map g).any (fun x => x.1 == k) = ms.any (fun x => x.1 == k) := by
  intro ms
  induction ms with
  | nil => rfl
  | cons m rest ih => simp only [List.map_cons, List.any_cons, ih, hg]

theorem distinctKeys_map_keyfix (g : String × JValue → String × JValue)
    (hg : ∀ m, (g m).1 = m.1) :
    ∀ ms : List (String × JValue), distinctKeys (ms.map g) = distinctKeys ms := by
  intro ms
  induction ms with
  | nil => rfl
  | cons m rest ih =>
    simp only [List.map_cons, distinctKeys, ih, any_map_keyfix g hg, hg]

theorem distinctKeys_dictInsert (acc : List (String × JValue)) (k : String) (v : JValue)
    (h : distinctKeys acc = true) : distinctKeys (dictInsert acc k v) = true := by
  unfold dictInsert
  split
  · have hg : ∀ m : String × JValue,
        ((if m.1 == k then (k, v) else m) : String × JValue).1 = m.1 := by
      intro m
      by_cases hm : (m.1 == k) = true
      · rw [if_pos hm]
        exact (beq_iff_eq.mp hm).symm
      · rw [if_neg hm]
    rw [distinctKeys_map_keyfix _ hg]
    exact h
  · rename_i hany
    exact distinctKeys_snoc k v acc
      (by
        cases hb : acc.any (fun m => m.1 == k) with
        | false => rfl
        | true => exact absurd hb hany) h

theorem dictify_go :
    ∀ (ms acc : List (String × JValue)),
      (∀ m ∈ ms, acc.any (fun x => x.1 == m.1) = false) → distinctKeys ms = true →
      ms.foldl (fun d m => dictInsert d m.1 m.2) acc = acc ++ ms := by
  intro ms
  induction ms with
  | nil => intro acc _ _; simp
  | cons m rest ih =>
    intro acc hacc hdk
    simp only [distinctKeys, Bool.and_eq_true, Bool.not_eq_true'] at hdk
    simp only [List.foldl_cons]
    rw [dictInsert_fresh acc m.1 m.2 (hacc m (by simp))]
    rw [ih (acc ++ [(m.1, m.2)]) ?_ hdk.2]
    · simp
    · intro x hx
      rw [List.any_append]
      simp only [Bool.or_eq_false_iff]
      refine ⟨hacc x (by simp [hx]), ?_⟩
      simp only [List.any_cons, List.any_nil, Bool.or_false]
      have h0 : ¬ ((x.1 == m.1) = true) := (List.any_eq_false.mp hdk.1) x hx
      have hne : x.1 ≠ m.1 := fun he => h0 (beq_iff_eq.mpr he)
      exact beq_eq_false_iff_ne.mpr (Ne.symm hne)

theorem dictify_eq_self (ms : List (String × JValue)) (h : distinctKeys ms = true) :
    dictify ms = ms := by
  unfold dictify
  rw [dictify_go ms [] (fun m _ => rfl) h]
  simp

theorem mem_dictInsert {x : String × JValue} (ms : List (String × JValue)) (k : String)
    (v : JValue) (hx : x ∈ dictInsert ms k v) : x ∈ ms ∨ x = (k, v) := by
  unfold dictInsert at hx
  split at hx
  · rcases List.mem_map.mp hx with ⟨y, hy, hgy⟩
    by_cases h : (y.1 == k) = true
    · rw [if_pos h] at hgy
      exact Or.inr hgy.symm
    · rw [if_neg h] at hgy
      rw [← hgy]
      exact Or.inl hy
  · rcases List.mem_append.mp hx with h | h
    · exact Or.inl h
    · exact Or.inr (by simpa using h)

theorem mem_dictify_go :
    ∀ (ms acc : List (String × JValue)) (x : String × JValue),
      x ∈ ms.foldl (fun d m => dictInsert d m.1 m.2) acc → x ∈ acc ∨ x ∈ ms := by
  intro ms
  induction ms with
  | nil => intro acc x hx; exact Or.inl hx
  | cons m rest ih =>
    intro acc x hx
    simp only [List.foldl_cons] at hx
    rcases ih (dictInsert acc m.1 m.2) x hx with h | h
    · rcases mem_dictInsert acc m.1 m.2 h with h2 | h2
      · exact Or.inl h2
      · exact Or.inr (by rw [h2]; exact List.mem_cons_self _ _)
    · exact Or.inr (List.mem_cons_of_mem _ h)

theorem jwfMembers_iff :
    ∀ ms : List (String × JValue), jwfMembers ms = true ↔ ∀ m ∈ ms, jwf m.2 = true := by
  intro ms
  induction ms with
  | nil => simp [jwfMembers]
  | cons m rest ih =>
    obtain ⟨k, v⟩ := m
    rw [jwfMembers_cons, Bool.and_eq_true, ih]
    constructor
    · rintro ⟨h1, h2⟩ x hx
      rcases List.mem_cons.mp hx with hx | hx
      · rw [hx]
        exact h1
      · exact h2 x hx
    · intro h
      exact ⟨h (k, v) (List.mem_cons_self _ _), fun x hx => h x (List.mem_cons_of_mem _ hx)⟩

theorem jwfMembers_dictify (ms : List (String × JValue)) (h : jwfMembers ms = true) :
    jwfMembers (dictify ms) = true := by
  rw [jwfMembers_iff]
  intro x hx
  rcases mem_dictify_go ms [] x hx with h2 | h2
  · simp at h2
  · exact (jwfMembers_iff ms).mp h x h2

theorem dictify_distinct (ms : List (String × JValue)) :
    distinctKeys (dictify ms) = true := by
  unfold dictify
  have hgo : ∀ (l acc : List (String × JValue)), distinctKeys acc = true →
      distinctKeys (l.foldl (fun d m => dictInsert d m.1 m.2) acc) = true := by
    intro l
    induction l with
    | nil => intro acc h; exact h
    | cons m rest ih => intro acc h; exact ih _ (distinctKeys_dictInsert acc m.1 m.2 h)
  exact hgo ms [] rfl

/-! ## The decoder re-reads what the serialiser wrote -/

theorem parse_dumps :
    ∀ f : Nat,
      (∀ v lvl tail, jfuel v ≤ f → jwf v = true → headDigit tail = false →
        floatCont tail = false →
        parseVal f ((json_dumps_val v lvl).data ++ tail) = some (some (v, tail))) ∧
      (∀ xs lvl l2 tail, xs ≠ [] → jfuelElems xs ≤ f → jwfElems xs = true →
        headDigit tail = false → floatCont tail = false →
        parseElems f (skipWs ((json_dumps_items xs lvl).data ++
          '\n' :: ((indentStr l2).data ++ ']' :: tail))) = some (some (xs, tail))) ∧
      (∀ ms lvl l2 tail, ms ≠ [] → jfuelMembers ms ≤ f → jwfMembers ms = true →
        headDigit tail = false → floatCont tail = false →
        parseMembers f (skipWs ((json_dumps_members ms lvl).data ++
          '\n' :: ((indentStr l2).data ++ '}' :: tail))) = some (some (ms, tail))) := by
  intro f
  induction f with
  | zero =>
    refine ⟨?_, ?_, ?_⟩
    · intro v lvl tail hf _ _ _
      exact absurd hf (by have := jfuel_pos v; omega)
    · intro xs lvl l2 tail hne hfu _ _ _
      cases xs with
      | nil => exact absurd rfl hne
      | cons x xs =>
        rw [jfuelElems_cons] at hfu
        exact absurd hfu (by omega)
    · intro ms lvl l2 tail hne hfu _ _ _
      cases ms with
      | nil => exact absurd rfl hne
      | cons m ms =>
        obtain ⟨k, v⟩ := m
        rw [jfuelMembers_cons] at hfu
        exact absurd hfu (by omega)
  | succ f ih =>
    obtain ⟨ihv, ihe, ihm⟩ := ih
    refine ⟨?_, ?_, ?_⟩
    · intro v lvl tail hf hwf htail hfc
      cases v with
      | null => rfl
      | bool b => cases b <;> rfl
      | num i =>
        cases i with
        | ofNat m =>
          obtain ⟨d, ds, hshape, hd10, _⟩ := natDigsAux_shape m (m + 1) (by omega)
          have hp := parseNatNum_natDigs m tail htail
          rw [show natDigs m = digitCh d :: ds from hshape, List.cons_append] at hp
          have hdata : (json_dumps_val (.num (Int.ofNat m)) lvl).data ++ tail =
              digitCh d :: (ds ++ tail) := by
            show natDigs m ++ tail = _
            rw [show natDigs m = digitCh d :: ds from hshape, List.cons_append]
          rw [hdata, parseVal_num f hd10 (ds ++ tail) hp hfc]
          rfl
        | negSucc m =>
          obtain ⟨d, ds, hshape, hd10, _⟩ := natDigsAux_shape (m + 1) (m + 2) (by omega)
          have hp := parseNatNum_natDigs (m + 1) tail htail
          rw [show natDigs (m + 1) = digitCh d :: ds from hshape, List.cons_append] at hp
          have hdata : (json_dumps_val (.num (Int.negSucc m)) lvl).data ++ tail =
              '-' :: digitCh d :: (ds ++ tail) := by
            show ("-" ++ String.mk (natDigs (m + 1))).data ++ tail = _
            rw [String.data_append,
              show (String.mk (natDigs (m + 1))).data = natDigs (m + 1) from rfl,
              show natDigs (m + 1) = digitCh d :: ds from hshape]
            rfl
          rw [hdata, parseVal_negNum f hd10 (ds ++ tail) hp hfc]
          norm_num [Int.negSucc_eq]
      | str s => exact parseVal_jsonQuote f s tail
      | arr xs =>
        cases xs with
        | nil => rfl
        | cons x ys =>
          have hdata : (json_dumps_val (.arr (x :: ys)) lvl).data ++ tail =
              '[' :: ('\n' :: ((json_dumps_items (x :: ys) (lvl + 1)).data ++
                '\n' :: ((indentStr lvl).data ++ ']' :: tail))) := by
            show ("[\n" ++ json_dumps_items (x :: ys) (lvl + 1) ++ "\n" ++ indentStr lvl ++
              "]").data ++ tail = _
            simp [String.data_append]
          rw [hdata, parseVal_bracket, skipWs_ws (by decide), items_skip]
          obtain ⟨c, t, hct, hws, hbr, hbc⟩ := dumps_head x (lvl + 1)
          rw [hct, List.cons_append]
          simp only [List.head?_cons]
          rw [if_neg (show ¬ (some c = some (']' : Char)) from by simp [hbr])]
          rw [← List.cons_append, ← hct, ← items_skip]
          have hfe : jfuelElems (x :: ys) ≤ f := by
            rw [show jfuel (.arr (x :: ys)) = 1 + jfuelElems (x :: ys) from rfl] at hf
            omega
          have hwfe : jwfElems (x :: ys) = true := by
            rw [jwf_arr] at hwf
            exact hwf
          rw [ihe (x :: ys) (lvl + 1) lvl tail (by simp) hfe hwfe htail hfc]
          rfl
      | obj ms =>
        cases ms with
        | nil => rfl
        | cons m ms2 =>
          obtain ⟨k, v⟩ := m
          have hdata : (json_dumps_val (.obj ((k, v) :: ms2)) lvl).data ++ tail =
              '{' :: ('\n' :: ((json_dumps_members ((k, v) :: ms2) (lvl + 1)).data ++
                '\n' :: ((indentStr lvl).data ++ '}' :: tail))) := by
            show ("\x7b\n" ++ json_dumps_members ((k, v) :: ms2) (lvl + 1) ++ "\n" ++ indentStr lvl ++
              "\x7d").data ++ tail = _
            simp [String.data_append]
          rw [hdata, parseVal_brace, skipWs_ws (by decide), members_skip]
          rw [show (jsonQuote k).data = '"' :: (escBody k.data ++ ['"']) from rfl,
            List.cons_append]
          simp only [List.head?_cons]
          rw [if_neg (show ¬ (some '"' = some ('}' : Char)) from by decide)]
          rw [← List.cons_append,
            ← show (jsonQuote k).data = '"' :: (escBody k.data ++ ['"']) from rfl,
            ← members_skip]
          have hfm : jfuelMembers ((k, v) :: ms2) ≤ f := by
            rw [show jfuel (.obj ((k, v) :: ms2)) = 1 + jfuelMembers ((k, v) :: ms2) from rfl] at hf
            omega
          have hwf2 : distinctKeys ((k, v) :: ms2) = true ∧
              jwfMembers ((k, v) :: ms2) = true := by
            rw [jwf_obj, Bool.and_eq_true] at hwf
            exact hwf
          rw [ihm ((k, v) :: ms2) (lvl + 1) lvl tail (by simp) hfm hwf2.2 htail hfc]
          show some (some (JValue.obj (dictify ((k, v) :: ms2)), tail)) =
            some (some (JValue.obj ((k, v) :: ms2), tail))
          rw [dictify_eq_self _ hwf2.1]
    · intro xs lvl l2 tail hne hfu hwfl htail hfc
      cases xs with
      | nil => exact absurd rfl hne
      | cons x ys =>
        rw [items_skip, parseElems_step]
        have hfx : jfuel x ≤ f := by
          rw [jfuelElems_cons] at hfu
          omega
        have hwfx : jwf x = true ∧ jwfElems ys = true := by
          rw [jwfElems_cons, Bool.and_eq_true] at hwfl
          exact hwfl
        rw [ihv x lvl (itemsSep lvl ys ++ '\n' :: ((indentStr l2).data ++ ']' :: tail)) hfx
          hwfx.1 (itemsSep_headDigit lvl ys _ rfl) (itemsSep_floatCont lvl ys _ rfl)]
        dsimp only
        cases ys with
        | nil =>
          rw [show (itemsSep lvl ([] : List JValue) : List Char) = [] from rfl, List.nil_append,
            skipWs_ws (by decide), skipWs_indent, skipWs_not_ws (by decide)]
          rfl
        | cons y zs =>
          rw [itemsSep_cons_eq, List.cons_append, List.cons_append,
            skipWs_not_ws (by decide)]
          show jmap (fun p => x :: p)
              (parseElems f (skipWs ('\n' :: ((json_dumps_items (y :: zs) lvl).data ++
                '\n' :: ((indentStr l2).data ++ ']' :: tail))))) =
            some (some (x :: y :: zs, tail))
          have hfy : jfuelElems (y :: zs) ≤ f := by
            rw [jfuelElems_cons] at hfu
            omega
          rw [skipWs_ws (by decide), ihe (y :: zs) lvl l2 tail (by simp) hfy hwfx.2 htail hfc]
          rfl
    · intro ms lvl l2 tail hne hfu hwfl htail hfc
      cases ms with
      | nil => exact absurd rfl hne
      | cons m ms2 =>
        obtain ⟨k, v⟩ := m
        rw [members_skip,
          show (jsonQuote k).data = '"' :: (escBody k.data ++ ['"']) from rfl,
          List.cons_append, parseMembers_quote, List.append_assoc, List.singleton_append]
        rw [parseStrBody_escBody k.data _ _ (by simp [List.length_append])]
        dsimp only
        rw [skipWs_not_ws (by decide)]
        show (match parseVal f (skipWs (' ' :: ((json_dumps_val v lvl).data ++
            (membersSep lvl ms2 ++ '\n' :: ((indentStr l2).data ++ '}' :: tail))))) with
          | none => none
          | some none => some none
          | some (some (v2, r3)) =>
            match skipWs r3 with
            | ',' :: r4 =>
              jmap (fun p => (String.mk k.data, v2) :: p) (parseMembers f (skipWs r4))
            | '}' :: r4 => some (some ([(String.mk k.data, v2)], r4))
            | _ => none) = some (some ((k, v) :: ms2, tail))
        have hfv : jfuel v ≤ f := by
          rw [jfuelMembers_cons] at hfu
          omega
        have hwfv : jwf v = true ∧ jwfMembers ms2 = true := by
          rw [jwfMembers_cons, Bool.and_eq_true] at hwfl
          exact hwfl
        rw [skipWs_ws (by decide), skipWs_dumps]
        rw [ihv v lvl (membersSep lvl ms2 ++ '\n' :: ((indentStr l2).data ++ '}' :: tail)) hfv
          hwfv.1 (membersSep_headDigit lvl ms2 _ rfl) (membersSep_floatCont lvl ms2 _ rfl)]
        dsimp only
        cases ms2 with
        | nil =>
          rw [show (membersSep lvl ([] : List (String × JValue)) : List Char) = [] from rfl,
            List.nil_append, skipWs_ws (by decide), skipWs_indent, skipWs_not_ws (by decide)]
          rfl
        | cons m2 ms3 =>
          obtain ⟨k2, v2⟩ := m2
          rw [membersSep_cons_eq, List.cons_append, List.cons_append,
            skipWs_not_ws (by decide)]
          show jmap (fun p => (String.mk k.data, v) :: p)
              (parseMembers f (skipWs ('\n' :: ((json_dumps_members ((k2, v2) :: ms3) lvl).data ++
                '\n' :: ((indentStr l2).data ++ '}' :: tail))))) =
            some (some ((k, v) :: (k2, v2) :: ms3, tail))
          have hfm2 : jfuelMembers ((k2, v2) :: ms3) ≤ f := by
            rw [jfuelMembers_cons] at hfu
            omega
          rw [skipWs_ws (by decide),
            ihm ((k2, v2) :: ms3) lvl l2 tail (by simp) hfm2 hwfv.2 htail hfc]
          rfl

theorem json_loads_dumps (v : JValue) (hwf : jwf v = true) :
    json_loads (json_dumps v) = some (some v) := by
  unfold json_loads json_dumps
  have hskip : skipWs (json_dumps_val v 0).data = (json_dumps_val v 0).data := by
    have h := skipWs_dumps v 0 []
    simpa using h
  show (match parseVal (2 * (skipWs (json_dumps_val v 0).data).length + 2)
      (skipWs (json_dumps_val v 0).data) with
    | some (some (w, r)) => if (skipWs r).isEmpty then some (some w) else none
    | some none => some none
    | none => none) = some (some v)
  rw [hskip]
  have hfuel : jfuel v ≤ 2 * (json_dumps_val v 0).data.length + 2 := by
    have h := (jfuel_le_len (jfuel v)).1 v 0 le_rfl
    omega
  have hparse := (parse_dumps (2 * (json_dumps_val v 0).data.length + 2)).1 v 0 []
    hfuel hwf rfl rfl
  rw [show (json_dumps_val v 0).data ++ ([] : List Char) = (json_dumps_val v 0).data
    from by simp] at hparse
  rw [hparse]
  rfl

/-! ## The decoder only outputs well-formed values -/

set_option maxHeartbeats 1000000 in
theorem parse_ok_wf :
    ∀ f : Nat,
      (∀ cs v r, parseVal f cs = some (some (v, r)) → jwf v = true) ∧
      (∀ cs vs r, parseElems f cs = some (some (vs, r)) → jwfElems vs = true) ∧
      (∀ cs ms r, parseMembers f cs = some (some (ms, r)) → jwfMembers ms = true) := by
  intro f
  induction f with
  | zero =>
    refine ⟨?_, ?_, ?_⟩
    · intro cs v r h
      rw [parseVal_zero] at h
      exact absurd h (by simp)
    · intro cs vs r h
      rw [parseElems_zero] at h
      exact absurd h (by simp)
    · intro cs ms r h
      rw [parseMembers_zero] at h
      exact absurd h (by simp)
  | succ f ih =>
    obtain ⟨ihv, ihe, ihm⟩ := ih
    refine ⟨?_, ?_, ?_⟩
    · intro cs v r h
      rw [parseVal_succ] at h
      split at h
      · obtain ⟨a, _, hb⟩ := jmap_eq_some _ _ h
        rw [hb]
        rfl
      · split at h
        · injection h with h2
          injection h2 with h3
          injection h3 with h4
          rw [← h4]
          rfl
        · obtain ⟨a, ho, hb⟩ := jmap_eq_some _ _ h
          rw [hb, jwf_arr]
          exact ihe _ a _ ho
      · split at h
        · injection h with h2
          injection h2 with h3
          injection h3 with h4
          rw [← h4]
          rfl
        · obtain ⟨a, ho, hb⟩ := jmap_eq_some _ _ h
          rw [hb, jwf_obj, dictify_distinct a, jwfMembers_dictify a (ihm _ a _ ho)]
          rfl
      · split at h
        · injection h with h2
          injection h2 with h3
          injection h3 with h4
          rw [← h4]
          rfl
        · split at h
          · injection h with h2
            injection h2 with h3
            injection h3 with h4
            rw [← h4]
            rfl
          · split at h
            · injection h with h2
              injection h2 with h3
              injection h3 with h4
              rw [← h4]
              rfl
            · split at h
              · injection h with h2
                injection h2 with h3
                injection h3 with h4
                rw [← h4]
                rfl
              · exact absurd h (by simp)
              · split at h
                · exact absurd h (by simp)
                · split at h
                  · exact absurd h (by simp)
                  · split at h
                    · exact absurd h (by simp)
                    · exact absurd h (by simp)
    · intro cs vs r h
      rw [parseElems_step] at h
      split at h
      · exact absurd h (by simp)
      · exact absurd h (by simp)
      · rename_i v1 r1 hpv
        split at h
        · obtain ⟨a, ho, hb⟩ := jmap_eq_some _ _ h
          rw [hb, jwfElems_cons, ihv _ v1 _ hpv, ihe _ a _ ho]
          rfl
        · injection h with h2
          injection h2 with h3
          injection h3 with h4
          rw [← h4, jwfElems_cons, ihv _ v1 _ hpv]
          rfl
        · exact absurd h (by simp)
    · intro cs ms r h
      rw [parseMembers_succ] at h
      split at h
      · split at h
        · exact absurd h (by simp)
        · exact absurd h (by simp)
        · rename_i k r0 hsb
          split at h
          · split at h
            · exact absurd h (by simp)
            · exact absurd h (by simp)
            · rename_i v1 r3 hpv
              split at h
              · obtain ⟨a, ho, hb⟩ := jmap_eq_some _ _ h
                rw [hb, jwfMembers_cons, ihv _ v1 _ hpv, ihm _ a _ ho]
                rfl
              · injection h with h2
                injection h2 with h3
                injection h3 with h4
                rw [← h4, jwfMembers_cons, ihv _ v1 _ hpv]
                rfl
              · exact absurd h (by simp)
          · exact absurd h (by simp)
      · exact absurd h (by simp)


theorem json_loads_wf (s : String) (v : JValue) (h : json_loads s = some (some v)) :
    jwf v = true := by
  simp only [json_loads] at h
  split at h
  · rename_i v2 r hpv
    split at h
    · injection h with h2
      injection h2 with h3
      rw [← h3]
      exact (parse_ok_wf _).1 _ v2 r hpv
    · exact absurd h (by simp)
  · exact absurd h (by simp)
  · exact absurd h (by simp)


/-! # Claims -/

theorem fileNames_of_fileEntries {children : List Entry} {n : String} {rd : Option String}
    (h : (n, rd) ∈ fileEntries children) : n ∈ fileNames children := by
  induction children with
  | nil => simp [fileEntries] at h
  | cons e rest ih =>
    cases e with
    | file m r2 =>
      simp only [fileEntries, List.mem_cons] at h
      rcases h with h | h
      · simp only [Prod.mk.injEq] at h
        exact List.mem_cons.mpr (Or.inl h.1)
      · exact List.mem_cons_of_mem _ (ih h)
    | dir m cs =>
      simp only [fileEntries] at h
      simpa [fileNames] using ih h

/-- Claim C3: for every fragment of the static deny-list that occurs as a
filesystem segment of a path (split on the separator), should_ignore reports
exclusion, whatever the gitignore cache holds. -/
theorem C3_static_fragment_excludes (F p : String) (cache : Cache)
    (hF : F ∈ IGNORE_PATTERNS) (hseg : F ∈ segsOf p) :
    should_ignore p cache = true := by
  unfold should_ignore
  rw [if_pos ?_]
  simp only [List.any_eq_true]
  exact ⟨F, hF, by simpa using hseg⟩

/-- Claim C3 witness: the fragment .git inside the path a/.git/b is excluded
even with an unrelated cache binding present. -/
theorem C3_static_fragment_excludes_witness :
    ".git" ∈ IGNORE_PATTERNS ∧ ".git" ∈ segsOf "a/.git/b" ∧
    should_ignore "a/.git/b" [("z", false)] = true :=
  ⟨by decide, by decide,
   C3_static_fragment_excludes ".git" "a/.git/b" [("z", false)] (by decide) (by decide)⟩

/-- Claim C4 (corrected): a pattern written with a leading separator is not
anchored to the root: after the separator is stripped, the pattern is still
matched against the base name alone, so it matches a same-named entry at any
depth of the tree. -/
theorem C4_stripped_pattern_matches_basename (pat path root : String)
    (hs : pat.data.head? = some '/')
    (hb : fnmatch (basename path) (String.mk (pat.data.drop 1)) = true) :
    GitIgnore.matches [pat] path root = true := by
  unfold GitIgnore.matches
  simp only [List.any_cons, List.any_nil, Bool.or_false, hs, if_true, hb, Bool.or_true]

/-- Claim C4 witness: the pattern /build matches the entry r/a/build against
the root r through its base name. -/
theorem C4_stripped_pattern_matches_basename_witness :
    ("/build" : String).data.head? = some '/' ∧
    fnmatch (basename "r/a/build") (String.mk (("/build" : String).data.drop 1)) = true ∧
    GitIgnore.matches ["/build"] "r/a/build" "r" = true :=
  ⟨rfl, by decide, C4_stripped_pattern_matches_basename "/build" "r/a/build" "r" rfl (by decide)⟩

/-- Claim C4 counterexample: the root-relative form a/build of the entry
r/a/build does not match the stripped pattern build, yet the matcher reports
a match, so the leading separator does not anchor the pattern to the root. -/
theorem C4_anchoring_cex :
    String.mk (("r/a/build" : String).data.drop (("r" : String).data.length + 1)) = "a/build" ∧
    fnmatch "a/build" "build" = false ∧
    GitIgnore.matches ["/build"] "r/a/build" "r" = true :=
  ⟨rfl, by decide, by decide⟩

/-- Claim C5 (corrected): for a single directory input, the decision cache is
a pure optimisation: the rendered map section equals the one of the variant
that recomputes every ignore decision per lookup, and so does the rendered
contents section whenever no directory path of the tree coincides with a file
path (true of any real filesystem tree). -/
theorem C5_single_root_recompute (p : String) (children : List Entry)
    (hsep1 : p ∉ filePathsE p [] children)
    (hsep2 : ∀ d ∈ dirPathsE p [] children, d ∉ filePathsE p [] children) :
    build_file_map [(p, .dirNode children)] = build_file_map_pure [(p, .dirNode children)] ∧
    build_file_contents [(p, .dirNode children)] =
      build_file_contents_pure [(p, .dirNode children)] :=
  ⟨build_map_single_eq_pure p children, build_contents_single_eq_pure p children hsep1 hsep2⟩

/-- Claim C5 witness: on a concrete tree with a rules file, a subdirectory and
a nested file, both the map section and the contents section of the single-input
run coincide with the recomputing variant. -/
theorem C5_single_root_recompute_witness :
    ("A" : String) ∉ filePathsE "A" [] [.file ".gitignore" (some "sub\n"),
        .dir "sub" [.file "x.txt" (some "hi")]] ∧
    (∀ d ∈ dirPathsE "A" [] [.file ".gitignore" (some "sub\n"),
        .dir "sub" [.file "x.txt" (some "hi")]],
      d ∉ filePathsE "A" [] [.file ".gitignore" (some "sub\n"),
        .dir "sub" [.file "x.txt" (some "hi")]]) ∧
    (build_file_map [("A", .dirNode [.file ".gitignore" (some "sub\n"),
        .dir "sub" [.file "x.txt" (some "hi")]])] =
      build_file_map_pure [("A", .dirNode [.file ".gitignore" (some "sub\n"),
        .dir "sub" [.file "x.txt" (some "hi")]])] ∧
     build_file_contents [("A", .dirNode [.file ".gitignore" (some "sub\n"),
        .dir "sub" [.file "x.txt" (some "hi")]])] =
      build_file_contents_pure [("A", .dirNode [.file ".gitignore" (some "sub\n"),
        .dir "sub" [.file "x.txt" (some "hi")]])]) :=
  ⟨by decide, by decide,
    C5_single_root_recompute "A" [.file ".gitignore" (some "sub\n"),
      .dir "sub" [.file "x.txt" (some "hi")]] (by decide) (by decide)⟩

/-- Claim C5 counterexample: with two input paths the cache is shared across
roots and observable: decisions recorded while walking A suppress the listing
of A/sub, which the recompute variant renders. -/
theorem C5_shared_cache_cex :
    build_file_map [("A", .dirNode [.file ".gitignore" (some "sub\n"),
        .dir "sub" [.file "x.txt" (some "hi")]]),
      ("A/sub", .dirNode [.file "x.txt" (some "hi")])] ≠
    build_file_map_pure [("A", .dirNode [.file ".gitignore" (some "sub\n"),
        .dir "sub" [.file "x.txt" (some "hi")]]),
      ("A/sub", .dirNode [.file "x.txt" (some "hi")])] := by
  unfold build_file_map build_file_map_pure
  simp only [List.foldl_cons, List.foldl_nil, walkMap, walkMapChildren, pureMap, pureMapChildren]
  decide

/-- Claim C6 (corrected): the lines the map section emits for one visited
directory are the surviving subdirectory names in sorted order followed by
the surviving file names in sorted order (not one merged lexicographic
sequence), and every line is indented by exactly 4 spaces per depth level. -/
theorem C6_map_order_indent (level : Nat) (keep : String → Bool)
    (dirs files : List String) :
    mapNodeLines level keep dirs files =
      ((sortedStr dirs).filter keep).map (mapEntryLine level) ++
        ((sortedStr files).filter keep).map (mapEntryLine level) ∧
    List.Sorted strRel ((sortedStr dirs).filter keep) ∧
    List.Sorted strRel ((sortedStr files).filter keep) ∧
    ∀ name, mapEntryLine level name = indentStr level ++ "├── " ++ name ++ "\n" ∧
      (indentStr level).data.length = 4 * level := by
  refine ⟨?_, ?_, ?_, fun name => ⟨rfl, indentStr_len level⟩⟩
  · unfold mapNodeLines
    rw [filterMap_if_eq, filterMap_if_eq]
  · exact List.Pairwise.filter keep (sortedStr_sorted dirs)
  · exact List.Pairwise.filter keep (sortedStr_sorted files)

/-- Claim C6 counterexample: a directory holding the subdirectory b and the
file a is listed as b then a, which is not lexicographic order. -/
theorem C6_unsorted_cex :
    (walkMap "r" [] [] [.dir "b" [], .file "a" (some "x")] []).2 =
      ["├── b\n", "├── a\n"] ∧ ¬ strRel "b" "a" := by
  constructor
  · simp only [walkMap, walkMapChildren]
    decide
  · decide

/-- Claim C10: a plain-file input is rendered in the map section as a single
marker line with no ignore check at all, for every path and read outcome;
the contents section does apply the check to the same input and renders
nothing when it excludes the file. -/
theorem C10_file_input_map_unchecked (p : String) (rd : Option String) :
    build_file_map [(p, .fileNode rd)] =
      String.join ["<file_map>\n", p ++ "\n", "├── " ++ basename p ++ "\n", "</file_map>\n"] ∧
    (should_ignore p [] = true →
      build_file_contents [(p, .fileNode rd)] =
        String.join ["<file_contents>\n", "</file_contents>"]) := by
  constructor
  · rfl
  · intro h
    unfold build_file_contents
    simp only [List.foldl_cons, List.foldl_nil]
    have hg : get_file_contents p rd [] = none := by
      unfold get_file_contents
      rw [if_pos h]
    rw [hg]
    rfl

/-- Claim C10 witness: the file input .DS_Store, whose name is in the static
deny-list, still appears in the map, while the contents section omits it. -/
theorem C10_file_input_map_unchecked_witness :
    build_file_map [(".DS_Store", .fileNode (some "x"))] =
      String.join ["<file_map>\n", ".DS_Store" ++ "\n",
        "├── " ++ basename ".DS_Store" ++ "\n", "</file_map>\n"] ∧
    build_file_contents [(".DS_Store", .fileNode (some "x"))] =
      String.join ["<file_contents>\n", "</file_contents>"] :=
  ⟨(C10_file_input_map_unchecked ".DS_Store" (some "x")).1,
   (C10_file_input_map_unchecked ".DS_Store" (some "x")).2 rfl⟩

/-- Claim C1 (corrected): a directory excluded by a static fragment is pruned
from both walks: nothing of its subtree is rendered and the cache is left
unchanged; a directory whose glob exclusion has been recorded in the cache is
pruned from the map walk.  (The contents walk does not prune glob-excluded
directories; see the counterexample.) -/
theorem C1_excluded_dir_prunes (top : String) (P : List String) (rel : List String)
    (children : List Entry) (cache : Cache) :
    (should_ignore (pathOf top rel) [] = true →
      walkMap top P rel children cache = (cache, []) ∧
      walkContents top P rel children cache = (cache, [])) ∧
    (cacheLookup cache (pathOf top rel) = some true →
      walkMap top P rel children cache = (cache, [])) := by
  constructor
  · intro h
    refine ⟨?_, walkContents_static top P rel children cache h⟩
    have h2 := should_ignore_static_any_cache cache h
    simp only [walkMap, h2, if_true]
  · intro h
    have h2 : should_ignore (pathOf top rel) cache = true := by
      unfold should_ignore
      by_cases hs : IGNORE_PATTERNS.any
          (fun pattern => (segsOf (pathOf top rel)).contains pattern) = true
      · rw [if_pos hs]
      · rw [if_neg hs, h]
    simp only [walkMap, h2, if_true]

/-- Claim C1 witness: the statically excluded directory r/.git is pruned from
both walks, and a directory cached as glob-excluded is pruned from the map
walk. -/
theorem C1_excluded_dir_prunes_witness :
    (walkMap "r" [] [".git"] [.file "a.txt" (some "hi")] [] = ([], []) ∧
      walkContents "r" [] [".git"] [.file "a.txt" (some "hi")] [] = ([], [])) ∧
    walkMap "r" [] ["build"] [.file "x.txt" (some "hi")] [("r/build", true)] =
      ([("r/build", true)], []) :=
  ⟨(C1_excluded_dir_prunes "r" [] [".git"] [.file "a.txt" (some "hi")] []).1 (by decide),
   (C1_excluded_dir_prunes "r" [] ["build"] [.file "x.txt" (some "hi")]
     [("r/build", true)]).2 (by decide)⟩

/-- Claim C1 counterexample: the directory build is excluded by the loaded
glob rule build, and the file under it matches no rule and no static
fragment, yet its block appears in the contents section: descent is not
pruned there. -/
theorem C1_glob_dir_contents_cex :
    cachedDecision (loadGitignore [Entry.file ".gitignore" (some "build\n"),
        Entry.dir "build" [Entry.file "x.txt" (some "hi")]]) "r" ("r" ++ "/" ++ "build") = true ∧
    GitIgnore.matches ["build"] "r/build/x.txt" "r" = false ∧
    should_ignore "r/build/x.txt" [] = false ∧
    containsSub "File: build/x.txt" (build_file_contents [("r", .dirNode
      [Entry.file ".gitignore" (some "build\n"),
       Entry.dir "build" [Entry.file "x.txt" (some "hi")]])]) = true := by
  refine ⟨by decide, by decide, by decide, ?_⟩
  unfold build_file_contents
  simp only [List.foldl_cons, List.foldl_nil, walkContents, walkContentsChildren]
  decide

/-- Claim C2 (corrected): at every visited directory of the map walk, at any
depth, an entry whose path matches a loaded glob rule is dropped together
with its subtree (the walk renders the same lines as for the tree without
that entry); a file at any depth whose path matches a rule is omitted from
the contents walk; and a file at any depth matching no rule, with no static
fragment and no excluded enclosing directory, is rendered by both walks. -/
theorem C2_glob_rules (p : String) (P : List String) :
    (∀ (rel : List String) (cache : Cache) (pre post : List Entry) (e : Entry),
      INVP P p cache →
      (rel = [] → cacheLookup cache (pathOf p rel) = none) →
      (rel ≠ [] → cacheLookup cache (pathOf p rel) =
        some (cachedDecision P p (pathOf p rel))) →
      P ≠ [] →
      GitIgnore.matches P (pathOf p rel ++ "/" ++ e.name) p = true →
      (walkMap p P rel (pre ++ e :: post) cache).2 =
        (walkMap p P rel (pre ++ post) cache).2) ∧
    (∀ (children : List Entry) (target : List String),
      target ≠ [] →
      (∀ m ∈ target, slashFree m = true) →
      slashFreeEntries children = true →
      P ≠ [] →
      GitIgnore.matches P (pathOf p target) p = true →
      ("File: " ++ joinSegs target ++ "\n") ∉ (walkContents p P [] children []).2) ∧
    (∀ (children : List Entry) (segsD : List String) (csD : List Entry)
        (n : String) (rd : Option String),
      should_ignore p [] = false →
      dirAt children segsD = some csD →
      (∀ k, 1 ≤ k → k ≤ segsD.length →
        (P ≠ [] → GitIgnore.matches P (pathOf p (segsD.take k)) p = false) ∧
        should_ignore (pathOf p (segsD.take k)) [] = false) →
      (n, rd) ∈ fileEntries csD →
      (P ≠ [] → GitIgnore.matches P (pathOf p segsD ++ "/" ++ n) p = false) →
      should_ignore (pathOf p segsD ++ "/" ++ n) [] = false →
      mapEntryLine segsD.length n ∈ (walkMap p P [] children []).2 ∧
      ("File: " ++ joinSegs (segsD ++ [n]) ++ "\n") ∈ (walkContents p P [] children []).2) := by
  have hPe : ∀ (_ : P ≠ []), (!P.isEmpty) = true := by
    intro hne
    cases P with
    | nil => exact absurd rfl hne
    | cons a l => rfl
  refine ⟨?_, ?_, ?_⟩
  · intro rel cache pre post e hinv h1 h2 hne hm
    have hd : cachedDecision P p (pathOf p rel ++ "/" ++ e.name) = true := by
      unfold cachedDecision
      rw [if_pos (by rw [hPe hne, hm]; rfl)]
    rw [walkMap_eq_pure p P rel (pre ++ e :: post) cache ⟨hinv, h1, h2⟩,
      walkMap_eq_pure p P rel (pre ++ post) cache ⟨hinv, h1, h2⟩,
      pureMap_delete p P rel pre post e hd]
  · intro children target htne htsf hsfe hne hm
    have hd : cachedDecision P p (pathOf p target) = true := by
      unfold cachedDecision
      rw [if_pos (by rw [hPe hne, hm]; rfl)]
    exact walkContents_excl p P target htne htsf hd [] children []
      (INVP_nil P p) (by simp) hsfe
  · intro children segsD csD n rd hroot hat hanc hmem hnm hstat
    have hcd : ∀ k, 1 ≤ k → k ≤ segsD.length →
        cachedDecision P p (pathOf p (([] : List String) ++ segsD.take k)) = false := by
      intro k h1 h2
      have ha := hanc k h1 h2
      show cachedDecision P p (pathOf p (segsD.take k)) = false
      unfold cachedDecision
      cases P with
      | nil => simpa using ha.2
      | cons q qs =>
        rw [ha.1 (by simp)]
        simpa using ha.2
    have hd : cachedDecision P p (pathOf p (([] : List String) ++ segsD) ++ "/" ++ n) = false := by
      show cachedDecision P p (pathOf p segsD ++ "/" ++ n) = false
      unfold cachedDecision
      cases P with
      | nil => simpa using hstat
      | cons q qs =>
        rw [hnm (by simp)]
        simpa using hstat
    exact ⟨walkMap_incl p P segsD [] children [] csD n (INVP_nil P p)
        (by rw [pathOf_nil]; exact hroot) hcd hat
        (Or.inr (fileNames_of_fileEntries hmem)) hd,
      walkContents_incl p P segsD [] children [] csD n rd (INVP_nil P p)
        (by rw [pathOf_nil]; exact hroot) hcd hat hmem hd⟩

/-- Claim C2 witness: with the loaded rule star-dot-log, the depth-two entry
sub/run.log is dropped from the map walk of its directory and omitted from
the contents walk of the root, while the depth-two file sub/run.txt is
rendered by both walks. -/
theorem C2_glob_rules_witness :
    (walkMap "r" ["*.log"] ["sub"]
      [Entry.file "run.log" (some "x"), Entry.file "run.txt" (some "y")]
      [("r/sub", false)]).2 =
    (walkMap "r" ["*.log"] ["sub"] [Entry.file "run.txt" (some "y")]
      [("r/sub", false)]).2 ∧
    ("File: " ++ "sub/run.log" ++ "\n") ∉ (walkContents "r" ["*.log"] []
      [Entry.file ".gitignore" (some "*.log\n"),
       Entry.dir "sub" [Entry.file "run.log" (some "x"), Entry.file "run.txt" (some "y")]]
      []).2 ∧
    mapEntryLine 1 "run.txt" ∈ (walkMap "r" ["*.log"] []
      [Entry.file ".gitignore" (some "*.log\n"),
       Entry.dir "sub" [Entry.file "run.log" (some "x"), Entry.file "run.txt" (some "y")]]
      []).2 ∧
    ("File: " ++ "sub/run.txt" ++ "\n") ∈ (walkContents "r" ["*.log"] []
      [Entry.file ".gitignore" (some "*.log\n"),
       Entry.dir "sub" [Entry.file "run.log" (some "x"), Entry.file "run.txt" (some "y")]]
      []).2 :=
  ⟨(C2_glob_rules "r" ["*.log"]).1 ["sub"] [("r/sub", false)] []
      [Entry.file "run.txt" (some "y")] (Entry.file "run.log" (some "x"))
      (by intro kv hkv; rw [List.mem_singleton.mp hkv]; rfl) (by decide) (by decide)
      (by decide) (by decide),
   (C2_glob_rules "r" ["*.log"]).2.1
      [Entry.file ".gitignore" (some "*.log\n"),
       Entry.dir "sub" [Entry.file "run.log" (some "x"), Entry.file "run.txt" (some "y")]]
      ["sub", "run.log"] (by decide) (by decide) (by decide) (by decide) (by decide),
   ((C2_glob_rules "r" ["*.log"]).2.2
      [Entry.file ".gitignore" (some "*.log\n"),
       Entry.dir "sub" [Entry.file "run.log" (some "x"), Entry.file "run.txt" (some "y")]]
      ["sub"] [Entry.file "run.log" (some "x"), Entry.file "run.txt" (some "y")]
      "run.txt" (some "y") (by decide) rfl
      (by intro k h1 h2; simp at h2; interval_cases k; exact ⟨fun _ => by decide, by decide⟩)
      (by decide) (fun _ => by decide) (by decide)).1,
   ((C2_glob_rules "r" ["*.log"]).2.2
      [Entry.file ".gitignore" (some "*.log\n"),
       Entry.dir "sub" [Entry.file "run.log" (some "x"), Entry.file "run.txt" (some "y")]]
      ["sub"] [Entry.file "run.log" (some "x"), Entry.file "run.txt" (some "y")]
      "run.txt" (some "y") (by decide) rfl
      (by intro k h1 h2; simp at h2; interval_cases k; exact ⟨fun _ => by decide, by decide⟩)
      (by decide) (fun _ => by decide) (by decide)).2⟩

/-- Claim C2 counterexample: the file r/build/x.txt matches no loaded rule
and holds no static fragment, yet it is absent from the map section, because
its parent directory matched a rule and the map walk pruned the subtree: the
inclusion half of the claim fails for paths below an excluded directory. -/
theorem C2_pruned_parent_cex :
    GitIgnore.matches ["build"] "r/build/x.txt" "r" = false ∧
    should_ignore "r/build/x.txt" [] = false ∧
    containsSub "x.txt" (build_file_map [("r", .dirNode
      [Entry.file ".gitignore" (some "build\n"),
       Entry.dir "build" [Entry.file "x.txt" (some "hi")]])]) = false := by
  refine ⟨by decide, by decide, ?_⟩
  unfold build_file_map
  simp only [List.foldl_cons, List.foldl_nil, walkMap, walkMapChildren]
  decide

/-- Claim C7: a file with the structured-data extension whose content parses
within the modelled integer fragment is emitted as the re-serialisation with
4-space indentation, and re-parsing the emitted text yields the value parsed
from the original content; on a raised decode error the raw content is
emitted unchanged.  (A content the library parses to a value outside the
fragment is `some none` and settled by neither branch.) -/
theorem C7_json_roundtrip (p content : String) (cache : Cache)
    (hjson : pathSuffix p = ".json")
    (hig : should_ignore p cache = false) (hbin : isBinaryGuess p = false) :
    (∀ v, json_loads content = some (some v) →
      get_file_contents p (some content) cache = some (json_dumps v) ∧
      json_loads (json_dumps v) = some (some v)) ∧
    (json_loads content = none →
      get_file_contents p (some content) cache = some content) := by
  constructor
  · intro v hv
    refine ⟨?_, json_loads_dumps v (json_loads_wf content v hv)⟩
    unfold get_file_contents
    simp only [hig, hbin, Bool.false_eq_true, if_false]
    rw [if_pos hjson, hv]
  · intro hn
    unfold get_file_contents
    simp only [hig, hbin, Bool.false_eq_true, if_false]
    rw [if_pos hjson, hn]

/-- Claim C7 witness: the content of a.json parses to the array of 1 and 2,
is re-emitted with stable indentation, and re-parses to the same value. -/
theorem C7_json_roundtrip_witness :
    json_loads "[1, 2]" = some (some (JValue.arr [JValue.num 1, JValue.num 2])) ∧
    get_file_contents "a.json" (some "[1, 2]") [] =
      some (json_dumps (JValue.arr [JValue.num 1, JValue.num 2])) ∧
    json_loads (json_dumps (JValue.arr [JValue.num 1, JValue.num 2])) =
      some (some (JValue.arr [JValue.num 1, JValue.num 2])) :=
  ⟨rfl,
   ((C7_json_roundtrip "a.json" "[1, 2]" [] rfl rfl rfl).1
     (JValue.arr [JValue.num 1, JValue.num 2]) rfl).1,
   ((C7_json_roundtrip "a.json" "[1, 2]" [] rfl rfl rfl).1
     (JValue.arr [JValue.num 1, JValue.num 2]) rfl).2⟩

/-- Claim C8: a read failure of a non-ignored, non-binary file yields the
empty content, whose block is a header and an empty fenced block; replacing
every failing read by an empty successful read leaves the whole contents
section unchanged, so the traversal reaches the end with everything else
collected. -/
theorem C8_read_failure_recovered (p : String) (cache : Cache)
    (inputs : List (String × Node))
    (hig : should_ignore p cache = false) (hbin : isBinaryGuess p = false) :
    get_file_contents p none cache = some "" ∧
    (∀ r, contentBlock r "" = ["File: " ++ r ++ "\n", "```\n\n```\n\n"]) ∧
    build_file_contents (defErrInputs inputs) = build_file_contents inputs := by
  refine ⟨?_, fun r => rfl, build_file_contents_defErr inputs⟩
  unfold get_file_contents
  simp only [hig, hbin, Bool.false_eq_true, if_false]

/-- Claim C8 witness: the unreadable file a.txt yields the empty content, and
a tree holding a failing read renders the same contents section as the tree
where that read returns the empty string. -/
theorem C8_read_failure_recovered_witness :
    get_file_contents "a.txt" none [] = some "" ∧
    contentBlock "a.txt" "" = ["File: " ++ "a.txt" ++ "\n", "```\n\n```\n\n"] ∧
    build_file_contents (defErrInputs [("r", .dirNode [Entry.file "bad.txt" none,
        Entry.file "good.txt" (some "ok")])]) =
      build_file_contents [("r", .dirNode [Entry.file "bad.txt" none,
        Entry.file "good.txt" (some "ok")])] :=
  ⟨(C8_read_failure_recovered "a.txt" []
      [("r", .dirNode [Entry.file "bad.txt" none, Entry.file "good.txt" (some "ok")])]
      rfl rfl).1,
   (C8_read_failure_recovered "a.txt" []
      [("r", .dirNode [Entry.file "bad.txt" none, Entry.file "good.txt" (some "ok")])]
      rfl rfl).2.1 "a.txt",
   (C8_read_failure_recovered "a.txt" []
      [("r", .dirNode [Entry.file "bad.txt" none, Entry.file "good.txt" (some "ok")])]
      rfl rfl).2.2⟩

/-- Claim C9: main exits with code 1 after printing a message when given no
arguments or when no given path exists, and no clipboard write happens in
either case; otherwise it writes the concatenated sections to the clipboard,
prints the confirmation and exits with code 0. -/
theorem C9_main_exit_codes (argv : List String) (fs : List (String × Node)) :
    (argv = [] → main_run argv fs =
      { exit_code := 1, stdout := ["Please provide at least one file or folder path"],
        clipboard := none }) ∧
    (argv.filter (fun q => (lookupNode fs q).isSome) = [] →
      (main_run argv fs).exit_code = 1 ∧ (main_run argv fs).clipboard = none) ∧
    (argv.filter (fun q => (lookupNode fs q).isSome) ≠ [] →
      main_run argv fs =
        { exit_code := 0, stdout := ["Prompt copied to clipboard"],
          clipboard := some (build_file_map ((argv.filter
              (fun q => (lookupNode fs q).isSome)).filterMap
              (fun q => (lookupNode fs q).map (fun nd => (q, nd)))) ++ "\n" ++
            build_file_contents ((argv.filter
              (fun q => (lookupNode fs q).isSome)).filterMap
              (fun q => (lookupNode fs q).map (fun nd => (q, nd))))) }) := by
  refine ⟨?_, ?_, ?_⟩
  · intro h
    subst h
    rfl
  · intro hval
    by_cases ha : argv = []
    · subst ha
      exact ⟨rfl, rfl⟩
    · have hae : argv.isEmpty = false := by
        cases argv with
        | nil => exact absurd rfl ha
        | cons a l => rfl
      have hve : (argv.filter (fun q => (lookupNode fs q).isSome)).isEmpty = true := by
        rw [hval]
        rfl
      unfold main_run
      simp only [hae, Bool.false_eq_true, if_false, hve, if_true]
      trivial
  · intro hval
    by_cases ha : argv = []
    · exact absurd (by rw [ha]; rfl) hval
    · have hae : argv.isEmpty = false := by
        cases argv with
        | nil => exact absurd rfl ha
        | cons a l => rfl
      have hve : (argv.filter (fun q => (lookupNode fs q).isSome)).isEmpty = false := by
        cases hx : argv.filter (fun q => (lookupNode fs q).isSome) with
        | nil => exact absurd hx hval
        | cons a l => rfl
      unfold main_run
      simp only [hae, hve, Bool.false_eq_true, if_false]

/-- Claim C9 witness: the empty argument list exits with code 1 and no
clipboard write; an argument list whose paths all fail to resolve exits with
code 1; one resolving path yields exit code 0, the confirmation line and the
clipboard write. -/
theorem C9_main_exit_codes_witness :
    main_run [] [("x", Node.fileNode (some "hi"))] =
      { exit_code := 1, stdout := ["Please provide at least one file or folder path"],
        clipboard := none } ∧
    (main_run ["zz"] [("x", Node.fileNode (some "hi"))]).exit_code = 1 ∧
    (main_run ["zz"] [("x", Node.fileNode (some "hi"))]).clipboard = none ∧
    main_run ["x", "nope"] [("x", Node.fileNode (some "hi"))] =
      { exit_code := 0, stdout := ["Prompt copied to clipboard"],
        clipboard := some (build_file_map ((["x", "nope"].filter
            (fun q => (lookupNode [("x", Node.fileNode (some "hi"))] q).isSome)).filterMap
            (fun q => (lookupNode [("x", Node.fileNode (some "hi"))] q).map
              (fun nd => (q, nd)))) ++ "\n" ++
          build_file_contents ((["x", "nope"].filter
            (fun q => (lookupNode [("x", Node.fileNode (some "hi"))] q).isSome)).filterMap
            (fun q => (lookupNode [("x", Node.fileNode (some "hi"))] q).map
              (fun nd => (q, nd))))) } :=
  ⟨(C9_main_exit_codes [] [("x", Node.fileNode (some "hi"))]).1 rfl,
   ((C9_main_exit_codes ["zz"] [("x", Node.fileNode (some "hi"))]).2.1 (by decide)).1,
   ((C9_main_exit_codes ["zz"] [("x", Node.fileNode (some "hi"))]).2.1 (by decide)).2,
   (C9_main_exit_codes ["x", "nope"] [("x", Node.fileNode (some "hi"))]).2.2 (by decide)⟩
